import Mathlib

/-!
# Attack-path analysis engine of `src/app.js`

A shallow embedding of the risk model (`calculateAverageCVSS`, `calculateEdgeCosts`),
the two path-finding strategies (`dijkstra`, `findAllPathsDFS`), the analysis run
(`runAnalysis`, `highlightCriticalPath`) and the simulations (`simulateFirewallOff`,
`simulatePatchApplied`) of `src/app.js`, followed by theorems about them.

Conventions of the embedding.

* JavaScript numbers are modelled by rationals `ℚ`, without rounding; the distances of
  `dijkstra`, which may be `Infinity`, have a type of their own, and so have the results of
  the cost computation when the sum of the scores of a node overflows (`JsNumber`).
* The global `topology` is passed explicitly and returned by the functions that mutate it.
* A JavaScript `Set` of ids is a duplicate-free `List String` in insertion order.
* A plain JavaScript object used as a map from ids (`distances`, `previous`) is a function
  from keys to the own property stored there, if any; an assignment to the key `'__proto__'`
  stores nothing, as in the code.
* `while` loops and recursion take a fuel argument and answer `none` when it runs out; the
  callers pass a bound, and the theorems show that the bound is always enough.
* A `TypeError` (reading a property of `undefined`) is `none` as well; `runAnalysis`, which
  has written to the topology before it can raise one, records it in its outcome instead.
* Values that come from outside (`Math.random()`, the selected algorithm) are arguments.
* Logging (`addLog`) and rendering are omitted.
-/

namespace AttackGraph

/-! ## Data model -/

/-- A vulnerability record `{ id, cvssScore, description }`. -/
structure Cve where
  id : String
  cvssScore : ℚ
  description : String
deriving DecidableEq

/-- A node `{ id, type, label, x, y, cves, properties }`.  The fields `label`, `x`, `y` and
`properties` are only displayed and are left out; `cves` may be absent (`undefined`). -/
structure Node where
  id : String
  type : String
  cves : Option (List Cve)
deriving DecidableEq

/-- An edge `{ from, to, cost, critical }`. -/
structure Edge where
  from_ : String
  to_ : String
  cost : ℚ
  critical : Bool
deriving DecidableEq

/-- The global `topology = { nodes, edges }`. -/
structure Topology where
  nodes : List Node
  edges : List Edge
deriving DecidableEq

/-! ## Risk model -/

/-- The function `calculateAverageCVSS(node)`: `0` when `cves` is absent or empty, otherwise
the sum of the scores (a left fold from `0`, as `reduce` does) divided by the number of
records. -/
def calculateAverageCVSS (node : Node) : ℚ :=
  match node.cves with
  | none => 0
  | some cves =>
    if cves.length = 0 then 0
    else
      let sum := cves.foldl (fun acc cve => acc + cve.cvssScore) 0
      sum / cves.length

/-- The arithmetic of `calculateEdgeCosts` on the two average scores (lines 345-354):
`avgCVSS`, `normalizedCVSS = Math.min(10, Math.max(0, avgCVSS))` and
`Math.max(0.1, 10 - normalizedCVSS)`. -/
def edgeCost (fromAvgCVSS toAvgCVSS : ℚ) : ℚ :=
  let avgCVSS := (fromAvgCVSS + toAvgCVSS) / 2
  let normalizedCVSS := min 10 (max 0 avgCVSS)
  max (1 / 10) (10 - normalizedCVSS)

/-- The body of the `forEach` of `calculateEdgeCosts` for one edge. -/
def calculateEdgeCost (nodes : List Node) (edge : Edge) : Edge :=
  match nodes.find? (fun n => n.id = edge.from_), nodes.find? (fun n => n.id = edge.to_) with
  | some fromNode, some toNode =>
    { edge with cost := edgeCost (calculateAverageCVSS fromNode) (calculateAverageCVSS toNode) }
  | _, _ => { edge with cost := 10 }

/-- The function `calculateEdgeCosts()`: every edge gets a new `cost`; nothing else changes. -/
def calculateEdgeCosts (topology : Topology) : Topology :=
  { topology with edges := topology.edges.map (calculateEdgeCost topology.nodes) }

/-! ### The risk model with the overflow of double precision -/

/-- A value of the number type of JavaScript as far as overflow matters: a finite number, kept
exact, or `Infinity`, `-Infinity`, `NaN`. -/
inductive JsNumber where
  | finite (value : ℚ)
  | posInfinity
  | negInfinity
  | nan
deriving DecidableEq

/-- The least magnitude that double precision rounds to an infinity: `2^1024 - 2^970`, half a
unit in the last place above `Number.MAX_VALUE = 2^1024 - 2^971`. -/
def overflowThreshold : ℚ := 2 ^ 1024 - 2 ^ 970

/-- The double that stands for the exact result `x` of an operation, up to the rounding of
finite results. -/
def JsNumber.ofExact (x : ℚ) : JsNumber :=
  if overflowThreshold ≤ x then JsNumber.posInfinity
  else if x ≤ -overflowThreshold then JsNumber.negInfinity
  else JsNumber.finite x

/-- The sum `a + b` of two numbers. -/
def JsNumber.add : JsNumber → JsNumber → JsNumber
  | .finite x, .finite y => JsNumber.ofExact (x + y)
  | .nan, _ => .nan
  | _, .nan => .nan
  | .posInfinity, .negInfinity => .nan
  | .negInfinity, .posInfinity => .nan
  | .posInfinity, _ => .posInfinity
  | _, .posInfinity => .posInfinity
  | .negInfinity, _ => .negInfinity
  | _, .negInfinity => .negInfinity

/-- The negation `-a`. -/
def JsNumber.neg : JsNumber → JsNumber
  | .finite x => .finite (-x)
  | .posInfinity => .negInfinity
  | .negInfinity => .posInfinity
  | .nan => .nan

/-- The difference `a - b`. -/
def JsNumber.sub (a b : JsNumber) : JsNumber :=
  a.add b.neg

/-- The quotient `a / n` by a non-negative integer `n`. -/
def JsNumber.divNat (a : JsNumber) (n : Nat) : JsNumber :=
  match a with
  | .finite x =>
    if n = 0 then
      if 0 < x then .posInfinity else if x < 0 then .negInfinity else .nan
    else .finite (x / n)
  | .posInfinity => .posInfinity
  | .negInfinity => .negInfinity
  | .nan => .nan

/-- The call `Math.max(a, b)`: `NaN` when an argument is `NaN`. -/
def JsNumber.mathMax : JsNumber → JsNumber → JsNumber
  | .nan, _ => .nan
  | _, .nan => .nan
  | .posInfinity, _ => .posInfinity
  | _, .posInfinity => .posInfinity
  | .negInfinity, b => b
  | a, .negInfinity => a
  | .finite x, .finite y => .finite (max x y)

/-- The call `Math.min(a, b)`: `NaN` when an argument is `NaN`. -/
def JsNumber.mathMin : JsNumber → JsNumber → JsNumber
  | .nan, _ => .nan
  | _, .nan => .nan
  | .negInfinity, _ => .negInfinity
  | _, .negInfinity => .negInfinity
  | .posInfinity, b => b
  | a, .posInfinity => a
  | .finite x, .finite y => .finite (min x y)

/-- The comparison `a <= b`: `false` when an operand is `NaN`. -/
def JsNumber.le : JsNumber → JsNumber → Bool
  | .nan, _ => false
  | _, .nan => false
  | .negInfinity, _ => true
  | _, .posInfinity => true
  | .finite x, .finite y => decide (x ≤ y)
  | .finite _, .negInfinity => false
  | .posInfinity, _ => false

/-- The function `calculateAverageCVSS(node)` with the overflow of the sum: the scores are
finite numbers, the sum that `reduce` builds may reach an infinity. -/
def calculateAverageCVSSDouble (node : Node) : JsNumber :=
  match node.cves with
  | none => JsNumber.finite 0
  | some cves =>
    if cves.length = 0 then JsNumber.finite 0
    else
      let sum := cves.foldl (fun acc cve => acc.add (JsNumber.finite cve.cvssScore))
        (JsNumber.finite 0)
      sum.divNat cves.length

/-- The arithmetic of `calculateEdgeCosts` (lines 345-354) on two average scores that may be
infinite. -/
def edgeCostDouble (fromAvgCVSS toAvgCVSS : JsNumber) : JsNumber :=
  let avgCVSS := (fromAvgCVSS.add toAvgCVSS).divNat 2
  let normalizedCVSS := JsNumber.mathMin (JsNumber.finite 10)
    (JsNumber.mathMax (JsNumber.finite 0) avgCVSS)
  JsNumber.mathMax (JsNumber.finite (1 / 10)) ((JsNumber.finite 10).sub normalizedCVSS)

/-- The value that the body of the `forEach` of `calculateEdgeCosts` assigns to `edge.cost`,
with the overflow of the sums of scores. -/
def calculateEdgeCostDouble (nodes : List Node) (edge : Edge) : JsNumber :=
  match nodes.find? (fun n => n.id = edge.from_), nodes.find? (fun n => n.id = edge.to_) with
  | some fromNode, some toNode =>
    edgeCostDouble (calculateAverageCVSSDouble fromNode) (calculateAverageCVSSDouble toNode)
  | _, _ => JsNumber.finite 10

/-- Two sums of scores that overflow in opposite directions; their sum is `NaN`. -/
def OppositeInfinities (a b : JsNumber) : Prop :=
  (a = JsNumber.posInfinity ∧ b = JsNumber.negInfinity) ∨
    (a = JsNumber.negInfinity ∧ b = JsNumber.posInfinity)

/-- The records of `mockCVE.server`. -/
def mockCVE_server : List Cve :=
  [⟨"CVE-2023-1234", 98 / 10, "Kritik uzaktan kod çalıştırma zafiyeti"⟩,
   ⟨"CVE-2023-5678", 75 / 10, "Ayrıcalık yükseltme zafiyeti"⟩,
   ⟨"CVE-2023-9012", 62 / 10, "Bilgi ifşası zafiyeti"⟩]

/-- The records of `mockCVE.database`. -/
def mockCVE_database : List Cve :=
  [⟨"CVE-2023-2345", 89 / 10, "SQL enjeksiyon zafiyeti"⟩,
   ⟨"CVE-2023-3456", 71 / 10, "Kimlik doğrulama bypass"⟩]

/-- The records of `mockCVE.pc`. -/
def mockCVE_pc : List Cve :=
  [⟨"CVE-2023-9012", 78 / 10, "Yerel ayrıcalık yükseltme"⟩]

/-- The topology that `loadDefaultTopology()` writes before it calls `calculateEdgeCosts()`:
four nodes and three edges of cost `0`. -/
def defaultTopology : Topology :=
  { nodes :=
      [⟨"internet", "internet", some []⟩,
       ⟨"web-server", "server", some mockCVE_server⟩,
       ⟨"db-server", "database", some mockCVE_database⟩,
       ⟨"admin-pc", "pc", some mockCVE_pc⟩],
    edges :=
      [⟨"internet", "web-server", 0, true⟩,
       ⟨"web-server", "db-server", 0, true⟩,
       ⟨"admin-pc", "web-server", 0, false⟩] }

/-- The function `loadDefaultTopology()`. -/
def loadDefaultTopology : Topology :=
  calculateEdgeCosts defaultTopology

/-! ## Sets and maps of ids -/

/-- The call `set.add(x)` on an insertion-ordered set. -/
def setAdd (s : List String) (x : String) : List String :=
  if x ∈ s then s else s ++ [x]

/-- The call `set.delete(x)`. -/
def setDelete (s : List String) (x : String) : List String :=
  s.filter (fun y => y ≠ x)

/-- The assignment `obj[key] = value` on a plain object `{}` used as a map, for the values
that `dijkstra` stores (a number, `null`, an id).  A map holds `none` at a key that is no own
property.  The key `'__proto__'` is the accessor inherited from `Object.prototype`: assigning a
number to it does nothing and assigning `null` to it clears the prototype, so that no own
property is created and the key keeps reading as something that is neither a number nor
`null`. -/
def setKey {α : Type} (obj : String → Option α) (key : String) (value : α) :
    String → Option α :=
  fun k => if k = key ∧ key ≠ "__proto__" then some value else obj k

/-- A number stored in `distances`: a finite one or `Infinity`. -/
inductive Distance where
  | number (value : ℚ)
  | infinity
deriving DecidableEq

/-- The comparison `a < b` of two values read from `distances` or held by `minDistance` or
`alt`; `none` is a value that is no number (`undefined`, an object), and a comparison with it
is `false`. -/
def lessThan : Option Distance → Option Distance → Bool
  | some (.number a), some (.number b) => decide (a < b)
  | some (.number _), some .infinity => true
  | _, _ => false

/-- The sum `distances[current] + edge.cost`; it is no number when the first operand is
none.  The sum of two finite numbers is exact: neither its rounding nor its overflow to an
infinity, which takes costs of the order of `10^308` divided by the number of nodes, is
modelled. -/
def addCost : Option Distance → ℚ → Option Distance
  | some (.number d), cost => some (.number (d + cost))
  | some .infinity, _ => some .infinity
  | none, _ => none

/-! ## Least-cost traversal -/

/-- The locals `distances`, `previous` and `unvisited` of `dijkstra`.  The value `some none` of
`previous` is `null`. -/
structure DijkstraState where
  distances : String → Option Distance
  previous : String → Option (Option String)
  unvisited : List String

/-- The initialisation (lines 639-649): every node id gets distance `Infinity`, predecessor
`null` and enters `unvisited`; then `distances[sourceId] = 0`. -/
def dijkstraInit (nodes : List Node) (sourceId : String) : DijkstraState :=
  let st := nodes.foldl
    (fun (st : DijkstraState) node =>
      { distances := setKey st.distances node.id Distance.infinity,
        previous := setKey st.previous node.id none,
        unvisited := setAdd st.unvisited node.id })
    { distances := fun _ => none, previous := fun _ => none, unvisited := [] }
  { st with distances := setKey st.distances sourceId (Distance.number 0) }

/-- The search for the unvisited id of least distance (lines 654-662): the pair
`(current, minDistance)` after the `forEach`. -/
def selectMin (distances : String → Option Distance) (unvisited : List String) :
    Option String × Option Distance :=
  unvisited.foldl
    (fun acc nodeId =>
      if lessThan (distances nodeId) acc.2 then (some nodeId, distances nodeId) else acc)
    (none, some Distance.infinity)

/-- The relaxation of one edge (lines 671-677).  The assignments are made only when `alt` is
less than `distances[edge.to]`, and then `alt` is a number. -/
def relaxEdge (current : String) (st : DijkstraState) (edge : Edge) : DijkstraState :=
  if edge.from_ = current ∧ edge.to_ ∈ st.unvisited then
    match addCost (st.distances current) edge.cost with
    | some alt =>
      if lessThan (some alt) (st.distances edge.to_) then
        { st with distances := setKey st.distances edge.to_ alt,
                  previous := setKey st.previous edge.to_ (some current) }
      else st
    | none => st
  else st

/-- The main `while (unvisited.size > 0)` loop (lines 652-679); the loop is left by
`if (current === null || minDistance === Infinity) break`. -/
def dijkstraLoop (edges : List Edge) : Nat → DijkstraState → Option DijkstraState
  | 0, st => if st.unvisited.length > 0 then none else some st
  | fuel + 1, st =>
    if st.unvisited.length > 0 then
      match selectMin st.distances st.unvisited with
      | (none, _) => some st
      | (some current, minDistance) =>
        if minDistance = some Distance.infinity then some st
        else
          dijkstraLoop edges fuel
            (edges.foldl (relaxEdge current)
              { st with unvisited := setDelete st.unvisited current })
    else some st

/-- The choice of the target (lines 682-692): the pair `(targetNode, maxCVSS)` after the
`forEach`. -/
def selectTarget (nodes : List Node) (distances : String → Option Distance) :
    Option Node × ℚ :=
  nodes.foldl
    (fun acc node =>
      if node.type = "internet" then acc
      else
        let avgCVSS := calculateAverageCVSS node
        if avgCVSS > acc.2 ∧ lessThan (distances node.id) (some Distance.infinity) then
          (some node, avgCVSS)
        else acc)
    (none, 0)

/-- The path reconstruction `while (current !== null)` (lines 701-705); the second argument is
`current`, with `none` for `null`.  Where `previous[current]` is neither `null` nor an id the
loop would go on with a value that is no id; the model stops with `none` there, and
`dijkstra_spec` shows that this is never reached. -/
def reconstructPath (previous : String → Option (Option String)) :
    Nat → Option String → List String → Option (List String)
  | _, none, path => some path
  | 0, some _, _ => none
  | fuel + 1, some current, path =>
    match previous current with
    | some next => reconstructPath previous fuel next (current :: path)
    | none => none

/-- The object returned by `dijkstra`: `{ path, cost, score }` when no target is found,
`{ path, cost, target, targetCVSS }` otherwise. -/
structure DijkstraResult where
  path : List String
  cost : ℚ
  score : Option ℚ
  target : Option String
  targetCVSS : Option ℚ
deriving DecidableEq

/-- The function `dijkstra(sourceId)`.  The main loop deletes one id from `unvisited` in every
round, so `nodes.length` rounds are enough; the predecessor chain of the target has at most
one id per node.  The last branch stands for running out of fuel and for a target whose
distance is no finite number; `dijkstra_spec` shows that it is never taken. -/
def dijkstra (topology : Topology) (sourceId : String) : Option DijkstraResult :=
  match dijkstraLoop topology.edges topology.nodes.length
      (dijkstraInit topology.nodes sourceId) with
  | none => none
  | some st =>
    match selectTarget topology.nodes st.distances with
    | (none, _) => some { path := [], cost := 0, score := some 0, target := none,
                          targetCVSS := none }
    | (some targetNode, maxCVSS) =>
      match reconstructPath st.previous (topology.nodes.length + 1) (some targetNode.id) [],
            st.distances targetNode.id with
      | some path, some (Distance.number totalCost) =>
        some { path := path, cost := totalCost, score := none, target := some targetNode.id,
               targetCVSS := some maxCVSS }
      | _, _ => none

/-! ## Exhaustive enumeration -/

/-- An entry `{ path, cost }` of `paths`. -/
structure PathEntry where
  path : List String
  cost : ℚ
deriving DecidableEq

/-- The variables `visited` and `paths` that the inner function `dfs` shares. -/
structure DfsState where
  visited : List String
  paths : List PathEntry
deriving DecidableEq

/-- The inner function `dfs(current, target, path, totalCost)` (lines 728-748).  The array
`path` is pushed before and popped after each recursive call, so the call receives
`path ++ [edge.to]` and the caller goes on with `path`. -/
def dfs (edges : List Edge) :
    Nat → String → String → List String → ℚ → DfsState → Option DfsState
  | 0, _, _, _, _, _ => none
  | fuel + 1, current, target, path, totalCost, st =>
    if current = target then
      some { st with paths := st.paths ++ [{ path := path, cost := totalCost }] }
    else
      (edges.foldlM
        (fun (s : DfsState) edge =>
          if edge.from_ = current ∧ ¬ edge.to_ ∈ s.visited then
            dfs edges fuel edge.to_ target (path ++ [edge.to_]) (totalCost + edge.cost) s
          else some s)
        { st with visited := setAdd st.visited current }).map
        (fun s => { s with visited := setDelete s.visited current })

/-- The loop over the targets (lines 751-755). -/
def dfsAllTargets (topology : Topology) (sourceId : String) : Option DfsState :=
  topology.nodes.foldlM
    (fun (st : DfsState) node =>
      if node.id ≠ sourceId ∧ node.type ≠ "internet" then
        dfs topology.edges (topology.edges.length + 1) sourceId node.id [sourceId] 0 st
      else some st)
    { visited := [], paths := [] }

/-- The object returned by `findAllPathsDFS`: `{ path, cost, score }` when nothing is found,
`{ path, cost, allPaths }` otherwise. -/
structure DfsResult where
  path : List String
  cost : ℚ
  score : Option ℚ
  allPaths : Option (List PathEntry)
deriving DecidableEq

/-- The call `paths.sort((a, b) => a.cost - b.cost)`: a stable sort by ascending cost. -/
def sortPaths (paths : List PathEntry) : List PathEntry :=
  paths.insertionSort (fun a b => a.cost ≤ b.cost)

/-- The function `findAllPathsDFS(sourceId)`.  A recursive call of `dfs` is made along an edge
to an id that is not yet visited, so the depth never exceeds `edges.length + 1`.  Reading
`paths[0]` of an empty array would raise a `TypeError`; `findAllPathsDFS_allPaths` shows that
the function always returns. -/
def findAllPathsDFS (topology : Topology) (sourceId : String) : Option DfsResult :=
  match dfsAllTargets topology sourceId with
  | none => none
  | some st =>
    if st.paths.length = 0 then
      some { path := [], cost := 0, score := some 0, allPaths := none }
    else
      let paths := sortPaths st.paths
      match paths.head? with
      | none => none
      | some bestPath =>
        some { path := bestPath.path, cost := bestPath.cost, score := none,
               allPaths := some paths }

/-! ## Control-failure simulation -/

/-- The record pushed by `simulateFirewallOff`. -/
def simulatedCve : Cve :=
  ⟨"CVE-SIM-001", 95 / 10, "Güvenlik duvarı devre dışı - Tüm trafik açık"⟩

/-- The mutation `firewall.cves.push(...)` of the first node of type `'firewall'`; `none`
when that node has no `cves` array.  Every node has a list of its own here; an array that
several nodes share in the code (the arrays of `mockCVE`) would show the new record in each
of them.  The connections are not touched either way. -/
def pushFirewallCve : List Node → Option (List Node)
  | [] => some []
  | n :: rest =>
    if n.type = "firewall" then
      match n.cves with
      | none => none
      | some cves => some ({ n with cves := some (cves ++ [simulatedCve]) } :: rest)
    else (pushFirewallCve rest).map (fun rest' => n :: rest')

/-- The function `simulateFirewallOff()` (lines 870-887). -/
def simulateFirewallOff (topology : Topology) : Option Topology :=
  match topology.nodes.find? (fun n => n.type = "firewall") with
  | some _ =>
    (pushFirewallCve topology.nodes).map (fun nodes => { topology with nodes := nodes })
  | none =>
    some { topology with
      edges := topology.edges.map
        (fun edge => { edge with cost := max (1 / 10) (edge.cost * (1 / 2)) }) }

/-! ## Walks -/

/-- The predicate `IsWalk edges u es v`: the connections `es` of the topology lead from `u` to
`v`, each one starting where the one before ends. -/
def IsWalk (edges : List Edge) : String → List Edge → String → Prop
  | u, [], v => u = v
  | u, e :: es, v => e ∈ edges ∧ e.from_ = u ∧ IsWalk edges e.to_ es v

/-- The sum of the connection costs along a walk. -/
def walkCost (es : List Edge) : ℚ :=
  (es.map (fun e => e.cost)).sum

/-! ## Specification of the enumeration -/

/-- The entries that one call of `dfs` appends to `paths`, as a function of the arguments of
the call and of the `visited` set at the time of the call. -/
def enumPaths (edges : List Edge) :
    Nat → String → String → List String → ℚ → List String → List PathEntry
  | 0, _, _, _, _, _ => []
  | fuel + 1, current, target, path, totalCost, visited =>
    if current = target then [{ path := path, cost := totalCost }]
    else
      (edges.filter (fun e => e.from_ = current ∧ ¬ e.to_ ∈ setAdd visited current)).flatMap
        (fun e => enumPaths edges fuel e.to_ target (path ++ [e.to_]) (totalCost + e.cost)
          (setAdd visited current))

/-- The number of edge destinations that are not in `visited`: a bound on the depth of the
recursion of `dfs` below a call that runs with this `visited` set. -/
def freeTargets (edges : List Edge) (visited : List String) : Nat :=
  ((edges.map (fun e => e.to_)).filter (fun x => ¬ x ∈ visited)).length

/-- No two connections of the list join the same ordered pair of ids. -/
def NoDuplicateConnections (edges : List Edge) : Prop :=
  edges.Pairwise (fun a b => ¬ (a.from_ = b.from_ ∧ a.to_ = b.to_))

/-- The list `p` of ids is a simple path of the topology from `sourceId` to a target of the
enumeration: no id is repeated, `p` starts at `sourceId`, consecutive ids are joined by
connections, and `p` ends at the id of a node that is not the source and not of type
`'internet'`. -/
def IsSimplePathToTarget (topology : Topology) (sourceId : String) (p : List String) : Prop :=
  p.Nodup ∧ ∃ es n, IsWalk topology.edges sourceId es n.id ∧
    p = sourceId :: es.map (fun e => e.to_) ∧
    n ∈ topology.nodes ∧ n.id ≠ sourceId ∧ n.type ≠ "internet"

/-- The entries that the loop over the targets of `findAllPathsDFS` collects, in the order in
which they are pushed. -/
def enumAllTargets (topology : Topology) (sourceId : String) : List PathEntry :=
  (topology.nodes.filter (fun n => n.id ≠ sourceId ∧ n.type ≠ "internet")).flatMap
    (fun n => enumPaths topology.edges (topology.edges.length + 1) sourceId n.id [sourceId] 0 [])

/-! ## Specification of the least-cost traversal -/

/-- The predicate `IsPrevChain edges previous sourceId rs x`: the connections `rs`, listed from
the last one to the first one, are the chain that the path reconstruction follows from `x`
back to `sourceId`: each id on it has the start of its connection as predecessor, and the
source has `null`. -/
def IsPrevChain (edges : List Edge) (previous : String → Option (Option String))
    (sourceId : String) : List Edge → String → Prop
  | [], x => x = sourceId ∧ previous sourceId = some none
  | e :: rs, x =>
    e ∈ edges ∧ e.to_ = x ∧ previous x = some (some e.from_) ∧
      IsPrevChain edges previous sourceId rs e.from_

/-- The invariant of the main loop of `dijkstra` that does not depend on the costs.  `ids` are
the node ids and `bound` is the number of nodes.  The key `'__proto__'` never holds a number;
every other node id holds one. -/
structure DijkstraInv (ids : List String) (edges : List Edge) (sourceId : String) (bound : Nat)
    (st : DijkstraState) : Prop where
  unvisited_ids : ∀ x ∈ st.unvisited, x ∈ ids
  proto_absent : st.distances "__proto__" = none
  node_number : ∀ x ∈ ids, x ≠ "__proto__" → st.distances x ≠ none
  source_zero : sourceId ≠ "__proto__" → st.distances sourceId = some (Distance.number 0)
  source_prev : sourceId ∈ ids → sourceId ≠ "__proto__" → st.previous sourceId = some none
  source_first : sourceId ∈ st.unvisited →
    ∀ x d, x ≠ sourceId → st.distances x ≠ some (Distance.number d)
  settled_finite : ∀ x ∈ ids, x ∉ st.unvisited → ∃ d, st.distances x = some (Distance.number d)
  finite_chain : ∀ x d, x ∈ ids → st.distances x = some (Distance.number d) →
    ∃ rs, IsPrevChain edges st.previous sourceId rs x ∧ walkCost rs = d ∧
      (∀ e ∈ rs, e.from_ ∉ st.unvisited ∧ e.to_ ∈ ids) ∧
      rs.length + st.unvisited.length ≤ bound
  closed : ∀ e ∈ edges, e.from_ ∈ ids → e.from_ ∉ st.unvisited → e.to_ ∈ ids →
    e.to_ ≠ "__proto__" → ∃ d, st.distances e.to_ = some (Distance.number d)

/-- The part of the invariant of the main loop that needs non-negative costs: settled ids are
no farther than unvisited ones, and every connection that leaves a settled id is relaxed. -/
structure DijkstraOpt (ids : List String) (edges : List Edge) (st : DijkstraState) : Prop where
  settled_le : ∀ u ∈ ids, u ∉ st.unvisited → ∀ x ∈ st.unvisited, ∀ du dx,
    st.distances u = some (Distance.number du) → st.distances x = some (Distance.number dx) →
    du ≤ dx
  relaxed : ∀ e ∈ edges, e.from_ ∈ ids → e.from_ ∉ st.unvisited → e.to_ ∈ ids →
    e.to_ ≠ "__proto__" → ∀ du, st.distances e.from_ = some (Distance.number du) →
      ∃ dv, st.distances e.to_ = some (Distance.number dv) ∧ dv ≤ du + e.cost

/-- A walk of the topology that arrives only at ids of nodes. -/
def IsAssetWalk (topology : Topology) (u : String) (es : List Edge) (v : String) : Prop :=
  IsWalk topology.edges u es v ∧ ∀ e ∈ es, e.to_ ∈ topology.nodes.map (fun n => n.id)

/-- No non-empty walk of the topology returns to its start. -/
def Acyclic (edges : List Edge) : Prop :=
  ∀ (u : String) (es : List Edge), es ≠ [] → ¬ IsWalk edges u es u

/-! ## Analysis run -/

/-- The value of the local `result` of `runAnalysis`: the object returned by `dijkstra` or by
`findAllPathsDFS`. -/
inductive AnalysisResult where
  | ofDijkstra (r : DijkstraResult)
  | ofDfs (r : DfsResult)
deriving DecidableEq

/-- The field `result.path`. -/
def AnalysisResult.path : AnalysisResult → List String
  | .ofDijkstra r => r.path
  | .ofDfs r => r.path

/-- The field `result.cost`. -/
def AnalysisResult.cost : AnalysisResult → ℚ
  | .ofDijkstra r => r.cost
  | .ofDfs r => r.cost

/-- The assignment `edge.critical = true` to the edge that
`topology.edges.find(e => e.from === a && e.to === b)` returns, when there is one. -/
def markCritical (a b : String) : List Edge → List Edge
  | [] => []
  | e :: es =>
    if e.from_ = a ∧ e.to_ = b then { e with critical := true } :: es
    else e :: markCritical a b es

/-- The function `highlightCriticalPath(path)` (lines 816-831): every flag is cleared, then the
pairs `(path[i], path[i + 1])` are visited in order.  The final `renderTopology()` only
draws. -/
def highlightCriticalPath (topology : Topology) (path : List String) : Topology :=
  { topology with
    edges := (path.zip path.tail).foldl (fun edges p => markCritical p.1 p.2 edges)
      (topology.edges.map (fun edge => { edge with critical := false })) }

/-- The function `displayAnalysisResults(result)` (lines 781-811) writes to the page only.  Its
loop reads `node.cves.length` of every node that is not of type `'internet'`, which raises a
`TypeError` (`none`) when such a node has no `cves` array. -/
def displayAnalysisResults (topology : Topology) : Option Unit :=
  if topology.nodes.all (fun node => node.type = "internet" ∨ node.cves.isSome) then some ()
  else none

/-- What a call of `runAnalysis` leaves behind: the global `topology`, the value of the local
`result` (absent when the function returns before the search), and whether the call was
ended by the `TypeError` of `displayAnalysisResults`. -/
structure AnalysisOutcome where
  topology : Topology
  result : Option AnalysisResult
  raised : Bool
deriving DecidableEq

/-- The `switch (algorithm)` of `runAnalysis` (lines 610-620): `'dfs'` selects
`findAllPathsDFS`, every other value selects `dijkstra`. -/
def runSearch (algorithm : String) (topology : Topology) (sourceId : String) :
    Option AnalysisResult :=
  if algorithm = "dfs" then (findAllPathsDFS topology sourceId).map AnalysisResult.ofDfs
  else (dijkstra topology sourceId).map AnalysisResult.ofDijkstra

/-- The function `runAnalysis()` (lines 593-627).  The value of the `algorithm-select` control
is the argument `algorithm`; `none` stands for a search that runs out of fuel. -/
def runAnalysis (algorithm : String) (topology : Topology) : Option AnalysisOutcome :=
  let topology := calculateEdgeCosts topology
  match topology.nodes.find? (fun n => n.type = "internet") with
  | none => some { topology := topology, result := none, raised := false }
  | some sourceNode =>
    match runSearch algorithm topology sourceNode.id with
    | none => none
    | some result =>
      match displayAnalysisResults topology with
      | none => some { topology := topology, result := some result, raised := true }
      | some _ =>
        some { topology := highlightCriticalPath topology result.path, result := some result,
               raised := false }

/-! ## Remediation simulation -/

/-- The positions, counted from `i`, of the nodes that the filter
`n => n.cves.length > 0 && n.type !== 'internet'` keeps; `none` when a node has no `cves`
array, since reading `n.cves.length` then raises a `TypeError`. -/
def vulnerableNodesFrom : Nat → List Node → Option (List Nat)
  | _, [] => some []
  | i, n :: rest =>
    match n.cves with
    | none => none
    | some cves =>
      (vulnerableNodesFrom (i + 1) rest).map
        (fun is => if cves.length > 0 ∧ n.type ≠ "internet" then i :: is else is)

/-- The assignment `node.cves = node.cves.filter(cve => cve.cvssScore < 7)`. -/
def patchNode (node : Node) : Node :=
  { node with cves := node.cves.map (fun cves => cves.filter (fun cve => cve.cvssScore < 7)) }

/-- The mutation of the node object at position `i` of `topology.nodes`. -/
def modifyNodeAt (f : Node → Node) : Nat → List Node → List Node
  | _, [] => []
  | 0, n :: rest => f n :: rest
  | i + 1, n :: rest => n :: modifyNodeAt f i rest

/-- The function `simulatePatchApplied()` (lines 892-900).  The value of `Math.random()` is the
argument `random`; the node objects of `vulnerableNodes` are represented by their positions
in `topology.nodes`. -/
def simulatePatchApplied (random : ℚ) (topology : Topology) : Option Topology :=
  match vulnerableNodesFrom 0 topology.nodes with
  | none => none
  | some vulnerableNodes =>
    if vulnerableNodes.length > 0 then
      match vulnerableNodes[Nat.floor (random * vulnerableNodes.length)]? with
      | none => none
      | some i => some { topology with nodes := modifyNodeAt patchNode i topology.nodes }
    else some topology

/-- What the risk model and the two searches read of an edge: `from`, `to` and `cost`. -/
def edgeData (e : Edge) : String × String × ℚ :=
  (e.from_, e.to_, e.cost)

/-! ## Topologies used as examples and counterexamples -/

/-- A topology in which two nodes share the id `web`. -/
def duplicateIdTopology : Topology :=
  { nodes :=
      [⟨"internet", "internet", some []⟩,
       ⟨"web", "server", some []⟩,
       ⟨"web", "server", some []⟩],
    edges := [⟨"internet", "web", 1, false⟩] }

/-- A topology with two connections through the id `x`, which is not the id of a node. -/
def danglingTopology : Topology :=
  { nodes :=
      [⟨"internet", "internet", some []⟩,
       ⟨"b", "server", some [⟨"CVE-2023-1234", 9, "Kritik uzaktan kod çalıştırma zafiyeti"⟩]⟩],
    edges :=
      [⟨"internet", "b", 5, false⟩,
       ⟨"internet", "x", 1, false⟩,
       ⟨"x", "b", 1, false⟩] }

/-- A topology in which the only node besides the source has no records. -/
def zeroSeverityTopology : Topology :=
  { nodes := [⟨"internet", "internet", some []⟩, ⟨"web", "server", some []⟩],
    edges := [⟨"internet", "web", 10, false⟩] }

/-- A topology with a second node of type `'internet'`, which carries the most severe
record. -/
def secondBoundaryTopology : Topology :=
  { nodes :=
      [⟨"internet", "internet", some []⟩,
       ⟨"partner", "internet", some [⟨"CVE-2023-7890", 9, "Varsayılan şifre zafiyeti"⟩]⟩,
       ⟨"web", "server", some [⟨"CVE-2023-0001", 5, "Genel güvenlik zafiyeti"⟩]⟩],
    edges :=
      [⟨"internet", "partner", 11 / 2, false⟩,
       ⟨"internet", "web", 15 / 2, false⟩] }

/-- An acyclic topology with current costs in which the walk `internet → x → b`, through an id
that is not the id of a node, is cheaper than the walk `internet → a1 → a2 → b`. -/
def detourTopology : Topology :=
  calculateEdgeCosts
    { nodes :=
        [⟨"internet", "internet", some []⟩,
         ⟨"a1", "server", some []⟩,
         ⟨"a2", "server", some []⟩,
         ⟨"b", "server", some [⟨"CVE-2023-0001", 1, "Genel güvenlik zafiyeti"⟩]⟩],
      edges :=
        [⟨"internet", "a1", 0, false⟩,
         ⟨"a1", "a2", 0, false⟩,
         ⟨"a2", "b", 0, false⟩,
         ⟨"internet", "x", 0, false⟩,
         ⟨"x", "b", 0, false⟩] }

/-- A topology without connections in which a node of type `'server'` shares the id of the
source. -/
def sharedSourceTopology : Topology :=
  { nodes :=
      [⟨"internet", "internet", some []⟩,
       ⟨"internet", "server", some [⟨"CVE-2023-0001", 5, "Genel güvenlik zafiyeti"⟩]⟩],
    edges := [] }

/-- A topology in which the node `b` is joined to the source only through the id `x`, which is
not the id of a node. -/
def ghostTopology : Topology :=
  { nodes :=
      [⟨"internet", "internet", some []⟩,
       ⟨"b", "server", some [⟨"CVE-2023-1234", 9, "Kritik uzaktan kod çalıştırma zafiyeti"⟩]⟩],
    edges := [⟨"internet", "x", 10, false⟩, ⟨"x", "b", 10, false⟩] }

/-- A topology that consists of one node of type `'server'` with the records of
`mockCVE.server`. -/
def singleServerTopology : Topology :=
  { nodes := [⟨"web", "server", some mockCVE_server⟩], edges := [] }

/-- A topology that consists of a single node of type `'internet'`. -/
def boundaryOnlyTopology : Topology :=
  { nodes := [⟨"internet", "internet", some []⟩], edges := [] }

/-- A topology with the cycles `a → b → a` and `internet → a → b → internet` and the self-loop
`a → a`. -/
def cyclicTopology : Topology :=
  { nodes :=
      [⟨"internet", "internet", some []⟩,
       ⟨"a", "server", some []⟩,
       ⟨"b", "server", some []⟩],
    edges :=
      [⟨"internet", "a", 1, false⟩,
       ⟨"a", "b", 2, false⟩,
       ⟨"b", "a", 3, false⟩,
       ⟨"a", "a", 4, false⟩,
       ⟨"b", "internet", 5, false⟩] }

/-- A topology with unique ids and non-negative costs in which the cheapest walk to `b` passes
through a node whose id is `__proto__`. -/
def protoTopology : Topology :=
  { nodes :=
      [⟨"internet", "internet", some []⟩,
       ⟨"__proto__", "server", some [⟨"CVE-2023-0001", 5, "Genel güvenlik zafiyeti"⟩]⟩,
       ⟨"b", "server", some [⟨"CVE-2023-1234", 9, "Kritik uzaktan kod çalıştırma zafiyeti"⟩]⟩],
    edges :=
      [⟨"internet", "__proto__", 1, false⟩,
       ⟨"__proto__", "b", 1, false⟩,
       ⟨"internet", "b", 5, false⟩] }

/-- A topology in which the only node besides the source has the id `__proto__`. -/
def protoTargetTopology : Topology :=
  { nodes :=
      [⟨"internet", "internet", some []⟩,
       ⟨"__proto__", "server", some [⟨"CVE-2023-0001", 5, "Genel güvenlik zafiyeti"⟩]⟩],
    edges := [⟨"internet", "__proto__", 15 / 2, false⟩] }

/-- An acyclic topology with unique ids and current costs, all of whose connections join nodes,
in which the cheaper of the two walks to `b` passes through a node whose id is `__proto__`. -/
def protoDetourTopology : Topology :=
  calculateEdgeCosts
    { nodes :=
        [⟨"internet", "internet", some []⟩,
         ⟨"__proto__", "server",
           some [⟨"CVE-2023-1234", 10, "Kritik uzaktan kod çalıştırma zafiyeti"⟩]⟩,
         ⟨"b", "server", some [⟨"CVE-2023-1234", 10, "Kritik uzaktan kod çalıştırma zafiyeti"⟩]⟩,
         ⟨"m", "server", some []⟩],
      edges :=
        [⟨"internet", "__proto__", 0, false⟩,
         ⟨"__proto__", "b", 0, false⟩,
         ⟨"internet", "m", 0, false⟩,
         ⟨"m", "b", 0, false⟩] }

/-- A topology with finite scores whose sums overflow in double precision, to `Infinity` at
`a` and to `-Infinity` at `b`. -/
def overflowTopology : Topology :=
  { nodes :=
      [⟨"a", "server",
         some [⟨"CVE-2023-0001", 10 ^ 308, "Genel güvenlik zafiyeti"⟩,
               ⟨"CVE-2023-0002", 10 ^ 308, "Genel güvenlik zafiyeti"⟩]⟩,
       ⟨"b", "server",
         some [⟨"CVE-2023-0003", -10 ^ 308, "Genel güvenlik zafiyeti"⟩,
               ⟨"CVE-2023-0004", -10 ^ 308, "Genel güvenlik zafiyeti"⟩]⟩],
    edges := [⟨"a", "b", 0, false⟩] }

/-! ## The risk model -/

theorem edgeCost_ge (a b : ℚ) : 1 / 10 ≤ edgeCost a b := by
  unfold edgeCost
  exact le_max_left _ _

theorem edgeCost_le (a b : ℚ) : edgeCost a b ≤ 10 := by
  unfold edgeCost
  apply max_le
  · norm_num
  · have h : (0 : ℚ) ≤ min 10 (max 0 ((a + b) / 2)) := le_min (by norm_num) (le_max_left _ _)
    linarith

theorem calculateEdgeCost_from (nodes : List Node) (edge : Edge) :
    (calculateEdgeCost nodes edge).from_ = edge.from_ := by
  unfold calculateEdgeCost
  split <;> rfl

theorem calculateEdgeCost_to (nodes : List Node) (edge : Edge) :
    (calculateEdgeCost nodes edge).to_ = edge.to_ := by
  unfold calculateEdgeCost
  split <;> rfl

theorem calculateEdgeCost_cost_bounds (nodes : List Node) (edge : Edge) :
    1 / 10 ≤ (calculateEdgeCost nodes edge).cost ∧ (calculateEdgeCost nodes edge).cost ≤ 10 := by
  unfold calculateEdgeCost
  split
  · exact ⟨edgeCost_ge _ _, edgeCost_le _ _⟩
  · constructor <;> norm_num

/-- For an edge whose two endpoints are found, `calculateEdgeCosts` computes `edgeCost` of the
two average scores. -/
theorem calculateEdgeCost_found (nodes : List Node) (edge : Edge) (fromNode toNode : Node)
    (hfrom : nodes.find? (fun n => n.id = edge.from_) = some fromNode)
    (hto : nodes.find? (fun n => n.id = edge.to_) = some toNode) :
    (calculateEdgeCost nodes edge).cost
      = edgeCost (calculateAverageCVSS fromNode) (calculateAverageCVSS toNode) := by
  simp only [calculateEdgeCost, hfrom, hto]

theorem find?_id_eq_none (nodes : List Node) (x : String) :
    nodes.find? (fun n => n.id = x) = none ↔ x ∉ nodes.map (fun n => n.id) := by
  simp [List.find?_eq_none]

theorem foldl_add_cvss (cves : List Cve) (acc : ℚ) :
    cves.foldl (fun acc cve => acc + cve.cvssScore) acc
      = acc + (cves.map (fun cve => cve.cvssScore)).sum := by
  induction cves generalizing acc with
  | nil => simp
  | cons c cs ih => simp [List.foldl_cons, ih, add_assoc]

/-- C2. After `calculateEdgeCosts`, a connection whose two endpoints are both found among the
nodes keeps its endpoints and flag and has cost exactly
`max(0.1, 10 − min(10, max(0, (A + B) / 2)))`, where `A` and `B` are `calculateAverageCVSS`
of the node found for its source and of the node found for its destination. -/
theorem calculateEdgeCosts_found (topology : Topology) (i : Nat) (edge : Edge)
    (fromNode toNode : Node)
    (hedge : topology.edges[i]? = some edge)
    (hfrom : topology.nodes.find? (fun n => n.id = edge.from_) = some fromNode)
    (hto : topology.nodes.find? (fun n => n.id = edge.to_) = some toNode) :
    (calculateEdgeCosts topology).edges[i]? =
      some { edge with
        cost := max (1 / 10)
          (10 - min 10 (max 0
            ((calculateAverageCVSS fromNode + calculateAverageCVSS toNode) / 2))) } := by
  simp only [calculateEdgeCosts, List.getElem?_map, hedge, Option.map_some']
  simp only [calculateEdgeCost, hfrom, hto, edgeCost]

/-- C2, at the default topology: the connection `internet → web-server` (no records on
`internet`, severities 9.8, 7.5 and 6.2 on `web-server`) gets cost `73/12`. -/
theorem calculateEdgeCosts_found_witness :
    loadDefaultTopology.edges[0]? =
      some { from_ := "internet", to_ := "web-server", cost := 73 / 12, critical := true } := by
  have h := calculateEdgeCosts_found defaultTopology 0
    ⟨"internet", "web-server", 0, true⟩ ⟨"internet", "internet", some []⟩
    ⟨"web-server", "server", some mockCVE_server⟩ (by rfl) (by rfl) (by rfl)
  rw [loadDefaultTopology, h]
  simp only [calculateAverageCVSS, mockCVE_server]
  norm_num

/-- C6, as stated, fails: two endpoints of aggregate severity `0` (which lies in `[0,10]`) give
the connection cost `10`, which is above `10 − 0.1`. -/
theorem edgeCost_le_upper_counterexample :
    (0 : ℚ) ≤ 0 ∧ (0 : ℚ) ≤ 10 ∧ edgeCost 0 0 = 10 ∧ ¬ (edgeCost 0 0 ≤ 10 - 1 / 10) := by
  have h : edgeCost 0 0 = 10 := by
    unfold edgeCost
    norm_num
  rw [h]
  norm_num

/-- C6 (amended). For aggregate severities `a` and `b` in `[0,10]` the connection cost is
`max(0.1, 10 − (a + b) / 2)` and lies in the closed interval `[0.1, 10]`. -/
theorem edgeCost_range (a b : ℚ) (ha0 : 0 ≤ a) (ha10 : a ≤ 10) (hb0 : 0 ≤ b) (hb10 : b ≤ 10) :
    edgeCost a b = max (1 / 10) (10 - (a + b) / 2) ∧
      1 / 10 ≤ edgeCost a b ∧ edgeCost a b ≤ 10 := by
  refine ⟨?_, edgeCost_ge a b, edgeCost_le a b⟩
  unfold edgeCost
  have h0 : (0 : ℚ) ≤ (a + b) / 2 := by linarith
  have h10 : (a + b) / 2 ≤ 10 := by linarith
  simp only [max_eq_right h0, min_eq_right h10]

theorem edgeCost_range_witness :
    edgeCost 4 8 = max (1 / 10) (10 - (4 + 8) / 2) ∧
      1 / 10 ≤ edgeCost 4 8 ∧ edgeCost 4 8 ≤ 10 :=
  edgeCost_range 4 8 (by norm_num) (by norm_num) (by norm_num) (by norm_num)

/-- C7. The connection cost is non-increasing in each endpoint's aggregate severity: for
`a ≤ a'` and `b ≤ b'`, the cost for `(a', b')` is at most the cost for `(a, b)`. -/
theorem edgeCost_antitone (a a' b b' : ℚ) (ha : a ≤ a') (hb : b ≤ b') :
    edgeCost a' b' ≤ edgeCost a b := by
  unfold edgeCost
  have h : (a + b) / 2 ≤ (a' + b') / 2 := by linarith
  have h2 : min 10 (max 0 ((a + b) / 2)) ≤ min 10 (max 0 ((a' + b') / 2)) :=
    min_le_min le_rfl (max_le_max le_rfl h)
  exact max_le_max le_rfl (by linarith)

theorem edgeCost_antitone_witness : edgeCost 8 9 ≤ edgeCost 2 3 :=
  edgeCost_antitone 2 8 3 9 (by norm_num) (by norm_num)

theorem simulateFirewallOff_edges (topology topology' : Topology)
    (h : simulateFirewallOff topology = some topology') :
    topology'.edges = topology.edges ∨
      topology'.edges =
        topology.edges.map
          (fun edge => { edge with cost := max (1 / 10) (edge.cost * (1 / 2)) }) := by
  unfold simulateFirewallOff at h
  split at h
  · cases hp : pushFirewallCve topology.nodes with
    | none => simp [hp] at h
    | some nodes =>
      simp only [hp, Option.map_some', Option.some.injEq] at h
      left
      rw [← h]
  · simp only [Option.some.injEq] at h
    right
    rw [← h]

theorem pushFirewallCve_isSome (nodes : List Node) (h : ∀ n ∈ nodes, n.cves ≠ none) :
    (pushFirewallCve nodes).isSome = true := by
  induction nodes with
  | nil => rfl
  | cons n rest ih =>
    unfold pushFirewallCve
    split
    · cases hc : n.cves with
      | none => exact absurd hc (h n (List.mem_cons_self _ _))
      | some cves => rfl
    · have := ih (fun m hm => h m (List.mem_cons_of_mem _ hm))
      simp [Option.isSome_map', this]

/-! ### Overflow of the sums of scores -/

theorem overflowThreshold_gt : (100 : ℚ) < overflowThreshold := by
  unfold overflowThreshold
  norm_num

theorem JsNumber.ofExact_of_lt {x : ℚ} (h1 : -overflowThreshold < x)
    (h2 : x < overflowThreshold) : JsNumber.ofExact x = JsNumber.finite x := by
  unfold JsNumber.ofExact
  rw [if_neg (not_le.mpr h2), if_neg (not_le.mpr h1)]

theorem JsNumber.ofExact_eq_finite {x s : ℚ} (h : JsNumber.ofExact x = JsNumber.finite s) :
    s = x := by
  unfold JsNumber.ofExact at h
  split at h
  · cases h
  · split at h
    · cases h
    · cases h; rfl

theorem JsNumber.add_eq_finite {a : JsNumber} {y s : ℚ}
    (h : a.add (JsNumber.finite y) = JsNumber.finite s) :
    ∃ x, a = JsNumber.finite x ∧ s = x + y := by
  cases a with
  | finite x => exact ⟨x, rfl, JsNumber.ofExact_eq_finite h⟩
  | posInfinity => simp [JsNumber.add] at h
  | negInfinity => simp [JsNumber.add] at h
  | nan => simp [JsNumber.add] at h

theorem JsNumber.divNat_eq_finite {a : JsNumber} {n : Nat} {q : ℚ} (hn : n ≠ 0)
    (h : a.divNat n = JsNumber.finite q) : ∃ x, a = JsNumber.finite x ∧ q = x / n := by
  cases a with
  | finite x =>
    simp only [JsNumber.divNat, hn, if_false, JsNumber.finite.injEq] at h
    exact ⟨x, rfl, h.symm⟩
  | posInfinity => simp [JsNumber.divNat] at h
  | negInfinity => simp [JsNumber.divNat] at h
  | nan => simp [JsNumber.divNat] at h

/-- A sum of scores that is finite in double precision is the exact sum. -/
theorem foldl_add_eq_finite :
    ∀ (cves : List Cve) (acc : JsNumber) (s : ℚ),
      cves.foldl (fun acc cve => acc.add (JsNumber.finite cve.cvssScore)) acc
        = JsNumber.finite s →
      ∃ x, acc = JsNumber.finite x ∧ s = cves.foldl (fun acc cve => acc + cve.cvssScore) x := by
  intro cves
  induction cves with
  | nil => intro acc s h; exact ⟨s, h, rfl⟩
  | cons c cs ih =>
    intro acc s h
    rw [List.foldl_cons] at h
    obtain ⟨x₁, h₁, hs⟩ := ih _ s h
    obtain ⟨x, hx, hx₁⟩ := JsNumber.add_eq_finite h₁
    refine ⟨x, hx, ?_⟩
    rw [List.foldl_cons, ← hx₁]
    exact hs

/-- An average score that is finite in double precision is the exact average. -/
theorem calculateAverageCVSSDouble_eq_finite (node : Node) (a : ℚ)
    (h : calculateAverageCVSSDouble node = JsNumber.finite a) :
    a = calculateAverageCVSS node := by
  unfold calculateAverageCVSSDouble at h
  unfold calculateAverageCVSS
  cases hc : node.cves with
  | none =>
    simp only [hc, JsNumber.finite.injEq] at h
    exact h.symm
  | some cves =>
    simp only [hc] at h ⊢
    by_cases hl : cves.length = 0
    · simp only [hl, if_true, JsNumber.finite.injEq] at h ⊢
      exact h.symm
    · simp only [hl, if_false] at h ⊢
      obtain ⟨x, hx, hq⟩ := JsNumber.divNat_eq_finite hl h
      obtain ⟨x₀, hx₀, hs⟩ := foldl_add_eq_finite cves _ x hx
      cases hx₀
      rw [hq, hs]

theorem JsNumber.finite_add_finite (x y : ℚ) :
    (JsNumber.finite x).add (JsNumber.finite y) = JsNumber.ofExact (x + y) := rfl

theorem JsNumber.finite_sub_finite (x y : ℚ) :
    (JsNumber.finite x).sub (JsNumber.finite y) = JsNumber.ofExact (x - y) := by
  simp only [JsNumber.sub, JsNumber.neg, JsNumber.finite_add_finite, sub_eq_add_neg]

theorem JsNumber.finite_divNat_two (x : ℚ) :
    (JsNumber.finite x).divNat 2 = JsNumber.finite (x / 2) := by
  simp [JsNumber.divNat]

theorem JsNumber.mathMax_finite (x y : ℚ) :
    JsNumber.mathMax (JsNumber.finite x) (JsNumber.finite y) = JsNumber.finite (max x y) := rfl

theorem JsNumber.mathMin_finite (x y : ℚ) :
    JsNumber.mathMin (JsNumber.finite x) (JsNumber.finite y) = JsNumber.finite (min x y) := rfl

/-- On finite average scores the arithmetic with overflow gives the cost of `edgeCost`. -/
theorem edgeCostDouble_finite (a b : ℚ) :
    edgeCostDouble (JsNumber.finite a) (JsNumber.finite b) = JsNumber.finite (edgeCost a b) := by
  have hT := overflowThreshold_gt
  unfold edgeCostDouble edgeCost
  simp only [JsNumber.finite_add_finite]
  by_cases hp : overflowThreshold ≤ a + b
  · have hmin : min (10 : ℚ) (max 0 ((a + b) / 2)) = 10 := by
      apply min_eq_left
      apply le_max_of_le_right
      linarith
    have e1 : JsNumber.ofExact (a + b) = JsNumber.posInfinity := by
      simp [JsNumber.ofExact, hp]
    have e2 : JsNumber.mathMin (JsNumber.finite 10)
        (JsNumber.mathMax (JsNumber.finite 0) (JsNumber.posInfinity.divNat 2))
          = JsNumber.finite 10 := rfl
    rw [e1, e2, JsNumber.finite_sub_finite, JsNumber.ofExact_of_lt (by linarith) (by linarith),
      JsNumber.mathMax_finite, hmin]
  · by_cases hn : a + b ≤ -overflowThreshold
    · have hmax : max (0 : ℚ) ((a + b) / 2) = 0 := by
        apply max_eq_left
        linarith
      have e1 : JsNumber.ofExact (a + b) = JsNumber.negInfinity := by
        simp [JsNumber.ofExact, hp, hn]
      have e2 : JsNumber.mathMin (JsNumber.finite 10)
          (JsNumber.mathMax (JsNumber.finite 0) (JsNumber.negInfinity.divNat 2))
            = JsNumber.finite (min 10 0) := rfl
      rw [e1, e2, JsNumber.finite_sub_finite, hmax]
      have h10 : (10 : ℚ) - min 10 0 = 10 := by norm_num
      rw [JsNumber.ofExact_of_lt (by rw [h10]; linarith) (by rw [h10]; linarith),
        JsNumber.mathMax_finite]
    · have hm1 : (0 : ℚ) ≤ min 10 (max 0 ((a + b) / 2)) :=
        le_min (by norm_num) (le_max_left _ _)
      have hm2 : min (10 : ℚ) (max 0 ((a + b) / 2)) ≤ 10 := min_le_left _ _
      have e1 : JsNumber.ofExact (a + b) = JsNumber.finite (a + b) :=
        JsNumber.ofExact_of_lt (not_le.mp hn) (not_le.mp hp)
      rw [e1, JsNumber.finite_divNat_two, JsNumber.mathMax_finite, JsNumber.mathMin_finite,
        JsNumber.finite_sub_finite, JsNumber.ofExact_of_lt (by linarith) (by linarith),
        JsNumber.mathMax_finite]

/-- When the average scores of all nodes are finite in double precision, the value assigned to
`edge.cost` is the finite number that `calculateEdgeCost` computes. -/
theorem calculateEdgeCostDouble_finite (nodes : List Node) (edge : Edge)
    (h : ∀ n ∈ nodes, ∃ a, calculateAverageCVSSDouble n = JsNumber.finite a) :
    calculateEdgeCostDouble nodes edge = JsNumber.finite (calculateEdgeCost nodes edge).cost := by
  unfold calculateEdgeCostDouble calculateEdgeCost
  cases hf : nodes.find? (fun n => n.id = edge.from_) with
  | none => rfl
  | some fromNode =>
    cases ht : nodes.find? (fun n => n.id = edge.to_) with
    | none => rfl
    | some toNode =>
      obtain ⟨a, ha⟩ := h fromNode (List.mem_of_find?_eq_some hf)
      obtain ⟨b, hb⟩ := h toNode (List.mem_of_find?_eq_some ht)
      simp only
      rw [ha, hb, edgeCostDouble_finite,
        calculateAverageCVSSDouble_eq_finite _ _ ha, calculateAverageCVSSDouble_eq_finite _ _ hb]

theorem JsNumber.add_finite_ne_nan {a : JsNumber} (y : ℚ) (h : a ≠ JsNumber.nan) :
    a.add (JsNumber.finite y) ≠ JsNumber.nan := by
  cases a with
  | finite x =>
    rw [JsNumber.finite_add_finite]
    unfold JsNumber.ofExact
    split
    · simp
    · split <;> simp
  | posInfinity => simp [JsNumber.add]
  | negInfinity => simp [JsNumber.add]
  | nan => exact absurd rfl h

theorem foldl_add_ne_nan :
    ∀ (cves : List Cve) (acc : JsNumber), acc ≠ JsNumber.nan →
      cves.foldl (fun acc cve => acc.add (JsNumber.finite cve.cvssScore)) acc
        ≠ JsNumber.nan := by
  intro cves
  induction cves with
  | nil => intro acc h; exact h
  | cons c cs ih =>
    intro acc h
    rw [List.foldl_cons]
    exact ih _ (JsNumber.add_finite_ne_nan _ h)

theorem JsNumber.divNat_ne_nan {a : JsNumber} {n : Nat} (hn : n ≠ 0) (h : a ≠ JsNumber.nan) :
    a.divNat n ≠ JsNumber.nan := by
  cases a with
  | finite x => simp [JsNumber.divNat, hn]
  | posInfinity => simp [JsNumber.divNat]
  | negInfinity => simp [JsNumber.divNat]
  | nan => exact absurd rfl h

/-- The average score of a node is never `NaN`: the scores are finite, so the sum is a finite
number or an infinity. -/
theorem calculateAverageCVSSDouble_ne_nan (node : Node) :
    calculateAverageCVSSDouble node ≠ JsNumber.nan := by
  unfold calculateAverageCVSSDouble
  cases node.cves with
  | none => simp
  | some cves =>
    simp only
    by_cases hl : cves.length = 0
    · simp [hl]
    · simp only [hl, if_false]
      exact JsNumber.divNat_ne_nan hl (foldl_add_ne_nan cves _ (by simp))

theorem edgeCostDouble_of_posInfinity (a b : JsNumber)
    (h : a.add b = JsNumber.posInfinity) :
    edgeCostDouble a b = JsNumber.finite (max (1 / 10) (10 - 10)) := by
  have hT := overflowThreshold_gt
  unfold edgeCostDouble
  simp only [h]
  have e2 : JsNumber.mathMin (JsNumber.finite 10)
      (JsNumber.mathMax (JsNumber.finite 0) (JsNumber.posInfinity.divNat 2))
        = JsNumber.finite 10 := rfl
  rw [e2, JsNumber.finite_sub_finite,
    JsNumber.ofExact_of_lt (by linarith) (by linarith), JsNumber.mathMax_finite]

theorem edgeCostDouble_of_negInfinity (a b : JsNumber)
    (h : a.add b = JsNumber.negInfinity) :
    edgeCostDouble a b = JsNumber.finite (max (1 / 10) (10 - min 10 0)) := by
  have hT := overflowThreshold_gt
  unfold edgeCostDouble
  simp only [h]
  have e2 : JsNumber.mathMin (JsNumber.finite 10)
      (JsNumber.mathMax (JsNumber.finite 0) (JsNumber.negInfinity.divNat 2))
        = JsNumber.finite (min 10 0) := rfl
  have h10 : (10 : ℚ) - min 10 0 = 10 := by norm_num
  rw [e2, JsNumber.finite_sub_finite,
    JsNumber.ofExact_of_lt (by rw [h10]; linarith) (by rw [h10]; linarith),
    JsNumber.mathMax_finite]

/-- Unless the two average scores are infinities of opposite sign, the arithmetic of
`calculateEdgeCosts` gives a finite cost between `0.1` and `10`. -/
theorem edgeCostDouble_bounds (a b : JsNumber) (ha : a ≠ JsNumber.nan)
    (hb : b ≠ JsNumber.nan) (hopp : ¬ OppositeInfinities a b) :
    ∃ c, edgeCostDouble a b = JsNumber.finite c ∧ 1 / 10 ≤ c ∧ c ≤ 10 := by
  have hposv : (1 : ℚ) / 10 ≤ max (1 / 10) (10 - 10) ∧ max ((1 : ℚ) / 10) (10 - 10) ≤ 10 :=
    ⟨le_max_left _ _, by norm_num⟩
  have hnegv : (1 : ℚ) / 10 ≤ max (1 / 10) (10 - min 10 0) ∧
      max ((1 : ℚ) / 10) (10 - min 10 0) ≤ 10 :=
    ⟨le_max_left _ _, by norm_num⟩
  cases a with
  | nan => exact absurd rfl ha
  | finite x =>
    cases b with
    | nan => exact absurd rfl hb
    | finite y =>
      exact ⟨edgeCost x y, edgeCostDouble_finite x y, edgeCost_ge x y, edgeCost_le x y⟩
    | posInfinity => exact ⟨_, edgeCostDouble_of_posInfinity _ _ rfl, hposv⟩
    | negInfinity => exact ⟨_, edgeCostDouble_of_negInfinity _ _ rfl, hnegv⟩
  | posInfinity =>
    cases b with
    | nan => exact absurd rfl hb
    | finite y => exact ⟨_, edgeCostDouble_of_posInfinity _ _ rfl, hposv⟩
    | posInfinity => exact ⟨_, edgeCostDouble_of_posInfinity _ _ rfl, hposv⟩
    | negInfinity => exact absurd (Or.inl ⟨rfl, rfl⟩) hopp
  | negInfinity =>
    cases b with
    | nan => exact absurd rfl hb
    | finite y => exact ⟨_, edgeCostDouble_of_negInfinity _ _ rfl, hnegv⟩
    | posInfinity => exact absurd (Or.inr ⟨rfl, rfl⟩) hopp
    | negInfinity => exact ⟨_, edgeCostDouble_of_negInfinity _ _ rfl, hnegv⟩

/-- Unless the average scores of the two endpoints are infinities of opposite sign, the value
assigned to `edge.cost` is a finite number between `0.1` and `10`. -/
theorem calculateEdgeCostDouble_bounds (nodes : List Node) (edge : Edge)
    (h : ∀ fromNode toNode, nodes.find? (fun n => n.id = edge.from_) = some fromNode →
      nodes.find? (fun n => n.id = edge.to_) = some toNode →
      ¬ OppositeInfinities (calculateAverageCVSSDouble fromNode)
        (calculateAverageCVSSDouble toNode)) :
    ∃ c, calculateEdgeCostDouble nodes edge = JsNumber.finite c ∧ 1 / 10 ≤ c ∧ c ≤ 10 := by
  unfold calculateEdgeCostDouble
  cases hf : nodes.find? (fun n => n.id = edge.from_) with
  | none => exact ⟨10, rfl, by norm_num, le_rfl⟩
  | some fromNode =>
    cases ht : nodes.find? (fun n => n.id = edge.to_) with
    | none => exact ⟨10, rfl, by norm_num, le_rfl⟩
    | some toNode =>
      exact edgeCostDouble_bounds _ _ (calculateAverageCVSSDouble_ne_nan _)
        (calculateAverageCVSSDouble_ne_nan _) (h fromNode toNode hf ht)

/-- C8, as stated, fails.  In `overflowTopology` the scores are finite, yet in double precision
the sum of the scores of `a` is `Infinity` and that of `b` is `-Infinity`, so that the average
of the two average scores is `NaN` and `calculateEdgeCosts` assigns the cost `NaN`, for which
neither `0.1 ≤ c` nor `c ≤ 10` holds. -/
theorem cost_overflow_counterexample :
    overflowTopology.nodes.map calculateAverageCVSSDouble
      = [JsNumber.posInfinity, JsNumber.negInfinity] ∧
    overflowTopology.edges.map (calculateEdgeCostDouble overflowTopology.nodes)
      = [JsNumber.nan] ∧
    JsNumber.le (JsNumber.finite (1 / 10)) JsNumber.nan = false ∧
    JsNumber.le JsNumber.nan (JsNumber.finite 10) = false := by
  decide!

/-- C8 (amended). Connection costs are never zero or negative unless sums of scores overflow:
for every topology, whatever the scores are, the cost `c` that `calculateEdgeCosts` assigns to
a connection satisfies `0.1 ≤ c ≤ 10`, except where the sums of the scores of its two endpoints
overflow to `Infinity` and `-Infinity`; where the average score of every node is a finite
number in double precision, each cost is the one of the exact computation; and
`simulateFirewallOff`, which returns a topology whenever every node has a `cves` array,
turns a topology whose costs are all `≥ 0.1` into one whose costs are all `≥ 0.1`. -/
theorem cost_floor_invariant :
    (∀ topology : Topology, ∀ e ∈ topology.edges,
        (∀ fromNode toNode,
          topology.nodes.find? (fun n => n.id = e.from_) = some fromNode →
          topology.nodes.find? (fun n => n.id = e.to_) = some toNode →
          ¬ OppositeInfinities (calculateAverageCVSSDouble fromNode)
            (calculateAverageCVSSDouble toNode)) →
        ∃ c, calculateEdgeCostDouble topology.nodes e = JsNumber.finite c ∧
          1 / 10 ≤ c ∧ c ≤ 10) ∧
    (∀ topology : Topology,
        (∀ n ∈ topology.nodes, ∃ a, calculateAverageCVSSDouble n = JsNumber.finite a) →
        (∀ e ∈ topology.edges,
          calculateEdgeCostDouble topology.nodes e
            = JsNumber.finite (calculateEdgeCost topology.nodes e).cost) ∧
        (∀ e ∈ (calculateEdgeCosts topology).edges, 1 / 10 ≤ e.cost ∧ e.cost ≤ 10)) ∧
    (∀ topology : Topology, (∀ n ∈ topology.nodes, n.cves ≠ none) →
        ∃ topology', simulateFirewallOff topology = some topology') ∧
    (∀ topology topology' : Topology, (∀ e ∈ topology.edges, 1 / 10 ≤ e.cost) →
        simulateFirewallOff topology = some topology' →
        ∀ e ∈ topology'.edges, 1 / 10 ≤ e.cost) := by
  refine ⟨?_, ?_, ?_, ?_⟩
  · intro topology e _ h
    exact calculateEdgeCostDouble_bounds topology.nodes e h
  · intro topology hfin
    refine ⟨fun e _ => calculateEdgeCostDouble_finite topology.nodes e hfin, ?_⟩
    intro e he
    simp only [calculateEdgeCosts, List.mem_map] at he
    obtain ⟨e0, _, rfl⟩ := he
    exact calculateEdgeCost_cost_bounds _ _
  · intro topology h
    unfold simulateFirewallOff
    split
    · have hs := pushFirewallCve_isSome topology.nodes h
      obtain ⟨nodes, hn⟩ := Option.isSome_iff_exists.mp hs
      exact ⟨_, by rw [hn]; rfl⟩
    · exact ⟨_, rfl⟩
  · intro topology topology' hc h e he
    rcases simulateFirewallOff_edges topology topology' h with h1 | h1
    · rw [h1] at he
      exact hc e he
    · rw [h1, List.mem_map] at he
      obtain ⟨e0, _, rfl⟩ := he
      exact le_max_left _ _

theorem cost_floor_invariant_witness :
    (∀ n ∈ defaultTopology.nodes, ∃ a, calculateAverageCVSSDouble n = JsNumber.finite a) ∧
    (∀ e ∈ defaultTopology.edges,
      calculateEdgeCostDouble defaultTopology.nodes e
        = JsNumber.finite (calculateEdgeCost defaultTopology.nodes e).cost) ∧
    (∀ e ∈ loadDefaultTopology.edges, 1 / 10 ≤ e.cost ∧ e.cost ≤ 10) ∧
    (∃ topology', simulateFirewallOff loadDefaultTopology = some topology' ∧
      ∀ e ∈ topology'.edges, 1 / 10 ≤ e.cost) := by
  have hfin : ∀ n ∈ defaultTopology.nodes,
      ∃ a, calculateAverageCVSSDouble n = JsNumber.finite a := by
    intro n hn
    simp only [defaultTopology, List.mem_cons, List.mem_singleton, List.not_mem_nil,
      or_false] at hn
    rcases hn with rfl | rfl | rfl | rfl
    · exact ⟨0, by decide!⟩
    · exact ⟨47 / 6, by decide!⟩
    · exact ⟨8, by decide!⟩
    · exact ⟨39 / 5, by decide!⟩
  have h1 := cost_floor_invariant.2.1 defaultTopology hfin
  have hn : ∀ n ∈ loadDefaultTopology.nodes, n.cves ≠ none := by
    intro n hn
    simp only [loadDefaultTopology, calculateEdgeCosts, defaultTopology, List.mem_cons,
      List.mem_singleton, List.not_mem_nil, or_false] at hn
    rcases hn with rfl | rfl | rfl | rfl <;> simp
  obtain ⟨topology', ht⟩ := cost_floor_invariant.2.2.1 loadDefaultTopology hn
  exact ⟨hfin, h1.1, h1.2, topology', ht,
    cost_floor_invariant.2.2.2 loadDefaultTopology topology' (fun e he => (h1.2 e he).1) ht⟩

/-- C9. `calculateAverageCVSS` returns `0` for a node whose `cves` list is absent or empty, and
for a node with a non-empty list of `n` records it returns the sum of the `cvssScore` values
divided by `n`. -/
theorem calculateAverageCVSS_spec (node : Node) :
    (node.cves = none → calculateAverageCVSS node = 0) ∧
    (node.cves = some [] → calculateAverageCVSS node = 0) ∧
    (∀ cves, node.cves = some cves → cves ≠ [] →
      calculateAverageCVSS node = (cves.map (fun cve => cve.cvssScore)).sum / cves.length) := by
  refine ⟨?_, ?_, ?_⟩
  · intro h
    simp [calculateAverageCVSS, h]
  · intro h
    simp [calculateAverageCVSS, h]
  · intro cves h hne
    have hl : cves.length ≠ 0 := fun h0 => hne (List.length_eq_zero.mp h0)
    simp only [calculateAverageCVSS, h, hl, if_false, foldl_add_cvss, zero_add]

theorem calculateAverageCVSS_spec_witness :
    calculateAverageCVSS ⟨"internet", "internet", none⟩ = 0 ∧
    calculateAverageCVSS ⟨"internet", "internet", some []⟩ = 0 ∧
    calculateAverageCVSS ⟨"db-server", "database", some mockCVE_database⟩ = 8 := by
  refine ⟨(calculateAverageCVSS_spec _).1 rfl, (calculateAverageCVSS_spec _).2.1 rfl, ?_⟩
  rw [(calculateAverageCVSS_spec ⟨"db-server", "database", some mockCVE_database⟩).2.2
    mockCVE_database rfl (by simp [mockCVE_database])]
  simp only [mockCVE_database, List.map_cons, List.map_nil, List.sum_cons, List.sum_nil,
    List.length_cons, List.length_nil]
  norm_num

/-- C10. `calculateEdgeCosts` is defined on every topology; a connection whose source or
destination id matches no node gets the default cost `10`, and no connection gets a cost
above `10`. -/
theorem calculateEdgeCosts_missing_endpoint (topology : Topology) :
    (∀ (i : Nat) (edge : Edge), topology.edges[i]? = some edge →
      (edge.from_ ∉ topology.nodes.map (fun n => n.id) ∨
        edge.to_ ∉ topology.nodes.map (fun n => n.id)) →
      (calculateEdgeCosts topology).edges[i]? = some { edge with cost := 10 }) ∧
    (∀ e ∈ (calculateEdgeCosts topology).edges, e.cost ≤ 10) := by
  constructor
  · intro i edge hedge hmiss
    simp only [calculateEdgeCosts, List.getElem?_map, hedge, Option.map_some',
      Option.some.injEq]
    rcases hmiss with h | h
    · simp only [calculateEdgeCost, (find?_id_eq_none _ _).mpr h]
    · cases hf : topology.nodes.find? (fun n => n.id = edge.from_) <;>
        simp only [calculateEdgeCost, hf, (find?_id_eq_none _ _).mpr h]
  · intro e he
    simp only [calculateEdgeCosts, List.mem_map] at he
    obtain ⟨e0, _, rfl⟩ := he
    exact (calculateEdgeCost_cost_bounds _ _).2

theorem calculateEdgeCosts_missing_endpoint_witness :
    (calculateEdgeCosts
        { nodes := [⟨"internet", "internet", some []⟩],
          edges := [⟨"internet", "ghost", 0, false⟩] }).edges[0]?
      = some ⟨"internet", "ghost", 10, false⟩ :=
  (calculateEdgeCosts_missing_endpoint
      { nodes := [⟨"internet", "internet", some []⟩],
        edges := [⟨"internet", "ghost", 0, false⟩] }).1 0 ⟨"internet", "ghost", 0, false⟩ rfl
    (Or.inr (by decide))

/-! ## Exhaustive enumeration -/

theorem setAdd_of_not_mem {s : List String} {x : String} (h : x ∉ s) :
    setAdd s x = s ++ [x] := by
  simp [setAdd, h]

theorem mem_setAdd {s : List String} {x y : String} :
    y ∈ setAdd s x ↔ y ∈ s ∨ y = x := by
  unfold setAdd
  split
  · constructor
    · exact Or.inl
    · rintro (h | rfl)
      · exact h
      · assumption
  · simp

theorem setDelete_setAdd {s : List String} {x : String} (h : x ∉ s) :
    setDelete (setAdd s x) x = s := by
  rw [setAdd_of_not_mem h]
  simp only [setDelete, List.filter_append, List.filter_cons, List.filter_nil, ne_eq,
    decide_not, decide_True, Bool.not_true, Bool.false_eq_true, if_false, List.append_nil]
  rw [List.filter_eq_self]
  intro a ha
  have : a ≠ x := fun e => h (e ▸ ha)
  simp [this]

theorem freeTargets_setAdd_lt (edges : List Edge) (visited : List String) (e : Edge)
    (he : e ∈ edges) (hx : e.to_ ∉ visited) :
    freeTargets edges (setAdd visited e.to_) < freeTargets edges visited := by
  unfold freeTargets
  have hfil : (edges.map (fun e => e.to_)).filter (fun x => ¬ x ∈ setAdd visited e.to_)
      = ((edges.map (fun e => e.to_)).filter (fun x => ¬ x ∈ visited)).filter
          (fun x => x ≠ e.to_) := by
    rw [List.filter_filter]
    apply List.filter_congr
    intro x _
    simp only [mem_setAdd, not_or, decide_not, ne_eq, Bool.decide_and, Bool.and_comm]
  rw [hfil, List.length_filter_lt_length_iff_exists]
  refine ⟨e.to_, ?_, by simp⟩
  simp only [List.mem_filter, List.mem_map, decide_not, Bool.not_eq_true', decide_eq_false_iff_not]
  exact ⟨⟨e, he, rfl⟩, hx⟩

theorem freeTargets_le (edges : List Edge) (visited : List String) :
    freeTargets edges visited ≤ edges.length := by
  unfold freeTargets
  calc _ ≤ (edges.map (fun e => e.to_)).length := List.length_filter_le _ _
    _ = edges.length := List.length_map _ _


/-- One round of the `forEach` of `dfs`. -/
theorem dfs_foldlM_eq (edges : List Edge) (fuel : Nat) (current target : String)
    (path : List String) (totalCost : ℚ) (visited' : List String)
    (ih : ∀ (cur : String) (p : List String) (c : ℚ) (st : DfsState),
      cur ∉ st.visited → freeTargets edges (setAdd st.visited cur) < fuel →
      dfs edges fuel cur target p c st
        = some ⟨st.visited, st.paths ++ enumPaths edges fuel cur target p c st.visited⟩)
    (hfuel : freeTargets edges visited' ≤ fuel) :
    ∀ (es : List Edge), (∀ e ∈ es, e ∈ edges) → ∀ (ps : List PathEntry),
      es.foldlM
        (fun (s : DfsState) edge =>
          if edge.from_ = current ∧ ¬ edge.to_ ∈ s.visited then
            dfs edges fuel edge.to_ target (path ++ [edge.to_]) (totalCost + edge.cost) s
          else some s)
        ⟨visited', ps⟩
      = some ⟨visited', ps ++
          (es.filter (fun e => e.from_ = current ∧ ¬ e.to_ ∈ visited')).flatMap
            (fun e => enumPaths edges fuel e.to_ target (path ++ [e.to_]) (totalCost + e.cost)
              visited')⟩ := by
  intro es
  induction es with
  | nil => intro _ ps; simp
  | cons e es ihes =>
    intro hes ps
    have hes' : ∀ e' ∈ es, e' ∈ edges := fun e' h => hes e' (List.mem_cons_of_mem _ h)
    rw [List.foldlM_cons]
    by_cases hc : e.from_ = current ∧ ¬ e.to_ ∈ visited'
    · have hlt : freeTargets edges (setAdd visited' e.to_) < fuel :=
        lt_of_lt_of_le
          (freeTargets_setAdd_lt edges visited' e (hes e (List.mem_cons_self _ _)) hc.2) hfuel
      have hcall := ih e.to_ (path ++ [e.to_]) (totalCost + e.cost) ⟨visited', ps⟩ hc.2 hlt
      simp only [hc, not_false_eq_true, and_self, if_true] at hcall ⊢
      rw [hcall]
      simp only [Option.bind_eq_bind, Option.some_bind]
      rw [ihes hes']
      simp [List.filter_cons, hc, List.append_assoc]
    · simp only [hc, if_false, Option.bind_eq_bind, Option.some_bind]
      rw [ihes hes']
      simp [List.filter_cons, hc]

/-- With enough fuel, a call of `dfs` returns, restores `visited` and appends exactly the
entries of `enumPaths`. -/
theorem dfs_eq_enumPaths (edges : List Edge) :
    ∀ (fuel : Nat) (current target : String) (path : List String) (totalCost : ℚ)
      (st : DfsState),
      current ∉ st.visited → freeTargets edges (setAdd st.visited current) < fuel →
      dfs edges fuel current target path totalCost st
        = some ⟨st.visited,
            st.paths ++ enumPaths edges fuel current target path totalCost st.visited⟩ := by
  intro fuel
  induction fuel with
  | zero => intro _ _ _ _ _ _ h; exact absurd h (Nat.not_lt_zero _)
  | succ fuel ih =>
    intro current target path totalCost st hcur hfuel
    unfold dfs enumPaths
    by_cases ht : current = target
    · simp [ht]
    · simp only [ht, if_false]
      have hfold := dfs_foldlM_eq edges fuel current target path totalCost
        (setAdd st.visited current)
        (fun cur p c st' h1 h2 => ih cur target p c st' h1 h2)
        (Nat.lt_succ_iff.mp hfuel) edges (fun _ h => h) st.paths
      rw [hfold]
      simp [setDelete_setAdd hcur]


theorem walkCost_nil : walkCost [] = 0 := rfl

theorem walkCost_cons (e : Edge) (es : List Edge) : walkCost (e :: es) = e.cost + walkCost es := by
  simp [walkCost]

theorem walkCost_append (es₁ es₂ : List Edge) :
    walkCost (es₁ ++ es₂) = walkCost es₁ + walkCost es₂ := by
  simp [walkCost]

/-- The end of a non-empty walk is the destination of one of its connections. -/
theorem IsWalk.end_mem {edges : List Edge} :
    ∀ {es : List Edge} {u v : String}, IsWalk edges u es v → es ≠ [] →
      v ∈ es.map (fun e => e.to_) := by
  intro es
  induction es with
  | nil => intro _ _ _ h; exact absurd rfl h
  | cons e es ih =>
    intro u v hw _
    obtain ⟨_, _, hrest⟩ := hw
    cases es with
    | nil =>
      have : e.to_ = v := hrest
      simp [this]
    | cons e' es' =>
      have := ih hrest (List.cons_ne_nil _ _)
      exact List.mem_cons_of_mem _ this

/-- Every entry of `enumPaths` comes from a simple walk that avoids `visited`. -/
theorem enumPaths_sound (edges : List Edge) :
    ∀ (fuel : Nat) (current target : String) (path : List String) (totalCost : ℚ)
      (visited : List String) (en : PathEntry),
      en ∈ enumPaths edges fuel current target path totalCost visited →
      ∃ es, IsWalk edges current es target ∧ (es.map (fun e => e.to_)).Nodup ∧
        (∀ x ∈ es.map (fun e => e.to_), x ∉ visited ∧ x ≠ current) ∧
        en = ⟨path ++ es.map (fun e => e.to_), totalCost + walkCost es⟩ := by
  intro fuel
  induction fuel with
  | zero => intro _ _ _ _ _ en h; simp [enumPaths] at h
  | succ fuel ih =>
    intro current target path totalCost visited en h
    unfold enumPaths at h
    by_cases ht : current = target
    · simp only [ht, if_true, List.mem_singleton] at h
      exact ⟨[], ht, by simp, by simp, by simp [h, walkCost_nil]⟩
    · simp only [ht, if_false, List.mem_flatMap, List.mem_filter, Bool.decide_and,
        Bool.and_eq_true, decide_eq_true_eq, decide_not, Bool.not_eq_true',
        decide_eq_false_iff_not] at h
      obtain ⟨e, ⟨he, hfrom, hto⟩, hen⟩ := h
      obtain ⟨es, hw, hnd, hav, heq⟩ := ih _ _ _ _ _ _ hen
      rw [mem_setAdd, not_or] at hto
      refine ⟨e :: es, ⟨he, hfrom, hw⟩, ?_, ?_, ?_⟩
      · simp only [List.map_cons, List.nodup_cons]
        exact ⟨fun hm => (hav _ hm).2 rfl, hnd⟩
      · intro x hx
        simp only [List.map_cons, List.mem_cons] at hx
        rcases hx with rfl | hx
        · exact hto
        · have := (hav x hx).1
          rw [mem_setAdd, not_or] at this
          exact this
      · rw [heq]
        simp [walkCost_cons, add_assoc]

/-- Every simple walk that avoids `visited` and is shorter than the fuel gives an entry. -/
theorem enumPaths_complete (edges : List Edge) :
    ∀ (fuel : Nat) (current target : String) (path : List String) (totalCost : ℚ)
      (visited : List String) (es : List Edge),
      IsWalk edges current es target → (es.map (fun e => e.to_)).Nodup →
      (∀ x ∈ es.map (fun e => e.to_), x ∉ visited ∧ x ≠ current) →
      es.length < fuel →
      (⟨path ++ es.map (fun e => e.to_), totalCost + walkCost es⟩ : PathEntry)
        ∈ enumPaths edges fuel current target path totalCost visited := by
  intro fuel
  induction fuel with
  | zero => intro _ _ _ _ _ _ _ _ _ h; exact absurd h (Nat.not_lt_zero _)
  | succ fuel ih =>
    intro current target path totalCost visited es hw hnd hav hlen
    unfold enumPaths
    by_cases ht : current = target
    · have hes : es = [] := by
        by_contra hne
        have := IsWalk.end_mem hw hne
        exact (hav _ this).2 ht.symm
      subst hes
      simp [ht, walkCost_nil]
    · cases es with
      | nil => exact absurd hw ht
      | cons e es =>
        obtain ⟨he, hfrom, hrest⟩ := hw
        simp only [List.map_cons, List.nodup_cons] at hnd
        have hto := hav e.to_ (by simp)
        simp only [ht, if_false, List.mem_flatMap, List.mem_filter, Bool.decide_and,
          Bool.and_eq_true, decide_eq_true_eq, decide_not, Bool.not_eq_true',
          decide_eq_false_iff_not]
        refine ⟨e, ⟨he, hfrom, ?_⟩, ?_⟩
        · rw [mem_setAdd, not_or]; exact hto
        · have := ih e.to_ target (path ++ [e.to_]) (totalCost + e.cost)
            (setAdd visited current) es hrest hnd.2 ?_ ?_
          · simpa [walkCost_cons, add_assoc] using this
          · intro x hx
            have hx' := hav x (by simp [hx])
            refine ⟨?_, fun h => hnd.1 (h ▸ hx)⟩
            rw [mem_setAdd, not_or]; exact hx'
          · simpa using hlen

theorem enumPaths_prefix (edges : List Edge) (fuel : Nat) (current target : String)
    (path : List String) (totalCost : ℚ) (visited : List String) (p : List String)
    (h : p ∈ (enumPaths edges fuel current target path totalCost visited).map (fun en => en.path)) :
    path <+: p := by
  simp only [List.mem_map] at h
  obtain ⟨en, hen, rfl⟩ := h
  obtain ⟨es, _, _, _, heq⟩ := enumPaths_sound edges _ _ _ _ _ _ _ hen
  rw [heq]
  exact List.prefix_append _ _

/-- Without duplicate connections no vertex path is listed twice by `enumPaths`. -/
theorem enumPaths_nodup (edges : List Edge) (hdup : NoDuplicateConnections edges) :
    ∀ (fuel : Nat) (current target : String) (path : List String) (totalCost : ℚ)
      (visited : List String),
      ((enumPaths edges fuel current target path totalCost visited).map
        (fun en => en.path)).Nodup := by
  intro fuel
  induction fuel with
  | zero => intro _ _ _ _ _; simp [enumPaths]
  | succ fuel ih =>
    intro current target path totalCost visited
    unfold enumPaths
    by_cases ht : current = target
    · simp [ht]
    · simp only [ht, if_false, List.map_flatMap]
      rw [List.nodup_flatMap]
      refine ⟨fun e _ => ih _ _ _ _ _, ?_⟩
      have hp := List.Pairwise.filter
        (fun e => decide (e.from_ = current ∧ ¬ e.to_ ∈ setAdd visited current)) hdup
      refine List.Pairwise.imp_of_mem ?_ hp
      intro a b ha hb hab
      simp only [List.mem_filter, decide_eq_true_eq] at ha hb
      have hne : a.to_ ≠ b.to_ := fun h => hab ⟨ha.2.1.trans hb.2.1.symm, h⟩
      simp only [Function.onFun]
      rw [List.disjoint_left]
      intro p hpa hpb
      have h1 := enumPaths_prefix edges _ _ _ _ _ _ p hpa
      have h2 := enumPaths_prefix edges _ _ _ _ _ _ p hpb
      have h3 := List.prefix_of_prefix_length_le h1 h2 (by simp)
      have h4 := h3.eq_of_length (by simp)
      exact hne (by simpa using h4)


theorem dfsAllTargets_foldlM (topology : Topology) (sourceId : String) :
    ∀ (ns : List Node) (ps : List PathEntry),
      ns.foldlM
        (fun (st : DfsState) node =>
          if node.id ≠ sourceId ∧ node.type ≠ "internet" then
            dfs topology.edges (topology.edges.length + 1) sourceId node.id [sourceId] 0 st
          else some st)
        ⟨[], ps⟩
      = some ⟨[], ps ++
          (ns.filter (fun n => n.id ≠ sourceId ∧ n.type ≠ "internet")).flatMap
            (fun n => enumPaths topology.edges (topology.edges.length + 1) sourceId n.id
              [sourceId] 0 [])⟩ := by
  intro ns
  induction ns with
  | nil => intro ps; simp
  | cons n ns ih =>
    intro ps
    rw [List.foldlM_cons]
    by_cases hc : n.id ≠ sourceId ∧ n.type ≠ "internet"
    · have hcall := dfs_eq_enumPaths topology.edges (topology.edges.length + 1) sourceId n.id
        [sourceId] 0 ⟨[], ps⟩ (List.not_mem_nil _)
        (Nat.lt_succ_of_le (freeTargets_le _ _))
      simp only [hc, ne_eq, not_false_eq_true, and_self, if_true] at hcall ⊢
      rw [hcall]
      simp only [Option.bind_eq_bind, Option.some_bind]
      rw [ih]
      simp [List.filter_cons, hc, List.append_assoc]
    · simp only [hc, if_false, Option.bind_eq_bind, Option.some_bind]
      rw [ih]
      simp [List.filter_cons, hc]

/-- The loop over the targets returns and collects `enumAllTargets`. -/
theorem dfsAllTargets_eq (topology : Topology) (sourceId : String) :
    dfsAllTargets topology sourceId = some ⟨[], enumAllTargets topology sourceId⟩ := by
  unfold dfsAllTargets enumAllTargets
  rw [dfsAllTargets_foldlM]
  simp

theorem sortPaths_perm (paths : List PathEntry) : (sortPaths paths).Perm paths :=
  List.perm_insertionSort _ _

/-- The function `findAllPathsDFS` returns on every topology, and the list `allPaths` it builds (absent when
nothing is found) is a rearrangement of `enumAllTargets`. -/
theorem findAllPathsDFS_allPaths (topology : Topology) (sourceId : String) :
    ∃ r, findAllPathsDFS topology sourceId = some r ∧
      (r.allPaths.getD []).Perm (enumAllTargets topology sourceId) := by
  unfold findAllPathsDFS
  rw [dfsAllTargets_eq]
  simp only
  by_cases h0 : (enumAllTargets topology sourceId).length = 0
  · refine ⟨_, by rw [if_pos h0], ?_⟩
    rw [List.length_eq_zero.mp h0]
    exact List.Perm.refl _
  · rw [if_neg h0]
    have hperm := sortPaths_perm (enumAllTargets topology sourceId)
    cases hs : sortPaths (enumAllTargets topology sourceId) with
    | nil =>
      rw [hs] at hperm
      exact absurd (by rw [← hperm.length_eq]; rfl) h0
    | cons best rest =>
      refine ⟨_, rfl, ?_⟩
      simp only [Option.getD_some]
      rw [← hs]
      exact hperm


theorem IsWalk.mem_edges {edges : List Edge} :
    ∀ {es : List Edge} {u v : String}, IsWalk edges u es v → ∀ e ∈ es, e ∈ edges := by
  intro es
  induction es with
  | nil => intro _ _ _ e he; simp at he
  | cons e es ih =>
    intro u v hw e' he'
    obtain ⟨he, _, hrest⟩ := hw
    rcases List.mem_cons.mp he' with rfl | h
    · exact he
    · exact ih hrest e' h

/-- The vertex sequence of a walk ends at the end of the walk. -/
theorem IsWalk.getLast? {edges : List Edge} :
    ∀ {es : List Edge} {u v : String}, IsWalk edges u es v →
      (u :: es.map (fun e => e.to_)).getLast? = some v := by
  intro es
  induction es with
  | nil => intro u v hw; simp [show u = v from hw]
  | cons e es ih =>
    intro u v hw
    obtain ⟨_, _, hrest⟩ := hw
    have := ih hrest
    simpa [List.getLast?_cons_cons] using this

/-- A simple walk has at most as many connections as the topology. -/
theorem IsWalk.length_le {edges : List Edge} {es : List Edge} {u v : String}
    (hw : IsWalk edges u es v) (hnd : (es.map (fun e => e.to_)).Nodup) :
    es.length ≤ edges.length := by
  have hsub : es.map (fun e => e.to_) ⊆ edges.map (fun e => e.to_) := by
    intro x hx
    simp only [List.mem_map] at hx ⊢
    obtain ⟨e, he, rfl⟩ := hx
    exact ⟨e, hw.mem_edges e he, rfl⟩
  have := (List.subperm_of_subset hnd hsub).length_le
  simpa using this

theorem NoDuplicateConnections.eq {edges : List Edge} (hdup : NoDuplicateConnections edges)
    {a b : Edge} (ha : a ∈ edges) (hb : b ∈ edges) (hf : a.from_ = b.from_)
    (ht : a.to_ = b.to_) : a = b := by
  by_contra hne
  have hsymm : Symmetric (fun a b : Edge => ¬ (a.from_ = b.from_ ∧ a.to_ = b.to_)) := by
    intro x y h hxy
    exact h ⟨hxy.1.symm, hxy.2.symm⟩
  exact List.Pairwise.forall hsymm hdup ha hb hne ⟨hf, ht⟩

/-- Without duplicate connections a walk is determined by its vertex sequence. -/
theorem IsWalk.unique {edges : List Edge} (hdup : NoDuplicateConnections edges) :
    ∀ {es₁ es₂ : List Edge} {u v₁ v₂ : String}, IsWalk edges u es₁ v₁ → IsWalk edges u es₂ v₂ →
      es₁.map (fun e => e.to_) = es₂.map (fun e => e.to_) → es₁ = es₂ := by
  intro es₁
  induction es₁ with
  | nil =>
    intro es₂ _ _ _ _ _ h
    cases es₂ with
    | nil => rfl
    | cons _ _ => simp at h
  | cons e₁ es₁ ih =>
    intro es₂ u v₁ v₂ h₁ h₂ h
    cases es₂ with
    | nil => simp at h
    | cons e₂ es₂ =>
      simp only [List.map_cons, List.cons.injEq] at h
      obtain ⟨he₁, hf₁, hr₁⟩ := h₁
      obtain ⟨he₂, hf₂, hr₂⟩ := h₂
      have heq : e₁ = e₂ := hdup.eq he₁ he₂ (hf₁.trans hf₂.symm) h.1
      subst heq
      rw [ih hr₁ hr₂ h.2]

/-- The entries of `enumAllTargets` are the simple paths to the targets. -/
theorem mem_enumAllTargets (topology : Topology) (sourceId : String) (en : PathEntry) :
    en ∈ enumAllTargets topology sourceId ↔
      ∃ es n, IsWalk topology.edges sourceId es n.id ∧
        (sourceId :: es.map (fun e => e.to_)).Nodup ∧
        n ∈ topology.nodes ∧ n.id ≠ sourceId ∧ n.type ≠ "internet" ∧
        en = ⟨sourceId :: es.map (fun e => e.to_), walkCost es⟩ := by
  unfold enumAllTargets
  simp only [List.mem_flatMap, List.mem_filter, decide_eq_true_eq]
  constructor
  · rintro ⟨n, ⟨hn, hid, hty⟩, hen⟩
    obtain ⟨es, hw, hnd, hav, heq⟩ := enumPaths_sound _ _ _ _ _ _ _ _ hen
    refine ⟨es, n, hw, ?_, hn, hid, hty, by simpa using heq⟩
    rw [List.nodup_cons]
    exact ⟨fun hm => (hav _ hm).2 rfl, hnd⟩
  · rintro ⟨es, n, hw, hnd, hn, hid, hty, rfl⟩
    rw [List.nodup_cons] at hnd
    refine ⟨n, ⟨hn, hid, hty⟩, ?_⟩
    have := enumPaths_complete topology.edges (topology.edges.length + 1) sourceId n.id
      [sourceId] 0 [] es hw hnd.2
      (fun x hx => ⟨List.not_mem_nil _, fun h => hnd.1 (h ▸ hx)⟩)
      (Nat.lt_succ_of_le (hw.length_le hnd.2))
    simpa using this

/-- With unique node ids and without duplicate connections no vertex path is listed twice by
`enumAllTargets`. -/
theorem enumAllTargets_nodup (topology : Topology) (sourceId : String)
    (hids : (topology.nodes.map (fun n => n.id)).Nodup)
    (hdup : NoDuplicateConnections topology.edges) :
    ((enumAllTargets topology sourceId).map (fun en => en.path)).Nodup := by
  unfold enumAllTargets
  rw [List.map_flatMap, List.nodup_flatMap]
  refine ⟨fun n _ => enumPaths_nodup _ hdup _ _ _ _ _ _, ?_⟩
  have hp : topology.nodes.Pairwise (fun a b => a.id ≠ b.id) := by
    have := hids
    rw [List.Nodup, List.pairwise_map] at this
    exact this
  refine List.Pairwise.imp ?_ (List.Pairwise.filter _ hp)
  intro a b hab
  simp only [Function.onFun]
  rw [List.disjoint_left]
  intro p hpa hpb
  simp only [List.mem_map] at hpa hpb
  obtain ⟨ea, hea, rfl⟩ := hpa
  obtain ⟨eb, heb, hpeq⟩ := hpb
  obtain ⟨esa, hwa, _, _, heqa⟩ := enumPaths_sound _ _ _ _ _ _ _ _ hea
  obtain ⟨esb, hwb, _, _, heqb⟩ := enumPaths_sound _ _ _ _ _ _ _ _ heb
  have hla := hwa.getLast?
  have hlb := hwb.getLast?
  rw [heqa, heqb] at hpeq
  simp only [List.singleton_append] at hpeq
  rw [hpeq, hla] at hlb
  exact hab (Option.some.inj hlb)


/-- C4, as stated, fails: in a topology without duplicate connections in which two nodes share
the id `web`, `findAllPathsDFS` lists the simple path `internet → web` twice. -/
theorem findAllPathsDFS_twice_counterexample :
    NoDuplicateConnections duplicateIdTopology.edges ∧
    ∃ r, findAllPathsDFS duplicateIdTopology "internet" = some r ∧
      r.allPaths = some [⟨["internet", "web"], 1⟩, ⟨["internet", "web"], 1⟩] ∧
      ¬ ((r.allPaths.getD []).map (fun en => en.path)).Nodup := by
  refine ⟨List.pairwise_singleton _ _,
    { path := ["internet", "web"], cost := 1, score := none,
      allPaths := some [⟨["internet", "web"], 1⟩, ⟨["internet", "web"], 1⟩] },
    by decide!, rfl, by decide⟩

/-- C4 (amended). For every topology with unique node ids and without duplicate connections,
and every source id, `findAllPathsDFS(source)` returns, and the list `allPaths` it builds
(absent when nothing is found) contains exactly the simple paths that follow connections from
the source to a node that is neither the source nor of type `'internet'`, each such path exactly
once; the cost of each entry is the sum of the connection costs along its path. -/
theorem findAllPathsDFS_simple_paths (topology : Topology) (sourceId : String)
    (hids : (topology.nodes.map (fun n => n.id)).Nodup)
    (hdup : NoDuplicateConnections topology.edges) :
    ∃ r, findAllPathsDFS topology sourceId = some r ∧
      ((r.allPaths.getD []).map (fun en => en.path)).Nodup ∧
      (∀ p, p ∈ (r.allPaths.getD []).map (fun en => en.path) ↔
        IsSimplePathToTarget topology sourceId p) ∧
      (∀ en ∈ r.allPaths.getD [], ∀ es v, IsWalk topology.edges sourceId es v →
        en.path = sourceId :: es.map (fun e => e.to_) → en.cost = walkCost es) := by
  obtain ⟨r, hr, hperm⟩ := findAllPathsDFS_allPaths topology sourceId
  refine ⟨r, hr, ?_, ?_, ?_⟩
  · exact ((hperm.map _).nodup_iff).mpr (enumAllTargets_nodup topology sourceId hids hdup)
  · intro p
    rw [(hperm.map _).mem_iff, List.mem_map]
    constructor
    · rintro ⟨en, hen, rfl⟩
      obtain ⟨es, n, hw, hnd, hn, hid, hty, rfl⟩ := (mem_enumAllTargets _ _ _).mp hen
      exact ⟨hnd, es, n, hw, rfl, hn, hid, hty⟩
    · rintro ⟨hnd, es, n, hw, rfl, hn, hid, hty⟩
      exact ⟨_, (mem_enumAllTargets _ _ _).mpr ⟨es, n, hw, hnd, hn, hid, hty, rfl⟩, rfl⟩
  · intro en hen es v hw hpath
    rw [hperm.mem_iff] at hen
    obtain ⟨es₀, n, hw₀, _, _, _, _, rfl⟩ := (mem_enumAllTargets _ _ _).mp hen
    simp only [List.cons.injEq, true_and] at hpath
    rw [IsWalk.unique hdup hw₀ hw hpath]

theorem findAllPathsDFS_simple_paths_witness :
    ∃ r, findAllPathsDFS loadDefaultTopology "internet" = some r ∧
      ((r.allPaths.getD []).map (fun en => en.path)).Nodup ∧
      (∀ p, p ∈ (r.allPaths.getD []).map (fun en => en.path) ↔
        IsSimplePathToTarget loadDefaultTopology "internet" p) ∧
      (∀ en ∈ r.allPaths.getD [], ∀ es v, IsWalk loadDefaultTopology.edges "internet" es v →
        en.path = "internet" :: es.map (fun e => e.to_) → en.cost = walkCost es) :=
  findAllPathsDFS_simple_paths loadDefaultTopology "internet" (by decide)
    (by unfold NoDuplicateConnections; decide)



/-! ## Least-cost traversal -/

theorem lessThan_infinity_iff (a : Option Distance) :
    lessThan a (some Distance.infinity) = true ↔ ∃ d, a = some (Distance.number d) := by
  cases a with
  | none => simp [lessThan]
  | some v => cases v <;> simp [lessThan]

theorem lessThan_number_number (a b : ℚ) :
    lessThan (some (Distance.number a)) (some (Distance.number b)) = true ↔ a < b := by
  simp [lessThan]

theorem lessThan_left {a b : Option Distance} (h : lessThan a b = true) :
    ∃ d, a = some (Distance.number d) := by
  cases a with
  | none => simp [lessThan] at h
  | some v =>
    cases v with
    | number d => exact ⟨d, rfl⟩
    | infinity => simp [lessThan] at h

theorem setKey_proto {α : Type} (obj : String → Option α) (key : String) (value : α) :
    setKey obj key value "__proto__" = obj "__proto__" := by
  unfold setKey
  by_cases h : key = "__proto__"
  · simp [h]
  · have : ¬ ("__proto__" = key) := fun h' => h h'.symm
    simp [this]

theorem setKey_same {α : Type} (obj : String → Option α) (key : String) (value : α)
    (h : key ≠ "__proto__") : setKey obj key value key = some value := by
  simp [setKey, h]

theorem setKey_other {α : Type} (obj : String → Option α) (key : String) (value : α)
    (k : String) (h : k ≠ key) : setKey obj key value k = obj k := by
  simp [setKey, h]

theorem setKey_eq_or {α : Type} (obj : String → Option α) (key : String) (value : α)
    (k : String) :
    setKey obj key value k = obj k ∨
      (k = key ∧ key ≠ "__proto__" ∧ setKey obj key value k = some value) := by
  unfold setKey
  by_cases h : k = key ∧ key ≠ "__proto__"
  · right; exact ⟨h.1, h.2, by simp [h.1, h.2]⟩
  · left; rw [if_neg h]

theorem mem_setDelete {s : List String} {x y : String} :
    y ∈ setDelete s x ↔ y ∈ s ∧ y ≠ x := by
  simp [setDelete]

theorem length_setDelete_lt {s : List String} {x : String} (h : x ∈ s) :
    (setDelete s x).length < s.length := by
  unfold setDelete
  rw [List.length_filter_lt_length_iff_exists]
  exact ⟨x, h, by simp⟩

/-! ### The search for the least distance -/

theorem selectMin_foldl (distances : String → Option Distance) :
    ∀ (l : List String) (acc : Option String × Option Distance) (seen : List String),
      ((acc = (none, some Distance.infinity) ∧
          ∀ x ∈ seen, ∀ dx, distances x ≠ some (Distance.number dx)) ∨
        (∃ c d, acc = (some c, some (Distance.number d)) ∧ c ∈ seen ∧
          distances c = some (Distance.number d) ∧
          ∀ x ∈ seen, ∀ dx, distances x = some (Distance.number dx) → d ≤ dx)) →
      let r := l.foldl
        (fun acc nodeId =>
          if lessThan (distances nodeId) acc.2 then (some nodeId, distances nodeId) else acc)
        acc
      ((r = (none, some Distance.infinity) ∧
          ∀ x ∈ seen ++ l, ∀ dx, distances x ≠ some (Distance.number dx)) ∨
        (∃ c d, r = (some c, some (Distance.number d)) ∧ c ∈ seen ++ l ∧
          distances c = some (Distance.number d) ∧
          ∀ x ∈ seen ++ l, ∀ dx, distances x = some (Distance.number dx) → d ≤ dx)) := by
  intro l
  induction l with
  | nil => intro acc seen h; simpa using h
  | cons y l ih =>
    intro acc seen h
    simp only [List.foldl_cons]
    have key := ih
      (if lessThan (distances y) acc.2 then (some y, distances y) else acc) (seen ++ [y]) ?_
    · simpa [List.append_assoc] using key
    · rcases h with ⟨rfl, hall⟩ | ⟨c, d, rfl, hc, hdc, hmin⟩
      · by_cases hy : ∃ dy, distances y = some (Distance.number dy)
        · obtain ⟨dy, hy⟩ := hy
          right
          refine ⟨y, dy, by simp [hy, lessThan], by simp, hy, ?_⟩
          intro x hx dx hdx
          rcases List.mem_append.mp hx with hx | hx
          · exact absurd hdx (hall x hx dx)
          · simp only [List.mem_singleton] at hx
            rw [hx, hy] at hdx
            cases hdx
            exact le_rfl
        · left
          have hlt : ¬ lessThan (distances y) (some Distance.infinity) = true :=
            fun h => hy ((lessThan_infinity_iff _).mp h)
          refine ⟨by simp only [hlt]; simp, ?_⟩
          intro x hx dx hdx
          rcases List.mem_append.mp hx with hx | hx
          · exact hall x hx dx hdx
          · simp only [List.mem_singleton] at hx
            rw [hx] at hdx
            exact hy ⟨dx, hdx⟩
      · right
        by_cases hy : ∃ dy, distances y = some (Distance.number dy)
        · obtain ⟨dy, hy⟩ := hy
          by_cases hlt : dy < d
          · refine ⟨y, dy, by simp [hy, lessThan, hlt], by simp, hy, ?_⟩
            intro x hx dx hdx
            rcases List.mem_append.mp hx with hx | hx
            · exact le_trans (le_of_lt hlt) (hmin x hx dx hdx)
            · simp only [List.mem_singleton] at hx
              rw [hx, hy] at hdx
              cases hdx
              exact le_rfl
          · refine ⟨c, d, by simp [hy, lessThan, hlt], by simp [hc], hdc, ?_⟩
            intro x hx dx hdx
            rcases List.mem_append.mp hx with hx | hx
            · exact hmin x hx dx hdx
            · simp only [List.mem_singleton] at hx
              rw [hx, hy] at hdx
              cases hdx
              exact not_lt.mp hlt
        · have hlt : ¬ lessThan (distances y) (some (Distance.number d)) = true :=
            fun h => hy (lessThan_left h)
          refine ⟨c, d, by simp only [hlt]; simp, by simp [hc], hdc, ?_⟩
          intro x hx dx hdx
          rcases List.mem_append.mp hx with hx | hx
          · exact hmin x hx dx hdx
          · simp only [List.mem_singleton] at hx
            rw [hx] at hdx
            exact absurd ⟨dx, hdx⟩ hy

/-- The outcome of the search: either nothing was chosen and no unvisited id is at a finite
distance, or the chosen id is unvisited and at least distance among the unvisited ids. -/
theorem selectMin_spec (distances : String → Option Distance) (unvisited : List String) :
    (selectMin distances unvisited = (none, some Distance.infinity) ∧
      ∀ x ∈ unvisited, ∀ dx, distances x ≠ some (Distance.number dx)) ∨
    (∃ c d, selectMin distances unvisited = (some c, some (Distance.number d)) ∧
      c ∈ unvisited ∧ distances c = some (Distance.number d) ∧
      ∀ x ∈ unvisited, ∀ dx, distances x = some (Distance.number dx) → d ≤ dx) := by
  have := selectMin_foldl distances unvisited (none, some Distance.infinity) []
    (Or.inl ⟨rfl, by simp⟩)
  simpa [selectMin] using this

/-! ### Relaxation -/

theorem relaxEdge_skip (c : String) (st : DijkstraState) (e : Edge)
    (h : ¬ (e.from_ = c ∧ e.to_ ∈ st.unvisited ∧
      lessThan (addCost (st.distances c) e.cost) (st.distances e.to_) = true)) :
    relaxEdge c st e = st := by
  by_cases h1 : e.from_ = c ∧ e.to_ ∈ st.unvisited
  · have h2 : ¬ lessThan (addCost (st.distances c) e.cost)
        (st.distances e.to_) = true := fun h2 => h ⟨h1.1, h1.2, h2⟩
    simp only [relaxEdge, h1, and_self, if_true]
    cases halt : addCost (st.distances c) e.cost with
    | none => rfl
    | some alt =>
      rw [halt] at h2
      simp only [h2]
      simp
  · simp only [relaxEdge, h1, if_false]

theorem relaxEdge_update (c : String) (st : DijkstraState) (e : Edge)
    (h1 : e.from_ = c) (h2 : e.to_ ∈ st.unvisited)
    (h3 : lessThan (addCost (st.distances c) e.cost) (st.distances e.to_) = true) :
    ∃ dc, st.distances c = some (Distance.number dc) ∧
      relaxEdge c st e =
        { st with
          distances := setKey st.distances e.to_ (Distance.number (dc + e.cost)),
          previous := setKey st.previous e.to_ (some c) } := by
  obtain ⟨a, ha⟩ := lessThan_left h3
  cases hc : st.distances c with
  | none => rw [hc] at ha; simp [addCost] at ha
  | some v =>
    cases v with
    | infinity => rw [hc] at ha; simp [addCost] at ha
    | number dc =>
      refine ⟨dc, rfl, ?_⟩
      rw [hc] at h3
      simp only [addCost] at h3
      simp only [relaxEdge, h1, h2, and_self, if_true, hc, addCost, h3]

theorem relaxEdge_unvisited (c : String) (st : DijkstraState) (e : Edge) :
    (relaxEdge c st e).unvisited = st.unvisited := by
  by_cases h : e.from_ = c ∧ e.to_ ∈ st.unvisited ∧
      lessThan (addCost (st.distances c) e.cost) (st.distances e.to_) = true
  · obtain ⟨dc, _, hr⟩ := relaxEdge_update c st e h.1 h.2.1 h.2.2
    rw [hr]
  · rw [relaxEdge_skip c st e h]

theorem relaxEdge_frame (c : String) (st : DijkstraState) (e : Edge) (x : String)
    (hx : x ∉ st.unvisited) :
    (relaxEdge c st e).distances x = st.distances x ∧
      (relaxEdge c st e).previous x = st.previous x := by
  by_cases h : e.from_ = c ∧ e.to_ ∈ st.unvisited ∧
      lessThan (addCost (st.distances c) e.cost) (st.distances e.to_) = true
  · obtain ⟨dc, _, hr⟩ := relaxEdge_update c st e h.1 h.2.1 h.2.2
    rw [hr]
    have hne : x ≠ e.to_ := fun heq => hx (heq ▸ h.2.1)
    exact ⟨setKey_other _ _ _ _ hne, setKey_other _ _ _ _ hne⟩
  · rw [relaxEdge_skip c st e h]
    exact ⟨rfl, rfl⟩

/-- A relaxation leaves the key `'__proto__'` of `distances` alone. -/
theorem relaxEdge_proto (c : String) (st : DijkstraState) (e : Edge) :
    (relaxEdge c st e).distances "__proto__" = st.distances "__proto__" := by
  by_cases h : e.from_ = c ∧ e.to_ ∈ st.unvisited ∧
      lessThan (addCost (st.distances c) e.cost) (st.distances e.to_) = true
  · obtain ⟨dc, _, hr⟩ := relaxEdge_update c st e h.1 h.2.1 h.2.2
    rw [hr]
    exact setKey_proto _ _ _
  · rw [relaxEdge_skip c st e h]

/-- A relaxation keeps a key that holds a number holding one. -/
theorem relaxEdge_some (c : String) (st : DijkstraState) (e : Edge) (x : String)
    (hd : st.distances x ≠ none) : (relaxEdge c st e).distances x ≠ none := by
  by_cases h : e.from_ = c ∧ e.to_ ∈ st.unvisited ∧
      lessThan (addCost (st.distances c) e.cost) (st.distances e.to_) = true
  · obtain ⟨dc, _, hr⟩ := relaxEdge_update c st e h.1 h.2.1 h.2.2
    rw [hr]
    rcases setKey_eq_or st.distances e.to_ (Distance.number (dc + e.cost)) x with h1 | ⟨_, _, h1⟩
    · simp only; rw [h1]; exact hd
    · simp only; rw [h1]; simp
  · rw [relaxEdge_skip c st e h]
    exact hd

theorem relaxEdge_mono (c : String) (st : DijkstraState) (e : Edge) (x : String) (d : ℚ)
    (hd : st.distances x = some (Distance.number d)) :
    ∃ d', (relaxEdge c st e).distances x = some (Distance.number d') ∧ d' ≤ d := by
  by_cases h : e.from_ = c ∧ e.to_ ∈ st.unvisited ∧
      lessThan (addCost (st.distances c) e.cost) (st.distances e.to_) = true
  · obtain ⟨dc, hc, hr⟩ := relaxEdge_update c st e h.1 h.2.1 h.2.2
    rw [hr]
    obtain ⟨_, _, hlt⟩ := h
    rcases setKey_eq_or st.distances e.to_ (Distance.number (dc + e.cost)) x with
      h1 | ⟨hxe, _, h1⟩
    · exact ⟨d, by simp only; rw [h1]; exact hd, le_rfl⟩
    · subst hxe
      rw [hd, hc] at hlt
      simp only [addCost, lessThan_number_number] at hlt
      exact ⟨dc + e.cost, h1, le_of_lt hlt⟩
  · rw [relaxEdge_skip c st e h]
    exact ⟨d, hd, le_rfl⟩

theorem relaxEdge_relaxed (c : String) (st : DijkstraState) (e : Edge) (dc : ℚ)
    (hfrom : e.from_ = c) (hto : e.to_ ∈ st.unvisited)
    (hc : st.distances c = some (Distance.number dc))
    (hnum : st.distances e.to_ ≠ none) (hproto : e.to_ ≠ "__proto__") :
    ∃ dv, (relaxEdge c st e).distances e.to_ = some (Distance.number dv) ∧
      dv ≤ dc + e.cost := by
  by_cases hlt : lessThan (addCost (st.distances c) e.cost) (st.distances e.to_) = true
  · obtain ⟨dc', hc', hr⟩ := relaxEdge_update c st e hfrom hto hlt
    rw [hc] at hc'
    cases hc'
    rw [hr]
    exact ⟨dc + e.cost, setKey_same _ _ _ hproto, le_rfl⟩
  · rw [relaxEdge_skip c st e (fun h => hlt h.2.2)]
    cases hv : st.distances e.to_ with
    | none => exact absurd hv hnum
    | some v =>
      cases v with
      | infinity => simp [hv, hc, addCost, lessThan] at hlt
      | number dv =>
        simp only [hv, hc, addCost, lessThan_number_number, not_lt] at hlt
        exact ⟨dv, rfl, hlt⟩

theorem relaxEdge_origin (c : String) (st : DijkstraState) (e : Edge) (x : String) (d : ℚ)
    (hd : (relaxEdge c st e).distances x = some (Distance.number d)) :
    (st.distances x = some (Distance.number d) ∧
      (relaxEdge c st e).previous x = st.previous x) ∨
    (x ∈ st.unvisited ∧ e.from_ = c ∧ e.to_ = x ∧
      (∃ dc, st.distances c = some (Distance.number dc) ∧ d = dc + e.cost) ∧
      (relaxEdge c st e).previous x = some (some c)) := by
  by_cases h : e.from_ = c ∧ e.to_ ∈ st.unvisited ∧
      lessThan (addCost (st.distances c) e.cost) (st.distances e.to_) = true
  · obtain ⟨dc, hc, hr⟩ := relaxEdge_update c st e h.1 h.2.1 h.2.2
    rw [hr] at hd ⊢
    simp only at hd ⊢
    by_cases hxe : x = e.to_ ∧ e.to_ ≠ "__proto__"
    · right
      obtain ⟨hxe, hp⟩ := hxe
      subst hxe
      rw [setKey_same _ _ _ hp] at hd
      rw [setKey_same _ _ _ hp]
      simp only [Option.some.injEq, Distance.number.injEq] at hd
      exact ⟨h.2.1, h.1, rfl, ⟨dc, hc, hd.symm⟩, rfl⟩
    · left
      have h1 : setKey st.distances e.to_ (Distance.number (dc + e.cost)) x
          = st.distances x := by
        unfold setKey; rw [if_neg hxe]
      have h2 : setKey st.previous e.to_ (some c) x = st.previous x := by
        unfold setKey; rw [if_neg hxe]
      rw [h1] at hd
      exact ⟨hd, h2⟩
  · rw [relaxEdge_skip c st e h] at hd ⊢
    exact Or.inl ⟨hd, rfl⟩

theorem relaxAll_unvisited (c : String) :
    ∀ (es : List Edge) (st : DijkstraState),
      (es.foldl (relaxEdge c) st).unvisited = st.unvisited := by
  intro es
  induction es with
  | nil => intro st; rfl
  | cons e es ih =>
    intro st
    rw [List.foldl_cons, ih, relaxEdge_unvisited]

theorem relaxAll_frame (c : String) (x : String) :
    ∀ (es : List Edge) (st : DijkstraState), x ∉ st.unvisited →
      (es.foldl (relaxEdge c) st).distances x = st.distances x ∧
        (es.foldl (relaxEdge c) st).previous x = st.previous x := by
  intro es
  induction es with
  | nil => intro st _; exact ⟨rfl, rfl⟩
  | cons e es ih =>
    intro st hx
    rw [List.foldl_cons]
    have h1 := relaxEdge_frame c st e x hx
    have h2 := ih (relaxEdge c st e) (by rw [relaxEdge_unvisited]; exact hx)
    exact ⟨h2.1.trans h1.1, h2.2.trans h1.2⟩

theorem relaxAll_proto (c : String) :
    ∀ (es : List Edge) (st : DijkstraState),
      (es.foldl (relaxEdge c) st).distances "__proto__" = st.distances "__proto__" := by
  intro es
  induction es with
  | nil => intro st; rfl
  | cons e es ih =>
    intro st
    rw [List.foldl_cons, ih, relaxEdge_proto]

theorem relaxAll_some (c : String) (x : String) :
    ∀ (es : List Edge) (st : DijkstraState), st.distances x ≠ none →
      (es.foldl (relaxEdge c) st).distances x ≠ none := by
  intro es
  induction es with
  | nil => intro st h; exact h
  | cons e es ih =>
    intro st h
    rw [List.foldl_cons]
    exact ih _ (relaxEdge_some c st e x h)

theorem relaxAll_mono (c : String) (x : String) :
    ∀ (es : List Edge) (st : DijkstraState) (d : ℚ),
      st.distances x = some (Distance.number d) →
      ∃ d', (es.foldl (relaxEdge c) st).distances x = some (Distance.number d') ∧ d' ≤ d := by
  intro es
  induction es with
  | nil => intro st d hd; exact ⟨d, hd, le_rfl⟩
  | cons e es ih =>
    intro st d hd
    rw [List.foldl_cons]
    obtain ⟨d₁, h₁, hle₁⟩ := relaxEdge_mono c st e x d hd
    obtain ⟨d₂, h₂, hle₂⟩ := ih (relaxEdge c st e) d₁ h₁
    exact ⟨d₂, h₂, le_trans hle₂ hle₁⟩

theorem relaxAll_relaxed (c : String) (dc : ℚ) :
    ∀ (es : List Edge) (st : DijkstraState), c ∉ st.unvisited →
      st.distances c = some (Distance.number dc) →
      ∀ e ∈ es, e.from_ = c → e.to_ ∈ st.unvisited → st.distances e.to_ ≠ none →
        e.to_ ≠ "__proto__" →
        ∃ dv, (es.foldl (relaxEdge c) st).distances e.to_ = some (Distance.number dv) ∧
          dv ≤ dc + e.cost := by
  intro es
  induction es with
  | nil => intro _ _ _ e he; simp at he
  | cons e₀ es ih =>
    intro st hc hdc e he hfrom hto hnum hproto
    rw [List.foldl_cons]
    have hc' : c ∉ (relaxEdge c st e₀).unvisited := by rw [relaxEdge_unvisited]; exact hc
    have hdc' : (relaxEdge c st e₀).distances c = some (Distance.number dc) := by
      rw [(relaxEdge_frame c st e₀ c hc).1]; exact hdc
    rcases List.mem_cons.mp he with rfl | hmem
    · obtain ⟨dv, hv, hle⟩ := relaxEdge_relaxed c st e dc hfrom hto hdc hnum hproto
      obtain ⟨dv', hv', hle'⟩ := relaxAll_mono c e.to_ es (relaxEdge c st e) dv hv
      exact ⟨dv', hv', le_trans hle' hle⟩
    · exact ih (relaxEdge c st e₀) hc' hdc' e hmem hfrom
        (by rw [relaxEdge_unvisited]; exact hto) (relaxEdge_some c st e₀ _ hnum) hproto

theorem relaxAll_origin (c : String) (dc : ℚ) (x : String) (d : ℚ) :
    ∀ (es : List Edge) (st : DijkstraState), c ∉ st.unvisited →
      st.distances c = some (Distance.number dc) →
      (es.foldl (relaxEdge c) st).distances x = some (Distance.number d) →
      (st.distances x = some (Distance.number d) ∧
        (es.foldl (relaxEdge c) st).previous x = st.previous x) ∨
      (x ∈ st.unvisited ∧ (∃ e ∈ es, e.from_ = c ∧ e.to_ = x ∧ d = dc + e.cost) ∧
        (es.foldl (relaxEdge c) st).previous x = some (some c)) := by
  intro es
  induction es with
  | nil => intro st _ _ hd; exact Or.inl ⟨hd, rfl⟩
  | cons e₀ es ih =>
    intro st hc hdc hd
    rw [List.foldl_cons] at hd ⊢
    have hc' : c ∉ (relaxEdge c st e₀).unvisited := by rw [relaxEdge_unvisited]; exact hc
    have hdc' : (relaxEdge c st e₀).distances c = some (Distance.number dc) := by
      rw [(relaxEdge_frame c st e₀ c hc).1]; exact hdc
    rcases ih (relaxEdge c st e₀) hc' hdc' hd with ⟨h1, h2⟩ | ⟨h1, ⟨e, he, h3⟩, h4⟩
    · rcases relaxEdge_origin c st e₀ x d h1 with ⟨h5, h6⟩ | ⟨h5, h6, h7, ⟨dc', h8, h9⟩, h10⟩
      · exact Or.inl ⟨h5, h2.trans h6⟩
      · right
        rw [hdc] at h8
        cases h8
        exact ⟨h5, ⟨e₀, List.mem_cons_self _ _, h6, h7, h9⟩, h2.trans h10⟩
    · right
      rw [relaxEdge_unvisited] at h1
      exact ⟨h1, ⟨e, List.mem_cons_of_mem _ he, h3⟩, h4⟩

/-! ### Predecessor chains -/

theorem IsPrevChain.frame {edges : List Edge}
    {previous previous' : String → Option (Option String)} {sourceId : String} :
    ∀ {rs : List Edge} {x : String}, IsPrevChain edges previous sourceId rs x →
      previous' x = previous x → (∀ e ∈ rs, previous' e.from_ = previous e.from_) →
      IsPrevChain edges previous' sourceId rs x := by
  intro rs
  induction rs with
  | nil =>
    intro x h hx _
    obtain ⟨rfl, hs⟩ := h
    exact ⟨rfl, hx.trans hs⟩
  | cons e rs ih =>
    intro x h hx hall
    obtain ⟨he, hto, hprev, hrest⟩ := h
    exact ⟨he, hto, hx.trans hprev,
      ih hrest (hall e (List.mem_cons_self _ _))
        (fun e' he' => hall e' (List.mem_cons_of_mem _ he'))⟩

theorem isWalk_append {edges : List Edge} :
    ∀ {es₁ es₂ : List Edge} {u v w : String}, IsWalk edges u es₁ v → IsWalk edges v es₂ w →
      IsWalk edges u (es₁ ++ es₂) w := by
  intro es₁
  induction es₁ with
  | nil => intro es₂ u v w h₁ h₂; cases (show u = v from h₁); exact h₂
  | cons e es₁ ih =>
    intro es₂ u v w h₁ h₂
    obtain ⟨he, hf, hr⟩ := h₁
    exact ⟨he, hf, ih hr h₂⟩

/-- A predecessor chain, read backwards, is a walk from the source. -/
theorem IsPrevChain.isWalk {edges : List Edge} {previous : String → Option (Option String)}
    {sourceId : String} :
    ∀ {rs : List Edge} {x : String}, IsPrevChain edges previous sourceId rs x →
      IsWalk edges sourceId rs.reverse x := by
  intro rs
  induction rs with
  | nil => intro x h; exact h.1.symm
  | cons e rs ih =>
    intro x h
    obtain ⟨he, hto, _, hrest⟩ := h
    rw [List.reverse_cons]
    exact isWalk_append (ih hrest) ⟨he, rfl, hto⟩

/-- The path reconstruction follows a predecessor chain to the source and returns its ids. -/
theorem reconstructPath_chain {edges : List Edge}
    {previous : String → Option (Option String)} {sourceId : String} :
    ∀ {rs : List Edge} {x : String} (fuel : Nat) (acc : List String),
      IsPrevChain edges previous sourceId rs x → rs.length < fuel →
      reconstructPath previous fuel (some x) acc
        = some (sourceId :: (rs.reverse.map (fun e => e.to_) ++ acc)) := by
  intro rs
  induction rs with
  | nil =>
    intro x fuel acc h hf
    obtain ⟨rfl, hs⟩ := h
    cases fuel with
    | zero => exact absurd hf (Nat.not_lt_zero _)
    | succ fuel =>
      simp only [reconstructPath, hs]
      cases fuel <;> simp [reconstructPath]
  | cons e rs ih =>
    intro x fuel acc h hf
    obtain ⟨_, hto, hprev, hrest⟩ := h
    cases fuel with
    | zero => exact absurd hf (Nat.not_lt_zero _)
    | succ fuel =>
      simp only [reconstructPath, hprev]
      rw [ih fuel (x :: acc) hrest (by simpa using hf)]
      simp [hto]

/-! ### One round of the main loop -/

/-- The invariant survives a round of the main loop. -/
theorem DijkstraInv.step {ids : List String} {edges : List Edge} {sourceId : String}
    {bound : Nat} {st : DijkstraState} {c : String} {dc : ℚ}
    (hinv : DijkstraInv ids edges sourceId bound st)
    (hc : c ∈ st.unvisited) (hdc : st.distances c = some (Distance.number dc)) :
    DijkstraInv ids edges sourceId bound
      (edges.foldl (relaxEdge c) { st with unvisited := setDelete st.unvisited c }) := by
  have hu : (edges.foldl (relaxEdge c)
      { st with unvisited := setDelete st.unvisited c }).unvisited
        = setDelete st.unvisited c := relaxAll_unvisited c edges _
  have hc1 : c ∉ setDelete st.unvisited c := fun h => (mem_setDelete.mp h).2 rfl
  have hframe : ∀ x, x ∉ setDelete st.unvisited c →
      (edges.foldl (relaxEdge c)
        { st with unvisited := setDelete st.unvisited c }).distances x = st.distances x ∧
      (edges.foldl (relaxEdge c)
        { st with unvisited := setDelete st.unvisited c }).previous x = st.previous x :=
    fun x hx => relaxAll_frame c x edges { st with unvisited := setDelete st.unvisited c } hx
  have hsrc : sourceId ∉ setDelete st.unvisited c := by
    intro h
    obtain ⟨h1, h2⟩ := mem_setDelete.mp h
    exact hinv.source_first h1 c dc (fun heq => h2 heq.symm) hdc
  have hsub : ∀ x, x ∉ st.unvisited → x ∉ setDelete st.unvisited c :=
    fun x hx h => hx (mem_setDelete.mp h).1
  have hlen : (setDelete st.unvisited c).length < st.unvisited.length := length_setDelete_lt hc
  have hcid : c ∈ ids := hinv.unvisited_ids c hc
  refine ⟨?_, ?_, ?_, ?_, ?_, ?_, ?_, ?_, ?_⟩
  · intro x hx
    rw [hu] at hx
    exact hinv.unvisited_ids x (mem_setDelete.mp hx).1
  · rw [relaxAll_proto]; exact hinv.proto_absent
  · intro x hx hp
    exact relaxAll_some c x edges _ (hinv.node_number x hx hp)
  · intro hp
    rw [(hframe sourceId hsrc).1]; exact hinv.source_zero hp
  · intro hs hp
    rw [(hframe sourceId hsrc).2]; exact hinv.source_prev hs hp
  · intro h
    rw [hu] at h
    exact absurd h hsrc
  · intro x hx hxu
    rw [hu] at hxu
    rw [(hframe x hxu).1]
    by_cases hxc : x = c
    · rw [hxc, hdc]; exact ⟨dc, rfl⟩
    · exact hinv.settled_finite x hx (fun h => hxu (mem_setDelete.mpr ⟨h, hxc⟩))
  · intro x d hxid hd
    rw [hu]
    rcases relaxAll_origin c dc x d edges { st with unvisited := setDelete st.unvisited c }
      hc1 hdc hd with ⟨h1, h2⟩ | ⟨h1, ⟨e, he, hfrom, hto, hcost⟩, h2⟩
    · obtain ⟨rs, hchain, hcostrs, hall, hlenrs⟩ := hinv.finite_chain x d hxid h1
      refine ⟨rs, hchain.frame h2 ?_, hcostrs, ?_, ?_⟩
      · intro e he
        exact (hframe e.from_ (hsub _ (hall e he).1)).2
      · intro e he
        exact ⟨hsub _ (hall e he).1, (hall e he).2⟩
      · omega
    · obtain ⟨rs, hchain, hcostrs, hall, hlenrs⟩ := hinv.finite_chain c dc hcid hdc
      have hxu : x ∈ st.unvisited := (mem_setDelete.mp h1).1
      refine ⟨e :: rs, ⟨he, hto, ?_, ?_⟩, ?_, ?_, ?_⟩
      · rw [h2, hfrom]
      · rw [hfrom]
        refine hchain.frame (hframe c hc1).2 ?_
        intro e' he'
        exact (hframe e'.from_ (hsub _ (hall e' he').1)).2
      · rw [walkCost_cons, hcostrs, hcost, add_comm]
      · intro e' he'
        rcases List.mem_cons.mp he' with rfl | he'
        · exact ⟨by rw [hfrom]; exact hc1, by rw [hto]; exact hinv.unvisited_ids x hxu⟩
        · exact ⟨hsub _ (hall e' he').1, (hall e' he').2⟩
      · simp only [List.length_cons]
        omega
  · intro e he hfid hfu htid hp
    rw [hu] at hfu
    by_cases hfc : e.from_ = c
    · by_cases htu : e.to_ ∈ setDelete st.unvisited c
      · obtain ⟨dv, hdv, _⟩ := relaxAll_relaxed c dc edges
          { st with unvisited := setDelete st.unvisited c } hc1 hdc e he hfc htu
          (hinv.node_number _ htid hp) hp
        exact ⟨dv, hdv⟩
      · rw [(hframe e.to_ htu).1]
        by_cases htc : e.to_ = c
        · rw [htc, hdc]; exact ⟨dc, rfl⟩
        · exact hinv.settled_finite e.to_ htid
            (fun h => htu (mem_setDelete.mpr ⟨h, htc⟩))
    · have hfold : e.from_ ∉ st.unvisited := fun h => hfu (mem_setDelete.mpr ⟨h, hfc⟩)
      obtain ⟨dv, hv⟩ := hinv.closed e he hfid hfold htid hp
      obtain ⟨dv', hdv', _⟩ := relaxAll_mono c e.to_ edges
        { st with unvisited := setDelete st.unvisited c } dv hv
      exact ⟨dv', hdv'⟩

/-- With non-negative costs the second part of the invariant survives a round as well. -/
theorem DijkstraOpt.step_opt {ids : List String} {edges : List Edge} {sourceId : String}
    {bound : Nat} {st : DijkstraState} {c : String} {dc : ℚ}
    (hnonneg : ∀ e ∈ edges, 0 ≤ e.cost)
    (hinv : DijkstraInv ids edges sourceId bound st) (hopt : DijkstraOpt ids edges st)
    (hc : c ∈ st.unvisited) (hdc : st.distances c = some (Distance.number dc))
    (hmin : ∀ x ∈ st.unvisited, ∀ dx, st.distances x = some (Distance.number dx) → dc ≤ dx) :
    DijkstraOpt ids edges
      (edges.foldl (relaxEdge c) { st with unvisited := setDelete st.unvisited c }) := by
  have hu : (edges.foldl (relaxEdge c)
      { st with unvisited := setDelete st.unvisited c }).unvisited
        = setDelete st.unvisited c := relaxAll_unvisited c edges _
  have hc1 : c ∉ setDelete st.unvisited c := fun h => (mem_setDelete.mp h).2 rfl
  have hframe : ∀ x, x ∉ setDelete st.unvisited c →
      (edges.foldl (relaxEdge c)
        { st with unvisited := setDelete st.unvisited c }).distances x = st.distances x :=
    fun x hx =>
      (relaxAll_frame c x edges { st with unvisited := setDelete st.unvisited c } hx).1
  have hcid : c ∈ ids := hinv.unvisited_ids c hc
  -- a settled id, old or new, is at most as far as `c`
  have hsettled : ∀ u ∈ ids, u ∉ setDelete st.unvisited c → ∀ du,
      st.distances u = some (Distance.number du) → du ≤ dc := by
    intro u hu1 hu2 du hdu
    by_cases huc : u = c
    · rw [huc, hdc] at hdu
      cases hdu
      exact le_rfl
    · exact hopt.settled_le u hu1 (fun h => hu2 (mem_setDelete.mpr ⟨h, huc⟩)) c hc du dc hdu hdc
  refine ⟨?_, ?_⟩
  · intro u huid huu x hxu du dx hdu hdx
    rw [hu] at huu hxu
    rw [hframe u huu] at hdu
    have hxold : x ∈ st.unvisited := (mem_setDelete.mp hxu).1
    rcases relaxAll_origin c dc x dx edges { st with unvisited := setDelete st.unvisited c }
      hc1 hdc hdx with ⟨h1, _⟩ | ⟨_, ⟨e, he, _, _, hcost⟩, _⟩
    · by_cases huc : u = c
      · rw [huc, hdc] at hdu
        cases hdu
        exact hmin x hxold dx h1
      · exact hopt.settled_le u huid (fun h => huu (mem_setDelete.mpr ⟨h, huc⟩)) x hxold
          du dx hdu h1
    · have := hsettled u huid huu du hdu
      have := hnonneg e he
      rw [hcost]
      linarith
  · intro e he hfid hfu htid hp du hdu
    rw [hu] at hfu
    rw [hframe e.from_ hfu] at hdu
    by_cases hfc : e.from_ = c
    · rw [hfc, hdc] at hdu
      cases hdu
      by_cases htu : e.to_ ∈ setDelete st.unvisited c
      · exact relaxAll_relaxed c dc edges
          { st with unvisited := setDelete st.unvisited c } hc1 hdc e he hfc htu
          (hinv.node_number _ htid hp) hp
      · rw [hframe e.to_ htu]
        have hfin : ∃ dv, st.distances e.to_ = some (Distance.number dv) := by
          by_cases htc : e.to_ = c
          · rw [htc, hdc]; exact ⟨dc, rfl⟩
          · exact hinv.settled_finite e.to_ htid
              (fun h => htu (mem_setDelete.mpr ⟨h, htc⟩))
        obtain ⟨dv, hv⟩ := hfin
        have := hsettled e.to_ htid htu dv hv
        have := hnonneg e he
        exact ⟨dv, hv, by linarith⟩
    · have hfold : e.from_ ∉ st.unvisited := fun h => hfu (mem_setDelete.mpr ⟨h, hfc⟩)
      obtain ⟨dv, hdv, hle⟩ := hopt.relaxed e he hfid hfold htid hp du hdu
      obtain ⟨dv', hdv', hle'⟩ := relaxAll_mono c e.to_ edges
        { st with unvisited := setDelete st.unvisited c } dv hdv
      exact ⟨dv', hdv', le_trans hle' hle⟩

/-! ### The main loop -/

/-- Induction over the rounds of the main loop: with fuel for every unvisited id the loop
returns, a property that every round preserves holds at the end, and no unvisited id is left
at a finite distance. -/
theorem dijkstraLoop_induction (edges : List Edge) (P : DijkstraState → Prop)
    (hstep : ∀ (st : DijkstraState) (c : String) (dc : ℚ), P st → c ∈ st.unvisited →
      st.distances c = some (Distance.number dc) →
      (∀ x ∈ st.unvisited, ∀ dx, st.distances x = some (Distance.number dx) → dc ≤ dx) →
      P (edges.foldl (relaxEdge c) { st with unvisited := setDelete st.unvisited c })) :
    ∀ (fuel : Nat) (st : DijkstraState), st.unvisited.length ≤ fuel → P st →
      ∃ st', dijkstraLoop edges fuel st = some st' ∧ P st' ∧
        ∀ x ∈ st'.unvisited, ∀ dx, st'.distances x ≠ some (Distance.number dx) := by
  intro fuel
  induction fuel with
  | zero =>
    intro st hlen hP
    have h0 : st.unvisited = [] := List.length_eq_zero.mp (Nat.le_zero.mp hlen)
    refine ⟨st, by simp [dijkstraLoop, h0], hP, ?_⟩
    intro x hx
    rw [h0] at hx
    exact absurd hx (List.not_mem_nil _)
  | succ fuel ih =>
    intro st hlen hP
    by_cases hpos : st.unvisited.length > 0
    · rcases selectMin_spec st.distances st.unvisited with
        ⟨hsel, hall⟩ | ⟨c, dc, hsel, hc, hdc, hmin⟩
      · exact ⟨st, by simp [dijkstraLoop, hpos, hsel], hP, hall⟩
      · have hlt := length_setDelete_lt hc
        have hlen' : (edges.foldl (relaxEdge c)
            { st with unvisited := setDelete st.unvisited c }).unvisited.length ≤ fuel := by
          rw [relaxAll_unvisited]
          simp only
          omega
        obtain ⟨st', h1, h2, h3⟩ := ih _ hlen' (hstep st c dc hP hc hdc hmin)
        refine ⟨st', ?_, h2, h3⟩
        simp only [dijkstraLoop, hpos, if_true, hsel]
        rw [if_neg (by simp)]
        exact h1
    · have h0 : st.unvisited = [] := List.length_eq_zero.mp (by omega)
      refine ⟨st, by simp [dijkstraLoop, h0], hP, ?_⟩
      intro x hx
      rw [h0] at hx
      exact absurd hx (List.not_mem_nil _)

/-! ### The initial state -/

theorem dijkstraInit_foldl :
    ∀ (nodes : List Node) (acc : DijkstraState),
      acc.distances "__proto__" = none →
      (∀ x d, acc.distances x ≠ some (Distance.number d)) →
      let st := nodes.foldl
        (fun (st : DijkstraState) node =>
          { distances := setKey st.distances node.id Distance.infinity,
            previous := setKey st.previous node.id none,
            unvisited := setAdd st.unvisited node.id })
        acc
      st.distances "__proto__" = none ∧
        (∀ x d, st.distances x ≠ some (Distance.number d)) ∧
        (∀ x ∈ nodes.map (fun n => n.id), x ≠ "__proto__" →
          st.distances x ≠ none ∧ st.previous x = some none) ∧
        (∀ x, acc.distances x ≠ none → st.distances x ≠ none) ∧
        (∀ x, acc.previous x = some none → st.previous x = some none) ∧
        (∀ x, x ∈ st.unvisited ↔ x ∈ acc.unvisited ∨ x ∈ nodes.map (fun n => n.id)) ∧
        st.unvisited.length ≤ acc.unvisited.length + nodes.length := by
  intro nodes
  induction nodes with
  | nil => intro acc hp hd; simp [hp, hd]
  | cons n nodes ih =>
    intro acc hp hd
    simp only [List.foldl_cons]
    have hkeep : ∀ x, acc.distances x ≠ none →
        setKey acc.distances n.id Distance.infinity x ≠ none := by
      intro x hx
      rcases setKey_eq_or acc.distances n.id Distance.infinity x with h | ⟨_, _, h⟩
      · rw [h]; exact hx
      · rw [h]; simp
    have hkeep' : ∀ x, acc.previous x = some none →
        setKey acc.previous n.id (none : Option String) x = some none := by
      intro x hx
      rcases setKey_eq_or acc.previous n.id (none : Option String) x with h | ⟨_, _, h⟩
      · rw [h]; exact hx
      · exact h
    have key := ih
      { distances := setKey acc.distances n.id Distance.infinity,
        previous := setKey acc.previous n.id none,
        unvisited := setAdd acc.unvisited n.id }
      (by simp only; rw [setKey_proto]; exact hp)
      (by
        intro x d
        simp only
        rcases setKey_eq_or acc.distances n.id Distance.infinity x with h | ⟨_, _, h⟩
        · rw [h]; exact hd x d
        · rw [h]; simp)
    obtain ⟨h1, h2, h3, h4, h5, h6, h7⟩ := key
    refine ⟨h1, h2, ?_, ?_, ?_, ?_, ?_⟩
    · intro x hx hxp
      simp only [List.map_cons, List.mem_cons] at hx
      by_cases hxn : x ∈ nodes.map (fun n => n.id)
      · exact h3 x hxn hxp
      · have hxe : x = n.id := by tauto
        subst hxe
        exact ⟨h4 _ (by simp only; rw [setKey_same _ _ _ hxp]; simp),
          h5 _ (by simp only; exact setKey_same _ _ _ hxp)⟩
    · intro x hx
      exact h4 x (hkeep x hx)
    · intro x hx
      exact h5 x (hkeep' x hx)
    · intro x
      rw [h6 x]
      simp only [mem_setAdd, List.map_cons, List.mem_cons]
      tauto
    · have hl : (setAdd acc.unvisited n.id).length ≤ acc.unvisited.length + 1 := by
        unfold setAdd
        split <;> simp
      simp only [List.length_cons] at h7 ⊢
      omega

theorem dijkstraInit_spec (nodes : List Node) (sourceId : String) :
    (dijkstraInit nodes sourceId).distances "__proto__" = none ∧
    (sourceId ≠ "__proto__" →
      (dijkstraInit nodes sourceId).distances sourceId = some (Distance.number 0)) ∧
    (∀ x d, x ≠ sourceId →
      (dijkstraInit nodes sourceId).distances x ≠ some (Distance.number d)) ∧
    (∀ x d, (dijkstraInit nodes sourceId).distances x = some (Distance.number d) → d = 0) ∧
    (∀ x ∈ nodes.map (fun n => n.id), x ≠ "__proto__" →
      (dijkstraInit nodes sourceId).distances x ≠ none ∧
        (dijkstraInit nodes sourceId).previous x = some none) ∧
    (∀ x, x ∈ (dijkstraInit nodes sourceId).unvisited ↔ x ∈ nodes.map (fun n => n.id)) ∧
    (dijkstraInit nodes sourceId).unvisited.length ≤ nodes.length := by
  obtain ⟨h1, h2, h3, _, _, h6, h7⟩ := dijkstraInit_foldl nodes
    { distances := fun _ => none, previous := fun _ => none, unvisited := [] }
    rfl (fun _ _ => by simp)
  refine ⟨?_, ?_, ?_, ?_, ?_, ?_, ?_⟩
  · simp only [dijkstraInit]
    rw [setKey_proto]
    exact h1
  · intro hp
    simp only [dijkstraInit]
    exact setKey_same _ _ _ hp
  · intro x d hx
    simp only [dijkstraInit]
    rw [setKey_other _ _ _ _ hx]
    exact h2 x d
  · intro x d hd
    simp only [dijkstraInit] at hd
    rcases setKey_eq_or _ sourceId (Distance.number 0) x with h | ⟨_, _, h⟩
    · rw [h] at hd; exact absurd hd (h2 x d)
    · rw [h] at hd
      simp only [Option.some.injEq, Distance.number.injEq] at hd
      exact hd.symm
  · intro x hx hxp
    refine ⟨?_, (h3 x hx hxp).2⟩
    simp only [dijkstraInit]
    rcases setKey_eq_or _ sourceId (Distance.number 0) x with h | ⟨_, _, h⟩
    · rw [h]; exact (h3 x hx hxp).1
    · rw [h]; simp
  · intro x
    have := h6 x
    simpa [dijkstraInit] using this
  · simpa [dijkstraInit] using h7

/-- The invariant holds before the first round. -/
theorem dijkstraInit_inv (nodes : List Node) (edges : List Edge) (sourceId : String) :
    DijkstraInv (nodes.map (fun n => n.id)) edges sourceId nodes.length
      (dijkstraInit nodes sourceId) ∧
    DijkstraOpt (nodes.map (fun n => n.id)) edges (dijkstraInit nodes sourceId) := by
  obtain ⟨hp, h0, hne, hzero, hnum, hu, hl⟩ := dijkstraInit_spec nodes sourceId
  refine ⟨⟨?_, hp, ?_, h0, ?_, ?_, ?_, ?_, ?_⟩, ⟨?_, ?_⟩⟩
  · intro x hx; exact (hu x).mp hx
  · intro x hx hxp; exact (hnum x hx hxp).1
  · intro hs hsp; exact (hnum sourceId hs hsp).2
  · intro _ x d hx; exact hne x d hx
  · intro x hx hxu; exact absurd ((hu x).mpr hx) hxu
  · intro x d hxid hd
    have hx : x = sourceId := by
      by_contra hx
      exact hne x d hx hd
    subst hx
    have hxp : x ≠ "__proto__" := by
      rintro rfl
      rw [hp] at hd
      cases hd
    have := hzero x d hd
    subst this
    exact ⟨[], ⟨rfl, (hnum x hxid hxp).2⟩, rfl, by simp, by simpa using hl⟩
  · intro e _ hf hfu; exact absurd ((hu _).mpr hf) hfu
  · intro u hu1 hu2; exact absurd ((hu u).mpr hu1) hu2
  · intro e _ hf hfu; exact absurd ((hu _).mpr hf) hfu

/-- The main loop returns on every topology; at the end both parts of the invariant hold when
the costs are non-negative, the first part in any case, and no unvisited id is at a finite
distance. -/
theorem dijkstraLoop_spec (topology : Topology) (sourceId : String) :
    ∃ st, dijkstraLoop topology.edges topology.nodes.length
        (dijkstraInit topology.nodes sourceId) = some st ∧
      DijkstraInv (topology.nodes.map (fun n => n.id)) topology.edges sourceId
        topology.nodes.length st ∧
      (∀ x ∈ st.unvisited, ∀ dx, st.distances x ≠ some (Distance.number dx)) ∧
      ((∀ e ∈ topology.edges, 0 ≤ e.cost) →
        DijkstraOpt (topology.nodes.map (fun n => n.id)) topology.edges st) := by
  obtain ⟨hinv, hopt⟩ := dijkstraInit_inv topology.nodes topology.edges sourceId
  have hlen := (dijkstraInit_spec topology.nodes sourceId).2.2.2.2.2.2
  have hstep : ∀ (st : DijkstraState) (c : String) (dc : ℚ),
      (DijkstraInv (topology.nodes.map (fun n => n.id)) topology.edges sourceId
          topology.nodes.length st ∧
        ((∀ e ∈ topology.edges, 0 ≤ e.cost) →
          DijkstraOpt (topology.nodes.map (fun n => n.id)) topology.edges st)) →
      c ∈ st.unvisited → st.distances c = some (Distance.number dc) →
      (∀ x ∈ st.unvisited, ∀ dx, st.distances x = some (Distance.number dx) → dc ≤ dx) →
      (DijkstraInv (topology.nodes.map (fun n => n.id)) topology.edges sourceId
          topology.nodes.length
          (topology.edges.foldl (relaxEdge c)
            { st with unvisited := setDelete st.unvisited c }) ∧
        ((∀ e ∈ topology.edges, 0 ≤ e.cost) →
          DijkstraOpt (topology.nodes.map (fun n => n.id)) topology.edges
            (topology.edges.foldl (relaxEdge c)
              { st with unvisited := setDelete st.unvisited c }))) := by
    intro st c dc hP hc hdc hmin
    exact ⟨hP.1.step hc hdc, fun hnn => DijkstraOpt.step_opt hnn hP.1 (hP.2 hnn) hc hdc hmin⟩
  obtain ⟨st, h1, ⟨h2, h4⟩, h3⟩ := dijkstraLoop_induction topology.edges _ hstep
    topology.nodes.length _ hlen ⟨hinv, fun _ => hopt⟩
  exact ⟨st, h1, h2, h3, h4⟩

/-! ### The choice of the target -/

theorem selectTarget_foldl (distances : String → Option Distance) :
    ∀ (l : List Node) (acc : Option Node × ℚ) (seen : List Node),
      ((acc.1 = none → acc.2 = 0) ∧
        (∀ t, acc.1 = some t → t ∈ seen ∧ t.type ≠ "internet" ∧
          (∃ d, distances t.id = some (Distance.number d)) ∧
          acc.2 = calculateAverageCVSS t ∧ 0 < calculateAverageCVSS t) ∧
        (∀ n ∈ seen, n.type ≠ "internet" → (∃ d, distances n.id = some (Distance.number d)) →
          calculateAverageCVSS n ≤ acc.2)) →
      let r := l.foldl
        (fun acc node =>
          if node.type = "internet" then acc
          else
            let avgCVSS := calculateAverageCVSS node
            if avgCVSS > acc.2 ∧ lessThan (distances node.id) (some Distance.infinity) then
              (some node, avgCVSS)
            else acc)
        acc
      ((r.1 = none → r.2 = 0) ∧
        (∀ t, r.1 = some t → t ∈ seen ++ l ∧ t.type ≠ "internet" ∧
          (∃ d, distances t.id = some (Distance.number d)) ∧
          r.2 = calculateAverageCVSS t ∧ 0 < calculateAverageCVSS t) ∧
        (∀ n ∈ seen ++ l, n.type ≠ "internet" →
          (∃ d, distances n.id = some (Distance.number d)) →
          calculateAverageCVSS n ≤ r.2)) := by
  intro l
  induction l with
  | nil => intro acc seen h; simpa using h
  | cons y l ih =>
    intro acc seen h
    obtain ⟨h1, h2, h3⟩ := h
    have h0 : 0 ≤ acc.2 := by
      cases ha : acc.1 with
      | none => rw [h1 ha]
      | some t =>
        obtain ⟨_, _, _, h4, h5⟩ := h2 t ha
        rw [h4]; exact le_of_lt h5
    simp only [List.foldl_cons]
    have key := ih
      (if y.type = "internet" then acc
        else if calculateAverageCVSS y > acc.2 ∧
            lessThan (distances y.id) (some Distance.infinity) then
          (some y, calculateAverageCVSS y)
        else acc) (seen ++ [y]) ?_
    · simpa [List.append_assoc] using key
    · by_cases hty : y.type = "internet"
      · simp only [hty, if_true]
        refine ⟨h1, ?_, ?_⟩
        · intro t ht
          obtain ⟨h4, h5⟩ := h2 t ht
          exact ⟨List.mem_append_left _ h4, h5⟩
        · intro n hn hnt hnd
          rcases List.mem_append.mp hn with hn | hn
          · exact h3 n hn hnt hnd
          · simp only [List.mem_singleton] at hn
            exact absurd (hn ▸ hty) hnt
      · by_cases hc : calculateAverageCVSS y > acc.2 ∧
            lessThan (distances y.id) (some Distance.infinity)
        · simp only [hty, if_false, hc, and_self, if_true]
          refine ⟨by simp, ?_, ?_⟩
          · intro t ht
            simp only [Option.some.injEq] at ht
            subst ht
            exact ⟨by simp, hty, (lessThan_infinity_iff _).mp hc.2, rfl,
              lt_of_le_of_lt h0 hc.1⟩
          · intro n hn hnt hnd
            rcases List.mem_append.mp hn with hn | hn
            · exact le_trans (h3 n hn hnt hnd) (le_of_lt hc.1)
            · simp only [List.mem_singleton] at hn
              rw [hn]
        · simp only [hty, if_false, hc, if_false]
          refine ⟨h1, ?_, ?_⟩
          · intro t ht
            obtain ⟨h4, h5⟩ := h2 t ht
            exact ⟨List.mem_append_left _ h4, h5⟩
          · intro n hn hnt hnd
            rcases List.mem_append.mp hn with hn | hn
            · exact h3 n hn hnt hnd
            · simp only [List.mem_singleton] at hn
              subst hn
              have : ¬ calculateAverageCVSS n > acc.2 :=
                fun hgt => hc ⟨hgt, (lessThan_infinity_iff _).mpr hnd⟩
              exact not_lt.mp this

/-- The outcome of the choice of the target: a chosen node is not of type `'internet'`, is at a
finite distance, has a positive average score, and no node that is not of type `'internet'` and
at a finite distance has a greater one; nothing is chosen only if no such node has a positive
average score. -/
theorem selectTarget_spec (nodes : List Node) (distances : String → Option Distance) :
    ((selectTarget nodes distances).1 = none → (selectTarget nodes distances).2 = 0) ∧
    (∀ t, (selectTarget nodes distances).1 = some t →
      t ∈ nodes ∧ t.type ≠ "internet" ∧ (∃ d, distances t.id = some (Distance.number d)) ∧
        (selectTarget nodes distances).2 = calculateAverageCVSS t ∧
        0 < calculateAverageCVSS t) ∧
    (∀ n ∈ nodes, n.type ≠ "internet" → (∃ d, distances n.id = some (Distance.number d)) →
      calculateAverageCVSS n ≤ (selectTarget nodes distances).2) := by
  have := selectTarget_foldl distances nodes (none, 0) [] ⟨fun _ => rfl, by simp, by simp⟩
  simpa [selectTarget] using this

/-! ### The state after the main loop -/

/-- After the loop every id that a walk through nodes other than `'__proto__'` reaches from an
id at a finite distance is at a finite distance. -/
theorem DijkstraInv.reach {ids : List String} {edges : List Edge} {sourceId : String}
    {bound : Nat} {st : DijkstraState} (hinv : DijkstraInv ids edges sourceId bound st)
    (hexit : ∀ x ∈ st.unvisited, ∀ dx, st.distances x ≠ some (Distance.number dx)) :
    ∀ (es : List Edge) (u x : String), u ∈ ids →
      (∃ d, st.distances u = some (Distance.number d)) →
      IsWalk edges u es x → (∀ e ∈ es, e.to_ ∈ ids ∧ e.to_ ≠ "__proto__") →
      ∃ d, st.distances x = some (Distance.number d) := by
  intro es
  induction es with
  | nil => intro u x _ hu hw _; cases (show u = x from hw); exact hu
  | cons e es ih =>
    intro u x huid hu hw hall
    obtain ⟨he, hfrom, hrest⟩ := hw
    obtain ⟨htid, hp⟩ := hall e (List.mem_cons_self _ _)
    obtain ⟨du, hdu⟩ := hu
    have hset : e.from_ ∉ st.unvisited := fun h => hexit _ h du (hfrom ▸ hdu)
    have := hinv.closed e he (hfrom ▸ huid) hset htid hp
    exact ih e.to_ x htid this hrest (fun e' he' => hall e' (List.mem_cons_of_mem _ he'))

/-- After the loop, with non-negative costs, no walk through nodes other than `'__proto__'`
from an id at a finite distance undercuts the distance of its end. -/
theorem DijkstraOpt.le_walk {ids : List String} {edges : List Edge} {st : DijkstraState}
    (hopt : DijkstraOpt ids edges st)
    (hexit : ∀ x ∈ st.unvisited, ∀ dx, st.distances x ≠ some (Distance.number dx)) :
    ∀ (es : List Edge) (u x : String) (du : ℚ), u ∈ ids →
      st.distances u = some (Distance.number du) →
      IsWalk edges u es x → (∀ e ∈ es, e.to_ ∈ ids ∧ e.to_ ≠ "__proto__") →
      ∃ dx, st.distances x = some (Distance.number dx) ∧ dx ≤ du + walkCost es := by
  intro es
  induction es with
  | nil =>
    intro u x du _ hu hw _
    cases (show u = x from hw)
    exact ⟨du, hu, by simp [walkCost_nil]⟩
  | cons e es ih =>
    intro u x du huid hu hw hall
    obtain ⟨he, hfrom, hrest⟩ := hw
    obtain ⟨htid, hp⟩ := hall e (List.mem_cons_self _ _)
    have hset : e.from_ ∉ st.unvisited := fun h => hexit _ h du (hfrom ▸ hu)
    obtain ⟨dv, hdv, hle⟩ := hopt.relaxed e he (hfrom ▸ huid) hset htid hp du (hfrom ▸ hu)
    obtain ⟨dx, hdx, hle'⟩ := ih e.to_ x dv htid hdv hrest
      (fun e' he' => hall e' (List.mem_cons_of_mem _ he'))
    refine ⟨dx, hdx, ?_⟩
    rw [walkCost_cons]
    linarith

theorem walkCost_reverse (es : List Edge) : walkCost es.reverse = walkCost es := by
  simp [walkCost, List.sum_reverse]

/-- A node id at a finite distance `d` is the end of a walk of cost `d` from the source through
nodes, and the path reconstruction returns the ids of that walk. -/
theorem DijkstraInv.walk {ids : List String} {edges : List Edge} {sourceId : String}
    {bound : Nat} {st : DijkstraState} (hinv : DijkstraInv ids edges sourceId bound st)
    (x : String) (d : ℚ) (hx : x ∈ ids) (hd : st.distances x = some (Distance.number d)) :
    ∃ es, IsWalk edges sourceId es x ∧ (∀ e ∈ es, e.to_ ∈ ids) ∧ walkCost es = d ∧
      reconstructPath st.previous (bound + 1) (some x) []
        = some (sourceId :: es.map (fun e => e.to_)) := by
  obtain ⟨rs, hchain, hcost, hall, hlen⟩ := hinv.finite_chain x d hx hd
  refine ⟨rs.reverse, hchain.isWalk, ?_, ?_, ?_⟩
  · intro e he
    exact (hall e (List.mem_reverse.mp he)).2
  · rw [walkCost_reverse, hcost]
  · have := reconstructPath_chain (bound + 1) [] hchain (by omega)
    simpa using this

/-! ### The result of `dijkstra` -/

/-- The function `dijkstra` returns on every topology.  Its result is read off the state `st`
after the main loop: either no target is chosen and the result is the empty one, or the result
is the walk to the chosen target that the predecessors describe, with the distance of the
target as cost. -/
theorem dijkstra_spec (topology : Topology) (sourceId : String) :
    ∃ st, DijkstraInv (topology.nodes.map (fun n => n.id)) topology.edges sourceId
        topology.nodes.length st ∧
      (∀ x ∈ st.unvisited, ∀ dx, st.distances x ≠ some (Distance.number dx)) ∧
      ((∀ e ∈ topology.edges, 0 ≤ e.cost) →
        DijkstraOpt (topology.nodes.map (fun n => n.id)) topology.edges st) ∧
      (((selectTarget topology.nodes st.distances).1 = none ∧
          dijkstra topology sourceId
            = some { path := [], cost := 0, score := some 0, target := none,
                     targetCVSS := none }) ∨
        (∃ t es, (selectTarget topology.nodes st.distances).1 = some t ∧
          IsWalk topology.edges sourceId es t.id ∧
          (∀ e ∈ es, e.to_ ∈ topology.nodes.map (fun n => n.id)) ∧
          st.distances t.id = some (Distance.number (walkCost es)) ∧
          dijkstra topology sourceId
            = some { path := sourceId :: es.map (fun e => e.to_), cost := walkCost es,
                     score := none, target := some t.id,
                     targetCVSS := some (calculateAverageCVSS t) })) := by
  obtain ⟨st, hloop, hinv, hexit, hopt⟩ := dijkstraLoop_spec topology sourceId
  refine ⟨st, hinv, hexit, hopt, ?_⟩
  obtain ⟨_, hsome, _⟩ := selectTarget_spec topology.nodes st.distances
  cases hsel : selectTarget topology.nodes st.distances with
  | mk tn m =>
    cases tn with
    | none =>
      left
      refine ⟨rfl, ?_⟩
      simp only [dijkstra, hloop, hsel]
    | some t =>
      right
      rw [hsel] at hsome
      obtain ⟨htn, _, ⟨d, hd⟩, hm, _⟩ := hsome t rfl
      obtain ⟨es, hw, hall, hcost, hrec⟩ :=
        hinv.walk t.id d (List.mem_map.mpr ⟨t, htn, rfl⟩) hd
      refine ⟨t, es, rfl, hw, hall, by rw [hcost]; exact hd, ?_⟩
      simp only at hm
      simp only [dijkstra, hloop, hsel, hrec, hd, hcost, hm]

theorem loadDefaultTopology_nonneg : ∀ e ∈ loadDefaultTopology.edges, 0 ≤ e.cost := by
  intro e he
  simp only [loadDefaultTopology, calculateEdgeCosts, List.mem_map] at he
  obtain ⟨e₀, _, rfl⟩ := he
  have := (calculateEdgeCost_cost_bounds defaultTopology.nodes e₀).1
  linarith

/-- C1, as stated, fails.  The topology `danglingTopology` has unique node ids, non-negative
costs and the node `internet`; `dijkstra("internet")` returns the path `internet → b` of cost
`5`, while the connections `internet → x` and `x → b` form a walk from the source to the
returned target of cost `2`.  The same happens in `protoTopology`, where the walk of cost `2`
passes through the node `__proto__`: the object `distances` never holds a number at that
key. -/
theorem dijkstra_dangling_counterexample :
    ((danglingTopology.nodes.map (fun n => n.id)).Nodup ∧
      (∀ e ∈ danglingTopology.edges, 0 ≤ e.cost) ∧
      "internet" ∈ danglingTopology.nodes.map (fun n => n.id) ∧
      dijkstra danglingTopology "internet"
        = some { path := ["internet", "b"], cost := 5, score := none, target := some "b",
                 targetCVSS := some 9 } ∧
      IsWalk danglingTopology.edges "internet"
        [⟨"internet", "x", 1, false⟩, ⟨"x", "b", 1, false⟩] "b" ∧
      walkCost [⟨"internet", "x", 1, false⟩, ⟨"x", "b", 1, false⟩] < 5) ∧
    ((protoTopology.nodes.map (fun n => n.id)).Nodup ∧
      (∀ e ∈ protoTopology.edges, 0 ≤ e.cost) ∧
      "internet" ∈ protoTopology.nodes.map (fun n => n.id) ∧
      dijkstra protoTopology "internet"
        = some { path := ["internet", "b"], cost := 5, score := none, target := some "b",
                 targetCVSS := some 9 } ∧
      IsAssetWalk protoTopology "internet"
        [⟨"internet", "__proto__", 1, false⟩, ⟨"__proto__", "b", 1, false⟩] "b" ∧
      walkCost [⟨"internet", "__proto__", 1, false⟩, ⟨"__proto__", "b", 1, false⟩] < 5) := by
  refine ⟨⟨by decide, ?_, by decide, by decide!, ?_, ?_⟩,
    ⟨by decide, ?_, by decide, by decide!, ⟨?_, ?_⟩, ?_⟩⟩
  · intro e he
    simp only [danglingTopology, List.mem_cons, List.mem_singleton, List.not_mem_nil,
      or_false] at he
    rcases he with rfl | rfl | rfl <;> norm_num
  · exact ⟨by simp [danglingTopology], rfl, by simp [danglingTopology], rfl, rfl⟩
  · simp only [walkCost, List.map_cons, List.map_nil, List.sum_cons, List.sum_nil]
    norm_num
  · intro e he
    simp only [protoTopology, List.mem_cons, List.mem_singleton, List.not_mem_nil,
      or_false] at he
    rcases he with rfl | rfl | rfl <;> norm_num
  · exact ⟨by simp [protoTopology], rfl, by simp [protoTopology], rfl, rfl⟩
  · intro e he
    simp only [List.mem_cons, List.mem_singleton, List.not_mem_nil, or_false] at he
    rcases he with rfl | rfl <;> simp [protoTopology]
  · simp only [walkCost, List.map_cons, List.map_nil, List.sum_cons, List.sum_nil]
    norm_num

/-- C1 (amended). For every topology with non-negative connection costs in which no node has
the id `__proto__`, and every source id that is the id of a node, `dijkstra(source)` returns;
if the returned path is not empty, it starts at the source, ends at the returned target,
follows connections of the topology, the returned cost is the sum of the connection costs
along it, and no walk along connections from the source to the returned target that arrives
only at ids of nodes has a smaller total cost. -/
theorem dijkstra_least_cost (topology : Topology) (sourceId : String)
    (hnonneg : ∀ e ∈ topology.edges, 0 ≤ e.cost)
    (hsrc : sourceId ∈ topology.nodes.map (fun n => n.id))
    (hproto : "__proto__" ∉ topology.nodes.map (fun n => n.id)) :
    ∃ r, dijkstra topology sourceId = some r ∧
      (r.path ≠ [] → ∃ t es, r.target = some t ∧
        r.path.head? = some sourceId ∧ r.path.getLast? = some t ∧
        IsWalk topology.edges sourceId es t ∧
        r.path = sourceId :: es.map (fun e => e.to_) ∧
        r.cost = walkCost es ∧
        ∀ es', IsAssetWalk topology sourceId es' t → r.cost ≤ walkCost es') := by
  obtain ⟨st, hinv, hexit, hopt, hres⟩ := dijkstra_spec topology sourceId
  rcases hres with ⟨_, hr⟩ | ⟨t, es, _, hw, _, hd, hr⟩
  · exact ⟨_, hr, fun h => absurd rfl h⟩
  · refine ⟨_, hr, fun _ => ⟨t.id, es, rfl, rfl, hw.getLast?, hw, rfl, rfl, ?_⟩⟩
    intro es' hes'
    have hsp : sourceId ≠ "__proto__" := fun h => hproto (h ▸ hsrc)
    obtain ⟨dx, hdx, hle⟩ := (hopt hnonneg).le_walk hexit es' sourceId t.id 0 hsrc
      (hinv.source_zero hsp) hes'.1
      (fun e he => ⟨hes'.2 e he, fun h => hproto (h ▸ hes'.2 e he)⟩)
    rw [hd] at hdx
    cases hdx
    simpa using hle

theorem dijkstra_least_cost_witness :
    dijkstra loadDefaultTopology "internet"
      = some { path := ["internet", "web-server", "db-server"], cost := 49 / 6, score := none,
               target := some "db-server", targetCVSS := some 8 } ∧
    ∃ r, dijkstra loadDefaultTopology "internet" = some r ∧
      (r.path ≠ [] → ∃ t es, r.target = some t ∧
        r.path.head? = some "internet" ∧ r.path.getLast? = some t ∧
        IsWalk loadDefaultTopology.edges "internet" es t ∧
        r.path = "internet" :: es.map (fun e => e.to_) ∧
        r.cost = walkCost es ∧
        ∀ es', IsAssetWalk loadDefaultTopology "internet" es' t → r.cost ≤ walkCost es') :=
  ⟨by decide!,
    dijkstra_least_cost loadDefaultTopology "internet" loadDefaultTopology_nonneg (by decide)
      (by decide)⟩

/-- C3, as stated, fails.  In `zeroSeverityTopology` the node `web` is reachable from the
source, yet `dijkstra("internet")` selects no target, because no reachable node has a positive
average score.  In `secondBoundaryTopology` the target is `web`, of average score `5`, although
the reachable node `partner`, which is not the source, has average score `9`: nodes of type
`'internet'` are never selected.  In `ghostTopology` the node `b` is reachable from `internet`
and from `x` along connections, yet no target is selected from either source, because the id
`x` is not the id of a node.  In `protoTargetTopology` the node `__proto__`, of average score
`5`, is reachable from the source along a connection between nodes, yet no target is selected,
because the object `distances` never holds a number at the key `__proto__`. -/
theorem dijkstra_target_counterexample :
    (IsWalk zeroSeverityTopology.edges "internet" [⟨"internet", "web", 10, false⟩] "web" ∧
      dijkstra zeroSeverityTopology "internet"
        = some { path := [], cost := 0, score := some 0, target := none,
                 targetCVSS := none }) ∧
    (IsWalk secondBoundaryTopology.edges "internet" [⟨"internet", "partner", 11 / 2, false⟩]
        "partner" ∧
      calculateAverageCVSS
        ⟨"partner", "internet", some [⟨"CVE-2023-7890", 9, "Varsayılan şifre zafiyeti"⟩]⟩ = 9 ∧
      dijkstra secondBoundaryTopology "internet"
        = some { path := ["internet", "web"], cost := 15 / 2, score := none,
                 target := some "web", targetCVSS := some 5 }) ∧
    (IsWalk ghostTopology.edges "internet"
        [⟨"internet", "x", 10, false⟩, ⟨"x", "b", 10, false⟩] "b" ∧
      dijkstra ghostTopology "internet"
        = some { path := [], cost := 0, score := some 0, target := none,
                 targetCVSS := none } ∧
      IsWalk ghostTopology.edges "x" [⟨"x", "b", 10, false⟩] "b" ∧
      dijkstra ghostTopology "x"
        = some { path := [], cost := 0, score := some 0, target := none,
                 targetCVSS := none }) ∧
    (IsAssetWalk protoTargetTopology "internet" [⟨"internet", "__proto__", 15 / 2, false⟩]
        "__proto__" ∧
      calculateAverageCVSS
        ⟨"__proto__", "server", some [⟨"CVE-2023-0001", 5, "Genel güvenlik zafiyeti"⟩]⟩ = 5 ∧
      dijkstra protoTargetTopology "internet"
        = some { path := [], cost := 0, score := some 0, target := none,
                 targetCVSS := none }) := by
  refine ⟨⟨⟨by simp [zeroSeverityTopology], rfl, rfl⟩, by decide!⟩,
    ⟨⟨by simp [secondBoundaryTopology], rfl, rfl⟩, ?_, by decide!⟩,
    ⟨⟨by simp [ghostTopology], rfl, by simp [ghostTopology], rfl, rfl⟩, by decide!,
      ⟨by simp [ghostTopology], rfl, rfl⟩, by decide!⟩,
    ⟨⟨⟨by simp [protoTargetTopology], rfl, rfl⟩, ?_⟩, ?_, by decide!⟩⟩
  · simp [calculateAverageCVSS]
  · intro e he
    simp only [List.mem_singleton] at he
    subst he
    simp [protoTargetTopology]
  · simp [calculateAverageCVSS]

theorem IsPrevChain.chain_mem_edges {edges : List Edge}
    {previous : String → Option (Option String)} {sourceId : String} :
    ∀ {rs : List Edge} {x : String}, IsPrevChain edges previous sourceId rs x →
      ∀ e ∈ rs, e ∈ edges := by
  intro rs
  induction rs with
  | nil => intro _ _ e he; simp at he
  | cons e₀ rs ih =>
    intro x h e he
    obtain ⟨he₀, _, _, hrest⟩ := h
    rcases List.mem_cons.mp he with rfl | he
    · exact he₀
    · exact ih hrest e he

theorem walkCost_abs_le (bound : ℚ) (n : Nat) :
    ∀ rs : List Edge, (∀ e ∈ rs, |e.cost| * n < bound) →
      |walkCost rs| * n ≤ rs.length * bound ∧
        (rs ≠ [] → |walkCost rs| * n < rs.length * bound) := by
  intro rs
  induction rs with
  | nil => intro _; simp [walkCost_nil]
  | cons e rs ih =>
    intro h
    have h1 := h e (List.mem_cons_self _ _)
    obtain ⟨h2, _⟩ := ih (fun e' he' => h e' (List.mem_cons_of_mem _ he'))
    have h3 : |walkCost (e :: rs)| * n ≤ |e.cost| * n + |walkCost rs| * n := by
      rw [walkCost_cons, ← add_mul]
      exact mul_le_mul_of_nonneg_right (abs_add _ _) (Nat.cast_nonneg n)
    have h4 : |walkCost (e :: rs)| * n < ((e :: rs).length : ℚ) * bound := by
      simp only [List.length_cons, Nat.cast_add, Nat.cast_one]
      linarith
    exact ⟨le_of_lt h4, fun _ => h4⟩

/-- A sum of at most `n` costs, each of which is below `bound / n` in magnitude, is below
`bound` in magnitude. -/
theorem walkCost_abs_lt (bound : ℚ) (n : Nat) (rs : List Edge) (hb : 0 < bound)
    (h : ∀ e ∈ rs, |e.cost| * n < bound) (hlen : rs.length ≤ n) :
    |walkCost rs| < bound := by
  cases rs with
  | nil => simpa [walkCost_nil] using hb
  | cons e rs =>
    have hn : (0 : ℚ) < n := by
      have : 0 < n := lt_of_lt_of_le (Nat.succ_pos _) hlen
      exact_mod_cast this
    have h1 := (walkCost_abs_le bound n (e :: rs) h).2 (List.cons_ne_nil _ _)
    have h2 : ((e :: rs).length : ℚ) * bound ≤ n * bound :=
      mul_le_mul_of_nonneg_right (by exact_mod_cast hlen) (le_of_lt hb)
    have h3 : |walkCost (e :: rs)| * n < bound * n := by linarith
    exact lt_of_mul_lt_mul_right h3 (le_of_lt hn)

/-- C3 (amended). For every topology in which no node has the id `__proto__` and whose costs
are too small for a sum of costs along a path to overflow in double precision (the magnitude
of each cost times the number of nodes is below `2^1024 - 2^970`), and every source id that is
the id of a node: if some node that is not of type `'internet'` and has a positive average
score is reachable from the source by a walk along connections that arrives only at ids of
nodes, then `dijkstra(source)` returns as target a node that is not of type `'internet'`, is
reachable in that way, and whose average score is greater than or equal to the average score
of every node that is not of type `'internet'` and is reachable in that way; the target is not
the source when the source is of type `'internet'`; and the returned cost is below the
overflow threshold in magnitude. -/
theorem dijkstra_target_max (topology : Topology) (sourceId : String)
    (hsrc : sourceId ∈ topology.nodes.map (fun n => n.id))
    (hproto : "__proto__" ∉ topology.nodes.map (fun n => n.id))
    (hsmall : ∀ e ∈ topology.edges, |e.cost| * topology.nodes.length < overflowThreshold)
    (hreach : ∃ n ∈ topology.nodes, n.type ≠ "internet" ∧ 0 < calculateAverageCVSS n ∧
      ∃ es, IsAssetWalk topology sourceId es n.id) :
    ∃ r t, dijkstra topology sourceId = some r ∧ r.target = some t.id ∧
      r.targetCVSS = some (calculateAverageCVSS t) ∧
      t ∈ topology.nodes ∧ t.type ≠ "internet" ∧
      (∃ es, IsAssetWalk topology sourceId es t.id) ∧
      (∀ n ∈ topology.nodes, n.type ≠ "internet" →
        (∃ es, IsAssetWalk topology sourceId es n.id) →
        calculateAverageCVSS n ≤ calculateAverageCVSS t) ∧
      ((∀ s ∈ topology.nodes, s.id = sourceId → s.type = "internet") → t.id ≠ sourceId) ∧
      |r.cost| < overflowThreshold := by
  obtain ⟨st, hinv, hexit, _, hres⟩ := dijkstra_spec topology sourceId
  obtain ⟨hnone, hsome, hmax⟩ := selectTarget_spec topology.nodes st.distances
  have hsp : sourceId ≠ "__proto__" := fun h => hproto (h ▸ hsrc)
  have hfinite : ∀ n, (∃ es, IsAssetWalk topology sourceId es n) →
      ∃ d, st.distances n = some (Distance.number d) := by
    rintro n ⟨es, hw, hall⟩
    exact hinv.reach hexit es sourceId n hsrc ⟨0, hinv.source_zero hsp⟩ hw
      (fun e he => ⟨hall e he, fun h => hproto (h ▸ hall e he)⟩)
  rcases hres with ⟨hsel, _⟩ | ⟨t, es, hsel, hw, hall, hd, hr⟩
  · obtain ⟨n, hn, hty, hpos, hwalk⟩ := hreach
    have := hmax n hn hty (hfinite n.id hwalk)
    rw [hnone hsel] at this
    exact absurd hpos (not_lt.mpr this)
  · obtain ⟨htn, hty, _, hm, _⟩ := hsome t hsel
    refine ⟨_, t, hr, rfl, rfl, htn, hty, ⟨es, hw, hall⟩, ?_, ?_, ?_⟩
    · intro n hn hnty hwalk
      rw [← hm]
      exact hmax n hn hnty (hfinite n.id hwalk)
    · intro hs heq
      exact hty (hs t htn heq)
    · obtain ⟨rs, hchain, hcost, _, hlen⟩ :=
        hinv.finite_chain t.id (walkCost es) (List.mem_map.mpr ⟨t, htn, rfl⟩) hd
      simp only
      rw [← hcost]
      exact walkCost_abs_lt overflowThreshold topology.nodes.length rs
        (lt_trans (by norm_num) overflowThreshold_gt)
        (fun e he => hsmall e (hchain.chain_mem_edges e he)) (by omega)

theorem loadDefaultTopology_small :
    ∀ e ∈ loadDefaultTopology.edges,
      |e.cost| * loadDefaultTopology.nodes.length < overflowThreshold := by
  intro e he
  have h0 := loadDefaultTopology_nonneg e he
  have h2 := overflowThreshold_gt
  have hl : ((loadDefaultTopology.nodes.length : Nat) : ℚ) = 4 := by
    simp [loadDefaultTopology, calculateEdgeCosts, defaultTopology]
  simp only [loadDefaultTopology, calculateEdgeCosts, List.mem_map] at he
  obtain ⟨e₀, _, rfl⟩ := he
  have h1 := (calculateEdgeCost_cost_bounds defaultTopology.nodes e₀).2
  rw [abs_of_nonneg h0, hl]
  linarith

theorem dijkstra_target_max_witness :
    ∃ r t, dijkstra loadDefaultTopology "internet" = some r ∧ r.target = some t.id ∧
      r.targetCVSS = some (calculateAverageCVSS t) ∧
      t ∈ loadDefaultTopology.nodes ∧ t.type ≠ "internet" ∧
      (∃ es, IsAssetWalk loadDefaultTopology "internet" es t.id) ∧
      (∀ n ∈ loadDefaultTopology.nodes, n.type ≠ "internet" →
        (∃ es, IsAssetWalk loadDefaultTopology "internet" es n.id) →
        calculateAverageCVSS n ≤ calculateAverageCVSS t) ∧
      ((∀ s ∈ loadDefaultTopology.nodes, s.id = "internet" → s.type = "internet") →
        t.id ≠ "internet") ∧
      |r.cost| < overflowThreshold :=
  dijkstra_target_max loadDefaultTopology "internet" (by decide) (by decide)
    loadDefaultTopology_small
    ⟨⟨"web-server", "server", some mockCVE_server⟩, by simp [loadDefaultTopology,
        calculateEdgeCosts, defaultTopology], by decide,
      by simp [calculateAverageCVSS, mockCVE_server]; norm_num,
      [⟨"internet", "web-server", 73 / 12, true⟩],
      ⟨by decide!, rfl, rfl⟩, by decide⟩


/-! ## Cross-check of the two strategies -/

/-- An id that a walk arrives at is the end of a non-empty initial part of the walk. -/
theorem IsWalk.prefix_to {edges : List Edge} :
    ∀ {es : List Edge} {u v x : String}, IsWalk edges u es v → x ∈ es.map (fun e => e.to_) →
      ∃ es₁, es₁ ≠ [] ∧ IsWalk edges u es₁ x := by
  intro es
  induction es with
  | nil => intro _ _ _ _ hx; simp at hx
  | cons e es ih =>
    intro u v x hw hx
    obtain ⟨he, hfrom, hrest⟩ := hw
    simp only [List.map_cons, List.mem_cons] at hx
    rcases hx with rfl | hx
    · exact ⟨[e], List.cons_ne_nil _ _, he, hfrom, rfl⟩
    · obtain ⟨es₁, _, hw₁⟩ := ih hrest hx
      exact ⟨e :: es₁, List.cons_ne_nil _ _, he, hfrom, hw₁⟩

/-- In an acyclic topology every walk is a simple path. -/
theorem Acyclic.nodup {edges : List Edge} (hacyc : Acyclic edges) :
    ∀ {es : List Edge} {u v : String}, IsWalk edges u es v →
      (u :: es.map (fun e => e.to_)).Nodup := by
  intro es
  induction es with
  | nil => intro _ _ _; simp
  | cons e es ih =>
    intro u v hw
    rw [List.nodup_cons]
    constructor
    · intro hmem
      obtain ⟨es₁, hne, hw₁⟩ := hw.prefix_to hmem
      exact hacyc u es₁ hne hw₁
    · exact ih hw.2.2

/-- A topology whose connections all lead to an id of greater rank is acyclic. -/
theorem acyclic_of_rank {edges : List Edge} (rank : String → Nat)
    (h : ∀ e ∈ edges, rank e.from_ < rank e.to_) : Acyclic edges := by
  have key : ∀ (es : List Edge) (u v : String), IsWalk edges u es v → es ≠ [] →
      rank u < rank v := by
    intro es
    induction es with
    | nil => intro _ _ _ hne; exact absurd rfl hne
    | cons e es ih =>
      intro u v hw _
      obtain ⟨he, hfrom, hrest⟩ := hw
      have h1 := h e he
      rw [hfrom] at h1
      cases es with
      | nil =>
        have : e.to_ = v := hrest
        rw [← this]; exact h1
      | cons e' es' =>
        exact lt_trans h1 (ih e.to_ v hrest (List.cons_ne_nil _ _))
  intro u es hne hw
  exact lt_irrefl _ (key es u u hw hne)

/-- C5 (amended). For every acyclic topology with unique node ids, none of them `__proto__`,
whose connections all join ids of nodes and have non-negative costs, and every source of type
`'internet'`: both strategies return, and if `dijkstra(source)` returns the target `t` with cost `c`, then `c` is
the least cost among the entries of `allPaths` of `findAllPathsDFS(source)` whose path ends at
`t`: some such entry has cost `c` and none has a smaller cost. -/
theorem dijkstra_cost_eq_dfs_min (topology : Topology) (sourceId : String)
    (hids : (topology.nodes.map (fun n => n.id)).Nodup)
    (hproto : "__proto__" ∉ topology.nodes.map (fun n => n.id))
    (hends : ∀ e ∈ topology.edges, e.from_ ∈ topology.nodes.map (fun n => n.id) ∧
      e.to_ ∈ topology.nodes.map (fun n => n.id))
    (hacyc : Acyclic topology.edges)
    (hnonneg : ∀ e ∈ topology.edges, 0 ≤ e.cost)
    (hsrc : ∃ s ∈ topology.nodes, s.id = sourceId ∧ s.type = "internet") :
    ∃ r r', dijkstra topology sourceId = some r ∧ findAllPathsDFS topology sourceId = some r' ∧
      ∀ t, r.target = some t →
        (∃ en ∈ r'.allPaths.getD [], en.path.getLast? = some t ∧ en.cost = r.cost) ∧
        (∀ en ∈ r'.allPaths.getD [], en.path.getLast? = some t → r.cost ≤ en.cost) := by
  obtain ⟨st, hinv, hexit, hopt, hres⟩ := dijkstra_spec topology sourceId
  obtain ⟨r', hr', hperm⟩ := findAllPathsDFS_allPaths topology sourceId
  obtain ⟨s, hs, hsid, hsty⟩ := hsrc
  have hsmem : sourceId ∈ topology.nodes.map (fun n => n.id) :=
    List.mem_map.mpr ⟨s, hs, hsid⟩
  rcases hres with ⟨_, hr⟩ | ⟨tn, es, hsel, hw, _, hd, hr⟩
  · refine ⟨_, r', hr, hr', ?_⟩
    intro t ht
    cases ht
  · obtain ⟨htn, hty, _, _, _⟩ := (selectTarget_spec topology.nodes st.distances).2.1 tn hsel
    have hne : tn.id ≠ sourceId := by
      intro heq
      have : tn = s := List.inj_on_of_nodup_map hids htn hs (heq.trans hsid.symm)
      exact hty (this ▸ hsty)
    refine ⟨_, r', hr, hr', ?_⟩
    intro t ht
    simp only [Option.some.injEq] at ht
    subst ht
    constructor
    · refine ⟨⟨sourceId :: es.map (fun e => e.to_), walkCost es⟩, ?_, hw.getLast?, rfl⟩
      rw [hperm.mem_iff]
      exact (mem_enumAllTargets _ _ _).mpr ⟨es, tn, hw, hacyc.nodup hw, htn, hne, hty, rfl⟩
    · intro en hen hlast
      rw [hperm.mem_iff] at hen
      obtain ⟨es₀, n, hw₀, _, _, _, _, rfl⟩ := (mem_enumAllTargets _ _ _).mp hen
      simp only at hlast ⊢
      rw [hw₀.getLast?] at hlast
      simp only [Option.some.injEq] at hlast
      rw [hlast] at hw₀
      obtain ⟨dx, hdx, hle⟩ := (hopt hnonneg).le_walk hexit es₀ sourceId tn.id 0 hsmem
        (hinv.source_zero (fun h => hproto (h ▸ hsmem))) hw₀
        (fun e he => ⟨(hends e (hw₀.mem_edges e he)).2,
          fun h => hproto (h ▸ (hends e (hw₀.mem_edges e he)).2)⟩)
      rw [hd] at hdx
      cases hdx
      simpa using hle


theorem detourTopology_acyclic : Acyclic detourTopology.edges :=
  acyclic_of_rank
    (fun x => if x = "internet" then 0 else if x = "a1" then 1 else if x = "x" then 1
      else if x = "a2" then 2 else 3)
    (by decide)

theorem protoDetourTopology_acyclic : Acyclic protoDetourTopology.edges :=
  acyclic_of_rank
    (fun x => if x = "internet" then 0 else if x = "b" then 2 else 1)
    (by decide)

theorem loadDefaultTopology_acyclic : Acyclic loadDefaultTopology.edges :=
  acyclic_of_rank
    (fun x => if x = "web-server" then 1 else if x = "db-server" then 2 else 0)
    (by decide)

/-- C5, as stated, fails.  `detourTopology` is acyclic, its costs are current and its source is
of type `'internet'`; `dijkstra` returns the target `b` with cost `59/2`, while `allPaths` of
`findAllPathsDFS` holds the entry `internet → x → b` of cost `20`, which follows two
connections through an id that is not the id of a node.  In `sharedSourceTopology`, where a
second node shares the id of the source, `dijkstra` returns the source itself as target with
cost `0`, while `findAllPathsDFS` finds no path at all.  The topology `protoDetourTopology` is
acyclic, has unique ids, current costs and connections between nodes only; `dijkstra` returns
the target `b` with cost `15`, while `allPaths` holds the entry `internet → __proto__ → b` of
cost `51/10`: the object `distances` never holds a number at the key `__proto__`. -/
theorem dijkstra_dfs_mismatch_counterexample :
    (Acyclic detourTopology.edges ∧
      calculateEdgeCosts detourTopology = detourTopology ∧
      detourTopology.nodes.find? (fun n => n.id = "internet")
        = some ⟨"internet", "internet", some []⟩ ∧
      dijkstra detourTopology "internet"
        = some { path := ["internet", "a1", "a2", "b"], cost := 59 / 2, score := none,
                 target := some "b", targetCVSS := some 1 } ∧
      findAllPathsDFS detourTopology "internet"
        = some { path := ["internet", "a1"], cost := 10, score := none,
                 allPaths := some
                   [⟨["internet", "a1"], 10⟩, ⟨["internet", "a1", "a2"], 20⟩,
                    ⟨["internet", "x", "b"], 20⟩, ⟨["internet", "a1", "a2", "b"], 59 / 2⟩] } ∧
      (20 : ℚ) < 59 / 2) ∧
    (Acyclic sharedSourceTopology.edges ∧
      calculateEdgeCosts sharedSourceTopology = sharedSourceTopology ∧
      sharedSourceTopology.nodes.find? (fun n => n.id = "internet")
        = some ⟨"internet", "internet", some []⟩ ∧
      dijkstra sharedSourceTopology "internet"
        = some { path := ["internet"], cost := 0, score := none, target := some "internet",
                 targetCVSS := some 5 } ∧
      findAllPathsDFS sharedSourceTopology "internet"
        = some { path := [], cost := 0, score := some 0, allPaths := none }) ∧
    (Acyclic protoDetourTopology.edges ∧
      calculateEdgeCosts protoDetourTopology = protoDetourTopology ∧
      (protoDetourTopology.nodes.map (fun n => n.id)).Nodup ∧
      (∀ e ∈ protoDetourTopology.edges,
        e.from_ ∈ protoDetourTopology.nodes.map (fun n => n.id) ∧
          e.to_ ∈ protoDetourTopology.nodes.map (fun n => n.id)) ∧
      protoDetourTopology.nodes.find? (fun n => n.id = "internet")
        = some ⟨"internet", "internet", some []⟩ ∧
      dijkstra protoDetourTopology "internet"
        = some { path := ["internet", "m", "b"], cost := 15, score := none,
                 target := some "b", targetCVSS := some 10 } ∧
      findAllPathsDFS protoDetourTopology "internet"
        = some { path := ["internet", "__proto__"], cost := 5, score := none,
                 allPaths := some
                   [⟨["internet", "__proto__"], 5⟩, ⟨["internet", "__proto__", "b"], 51 / 10⟩,
                    ⟨["internet", "m"], 10⟩, ⟨["internet", "m", "b"], 15⟩] } ∧
      (51 / 10 : ℚ) < 15) := by
  refine ⟨⟨detourTopology_acyclic, by decide!, by rfl, by decide!, by decide!, by norm_num⟩,
    ⟨?_, by rfl, by rfl, by decide!, by decide!⟩,
    ⟨protoDetourTopology_acyclic, by decide!, by decide, by decide, by rfl, by decide!,
      by decide!, by norm_num⟩⟩
  intro u es hne hw
  cases es with
  | nil => exact hne rfl
  | cons e es => exact absurd hw.1 (List.not_mem_nil _)

theorem dijkstra_cost_eq_dfs_min_witness :
    dijkstra loadDefaultTopology "internet"
      = some { path := ["internet", "web-server", "db-server"], cost := 49 / 6, score := none,
               target := some "db-server", targetCVSS := some 8 } ∧
    ∃ r r', dijkstra loadDefaultTopology "internet" = some r ∧
      findAllPathsDFS loadDefaultTopology "internet" = some r' ∧
      ∀ t, r.target = some t →
        (∃ en ∈ r'.allPaths.getD [], en.path.getLast? = some t ∧ en.cost = r.cost) ∧
        (∀ en ∈ r'.allPaths.getD [], en.path.getLast? = some t → r.cost ≤ en.cost) :=
  ⟨by decide!,
    dijkstra_cost_eq_dfs_min loadDefaultTopology "internet" (by decide) (by decide) (by decide)
      loadDefaultTopology_acyclic loadDefaultTopology_nonneg
      ⟨⟨"internet", "internet", some []⟩, by decide!, rfl, rfl⟩⟩



/-! ## Analysis without a reachable asset or without a source -/

/-- When nothing is enumerated, `findAllPathsDFS` returns the empty result. -/
theorem findAllPathsDFS_eq_empty (topology : Topology) (sourceId : String)
    (h : enumAllTargets topology sourceId = []) :
    findAllPathsDFS topology sourceId
      = some { path := [], cost := 0, score := some 0, allPaths := none } := by
  unfold findAllPathsDFS
  rw [dfsAllTargets_eq]
  simp [h]

/-- When something is enumerated, `findAllPathsDFS` returns the sorted list and its head. -/
theorem findAllPathsDFS_eq_sorted (topology : Topology) (sourceId : String)
    (h : enumAllTargets topology sourceId ≠ []) :
    ∃ best rest, sortPaths (enumAllTargets topology sourceId) = best :: rest ∧
      findAllPathsDFS topology sourceId
        = some { path := best.path, cost := best.cost, score := none,
                 allPaths := some (best :: rest) } := by
  have hperm := sortPaths_perm (enumAllTargets topology sourceId)
  cases hs : sortPaths (enumAllTargets topology sourceId) with
  | nil =>
    rw [hs] at hperm
    exact absurd hperm.symm.eq_nil h
  | cons best rest =>
    refine ⟨best, rest, rfl, ?_⟩
    unfold findAllPathsDFS
    rw [dfsAllTargets_eq]
    have h0 : (enumAllTargets topology sourceId).length ≠ 0 :=
      fun h0 => h (List.length_eq_zero.mp h0)
    simp [h0, hs]

/-- C11. For every topology and every source of boundary category (every node that carries
the source id is of type `'internet'`) such that no node other than the source is reachable
from the source along connections, both strategies return, and each of them returns an empty
path and cost `0`. -/
theorem unreachable_empty_result (topology : Topology) (sourceId : String)
    (hsrc : ∀ s ∈ topology.nodes, s.id = sourceId → s.type = "internet")
    (hno : ∀ n ∈ topology.nodes, n.id ≠ sourceId →
      ∀ es, ¬ IsWalk topology.edges sourceId es n.id) :
    ∃ r r', dijkstra topology sourceId = some r ∧
      findAllPathsDFS topology sourceId = some r' ∧
      r.path = [] ∧ r.cost = 0 ∧ r'.path = [] ∧ r'.cost = 0 := by
  have hdfs : enumAllTargets topology sourceId = [] := by
    rw [List.eq_nil_iff_forall_not_mem]
    intro en hen
    obtain ⟨es, n, hw, _, hn, hid, _⟩ := (mem_enumAllTargets _ _ _).mp hen
    exact hno n hn hid es hw
  obtain ⟨st, hinv, _, _, hres⟩ := dijkstra_spec topology sourceId
  rcases hres with ⟨_, hr⟩ | ⟨t, es, hsel, hw, _, _, _⟩
  · exact ⟨_, _, hr, findAllPathsDFS_eq_empty topology sourceId hdfs, rfl, rfl, rfl, rfl⟩
  · obtain ⟨ht, hty, _⟩ := (selectTarget_spec topology.nodes st.distances).2.1 t hsel
    by_cases hid : t.id = sourceId
    · exact absurd (hsrc t ht hid) hty
    · exact absurd hw (hno t ht hid es)

theorem unreachable_empty_result_witness :
    (dijkstra boundaryOnlyTopology "internet"
        = some { path := [], cost := 0, score := some 0, target := none, targetCVSS := none } ∧
      findAllPathsDFS boundaryOnlyTopology "internet"
        = some { path := [], cost := 0, score := some 0, allPaths := none }) ∧
    ∃ r r', dijkstra boundaryOnlyTopology "internet" = some r ∧
      findAllPathsDFS boundaryOnlyTopology "internet" = some r' ∧
      r.path = [] ∧ r.cost = 0 ∧ r'.path = [] ∧ r'.cost = 0 :=
  ⟨⟨by decide!, by decide!⟩,
    unreachable_empty_result boundaryOnlyTopology "internet" (by decide) (by
      intro n hn hne
      simp only [boundaryOnlyTopology, List.mem_singleton] at hn
      exact absurd (by rw [hn]) hne)⟩

theorem calculateEdgeCosts_critical (topology : Topology) :
    (calculateEdgeCosts topology).edges.map (fun e => e.critical)
      = topology.edges.map (fun e => e.critical) := by
  simp only [calculateEdgeCosts, List.map_map]
  apply List.map_congr_left
  intro e _
  simp only [Function.comp, calculateEdgeCost]
  split <;> rfl

/-- C12, as stated, fails: `singleServerTopology` has no node of type `'internet'`, and
`runAnalysis` returns without a result: neither search is run, so there is no result with an
empty path and zero cost. -/
theorem runAnalysis_no_source_counterexample :
    (∀ n ∈ singleServerTopology.nodes, n.type ≠ "internet") ∧
    ∃ o, runAnalysis "dijkstra" singleServerTopology = some o ∧ o.result = none ∧
      ¬ ∃ r, o.result = some r ∧ r.path = [] ∧ r.cost = 0 := by
  refine ⟨by decide, ⟨calculateEdgeCosts singleServerTopology, none, false⟩, by decide!, rfl,
    ?_⟩
  rintro ⟨r, hr, _⟩
  cases hr

/-- C12 (amended). For every topology that contains no node of type `'internet'` and for either
strategy, `runAnalysis` does not fail: it returns after `calculateEdgeCosts` without running
a search, so it produces no result, and it leaves the nodes, the endpoints and the critical
flags of the connections as they were. -/
theorem runAnalysis_no_source (algorithm : String) (topology : Topology)
    (h : ∀ n ∈ topology.nodes, n.type ≠ "internet") :
    ∃ o, runAnalysis algorithm topology = some o ∧ o.result = none ∧ o.raised = false ∧
      o.topology = calculateEdgeCosts topology ∧
      o.topology.nodes = topology.nodes ∧
      o.topology.edges.map (fun e => (e.from_, e.to_, e.critical))
        = topology.edges.map (fun e => (e.from_, e.to_, e.critical)) := by
  have hfind : (calculateEdgeCosts topology).nodes.find? (fun n => n.type = "internet")
      = none := by
    rw [List.find?_eq_none]
    intro n hn
    simpa using h n hn
  refine ⟨⟨calculateEdgeCosts topology, none, false⟩, ?_, rfl, rfl, rfl, rfl, ?_⟩
  · simp only [runAnalysis, hfind]
  · simp only [calculateEdgeCosts, List.map_map]
    apply List.map_congr_left
    intro e _
    simp only [Function.comp, calculateEdgeCost]
    split <;> rfl

theorem runAnalysis_no_source_witness :
    ∃ o, runAnalysis "dfs" singleServerTopology = some o ∧ o.result = none ∧
      o.raised = false ∧
      o.topology = calculateEdgeCosts singleServerTopology ∧
      o.topology.nodes = singleServerTopology.nodes ∧
      o.topology.edges.map (fun e => (e.from_, e.to_, e.critical))
        = singleServerTopology.edges.map (fun e => (e.from_, e.to_, e.critical)) :=
  runAnalysis_no_source "dfs" singleServerTopology (by decide)

/-! ## The order of the enumerated paths -/

/-- C13. Whenever the loop over the targets of `findAllPathsDFS(source)` collects at least one
path, the function returns the list `allPaths` that holds the collected entries in ascending
order of cost, the returned path and cost are those of its first entry, and the returned cost
is less than or equal to the cost of every collected entry. -/
theorem findAllPathsDFS_sorted (topology : Topology) (sourceId : String) (st : DfsState)
    (hst : dfsAllTargets topology sourceId = some st) (hne : st.paths ≠ []) :
    ∃ r l, findAllPathsDFS topology sourceId = some r ∧ r.allPaths = some l ∧
      l.Perm st.paths ∧ l.Sorted (fun a b => a.cost ≤ b.cost) ∧
      l.head? = some { path := r.path, cost := r.cost } ∧
      ∀ en ∈ st.paths, r.cost ≤ en.cost := by
  rw [dfsAllTargets_eq] at hst
  simp only [Option.some.injEq] at hst
  subst hst
  obtain ⟨best, rest, hs, hr⟩ := findAllPathsDFS_eq_sorted topology sourceId hne
  haveI : IsTotal PathEntry (fun a b => a.cost ≤ b.cost) := ⟨fun a b => le_total _ _⟩
  haveI : IsTrans PathEntry (fun a b => a.cost ≤ b.cost) := ⟨fun _ _ _ h₁ h₂ => le_trans h₁ h₂⟩
  have hsorted : (best :: rest).Sorted (fun a b => a.cost ≤ b.cost) := by
    rw [← hs]
    exact List.sorted_insertionSort _ _
  have hperm : (best :: rest).Perm (enumAllTargets topology sourceId) := by
    rw [← hs]
    exact sortPaths_perm _
  refine ⟨_, best :: rest, hr, rfl, hperm, hsorted, rfl, ?_⟩
  intro en hen
  have hmem : en ∈ best :: rest := hperm.mem_iff.mpr hen
  rcases List.mem_cons.mp hmem with rfl | hmem
  · exact le_rfl
  · exact List.rel_of_sorted_cons hsorted en hmem

theorem findAllPathsDFS_sorted_witness :
    ∃ r l, findAllPathsDFS loadDefaultTopology "internet" = some r ∧ r.allPaths = some l ∧
      l.Perm [⟨["internet", "web-server"], 73 / 12⟩,
        ⟨["internet", "web-server", "db-server"], 49 / 6⟩] ∧
      l.Sorted (fun a b => a.cost ≤ b.cost) ∧
      l.head? = some { path := r.path, cost := r.cost } ∧
      ∀ en ∈ [(⟨["internet", "web-server"], 73 / 12⟩ : PathEntry),
        ⟨["internet", "web-server", "db-server"], 49 / 6⟩], r.cost ≤ en.cost :=
  findAllPathsDFS_sorted loadDefaultTopology "internet"
    ⟨[], [⟨["internet", "web-server"], 73 / 12⟩,
      ⟨["internet", "web-server", "db-server"], 49 / 6⟩]⟩
    (by decide!) (by simp)


/-! ## The searches do not read the critical flags -/

theorem edgeData_eq {e e' : Edge} (h : edgeData e = edgeData e') :
    e.from_ = e'.from_ ∧ e.to_ = e'.to_ ∧ e.cost = e'.cost := by
  simp only [edgeData, Prod.mk.injEq] at h
  exact h

theorem relaxEdge_congr (c : String) (st : DijkstraState) {e e' : Edge}
    (h : edgeData e = edgeData e') : relaxEdge c st e = relaxEdge c st e' := by
  obtain ⟨h1, h2, h3⟩ := edgeData_eq h
  simp only [relaxEdge, h1, h2, h3]

theorem relaxAll_congr (c : String) :
    ∀ (es es' : List Edge), es.map edgeData = es'.map edgeData → ∀ st : DijkstraState,
      es.foldl (relaxEdge c) st = es'.foldl (relaxEdge c) st := by
  intro es
  induction es with
  | nil =>
    intro es' h st
    cases es' with
    | nil => rfl
    | cons _ _ => simp at h
  | cons e es ih =>
    intro es' h st
    cases es' with
    | nil => simp at h
    | cons e' es' =>
      simp only [List.map_cons, List.cons.injEq] at h
      simp only [List.foldl_cons]
      rw [relaxEdge_congr c st h.1]
      exact ih es' h.2 _

theorem dijkstraLoop_congr (edges edges' : List Edge)
    (h : edges.map edgeData = edges'.map edgeData) :
    ∀ (fuel : Nat) (st : DijkstraState),
      dijkstraLoop edges fuel st = dijkstraLoop edges' fuel st := by
  intro fuel
  induction fuel with
  | zero => intro st; simp only [dijkstraLoop]
  | succ fuel ih =>
    intro st
    simp only [dijkstraLoop]
    split
    · split
      · rfl
      · split
        · rfl
        · rw [relaxAll_congr _ edges edges' h]
          exact ih _
    · rfl

/-- The result of `dijkstra` depends on the nodes and on `from`, `to` and `cost` of the edges
only. -/
theorem dijkstra_congr (topology topology' : Topology) (sourceId : String)
    (hn : topology.nodes = topology'.nodes)
    (he : topology.edges.map edgeData = topology'.edges.map edgeData) :
    dijkstra topology sourceId = dijkstra topology' sourceId := by
  simp only [dijkstra, hn, dijkstraLoop_congr _ _ he]

theorem filter_flatMap_congr {β : Type} (p p' : Edge → Bool) (g g' : Edge → List β)
    (hp : ∀ e e', edgeData e = edgeData e' → p e = p' e')
    (hg : ∀ e e', edgeData e = edgeData e' → g e = g' e') :
    ∀ (es es' : List Edge), es.map edgeData = es'.map edgeData →
      (es.filter p).flatMap g = (es'.filter p').flatMap g' := by
  intro es
  induction es with
  | nil =>
    intro es' h
    cases es' with
    | nil => rfl
    | cons _ _ => simp at h
  | cons e es ih =>
    intro es' h
    cases es' with
    | nil => simp at h
    | cons e' es' =>
      simp only [List.map_cons, List.cons.injEq] at h
      simp only [List.filter_cons, ← hp e e' h.1]
      cases hpe : p e
      · simpa using ih es' h.2
      · simp only [if_true, List.flatMap_cons, hg e e' h.1, ih es' h.2]

theorem enumPaths_congr (edges edges' : List Edge)
    (h : edges.map edgeData = edges'.map edgeData) :
    ∀ (fuel : Nat) (current target : String) (path : List String) (totalCost : ℚ)
      (visited : List String),
      enumPaths edges fuel current target path totalCost visited
        = enumPaths edges' fuel current target path totalCost visited := by
  intro fuel
  induction fuel with
  | zero => intro _ _ _ _ _; simp only [enumPaths]
  | succ fuel ih =>
    intro current target path totalCost visited
    simp only [enumPaths]
    split
    · rfl
    · apply filter_flatMap_congr _ _ _ _ _ _ edges edges' h
      · intro e e' hd
        obtain ⟨h1, h2, _⟩ := edgeData_eq hd
        simp only [h1, h2]
      · intro e e' hd
        obtain ⟨_, h2, h3⟩ := edgeData_eq hd
        simp only [h2, h3]
        exact ih _ _ _ _ _

/-- The result of `findAllPathsDFS` depends on the nodes and on `from`, `to` and `cost` of the
edges only. -/
theorem findAllPathsDFS_congr (topology topology' : Topology) (sourceId : String)
    (hn : topology.nodes = topology'.nodes)
    (he : topology.edges.map edgeData = topology'.edges.map edgeData) :
    findAllPathsDFS topology sourceId = findAllPathsDFS topology' sourceId := by
  have hlen : topology.edges.length = topology'.edges.length := by
    have := congrArg List.length he
    simpa using this
  have henum : enumAllTargets topology sourceId = enumAllTargets topology' sourceId := by
    simp only [enumAllTargets, hn, hlen, enumPaths_congr _ _ he]
  simp only [findAllPathsDFS, dfsAllTargets_eq, henum]


/-! ## Idempotence of the analysis -/

theorem runSearch_congr (algorithm : String) (topology topology' : Topology)
    (sourceId : String) (hn : topology.nodes = topology'.nodes)
    (he : topology.edges.map edgeData = topology'.edges.map edgeData) :
    runSearch algorithm topology sourceId = runSearch algorithm topology' sourceId := by
  simp only [runSearch, dijkstra_congr _ _ _ hn he, findAllPathsDFS_congr _ _ _ hn he]

/-- Either search returns on every topology. -/
theorem runSearch_total (algorithm : String) (topology : Topology) (sourceId : String) :
    ∃ r, runSearch algorithm topology sourceId = some r := by
  unfold runSearch
  split
  · obtain ⟨r, hr, _⟩ := findAllPathsDFS_allPaths topology sourceId
    exact ⟨_, by rw [hr]; rfl⟩
  · obtain ⟨st, _, _, _, hres⟩ := dijkstra_spec topology sourceId
    rcases hres with ⟨_, hr⟩ | ⟨t, es, _, _, _, _, hr⟩
    · exact ⟨_, by rw [hr]; rfl⟩
    · exact ⟨_, by rw [hr]; rfl⟩

theorem markCritical_data (a b : String) :
    ∀ es : List Edge, (markCritical a b es).map edgeData = es.map edgeData := by
  intro es
  induction es with
  | nil => rfl
  | cons e es ih =>
    unfold markCritical
    split
    · rfl
    · simp only [List.map_cons, ih]

theorem markCritical_foldl_data (pairs : List (String × String)) :
    ∀ es : List Edge,
      (pairs.foldl (fun edges p => markCritical p.1 p.2 edges) es).map edgeData
        = es.map edgeData := by
  induction pairs with
  | nil => intro es; rfl
  | cons p pairs ih =>
    intro es
    rw [List.foldl_cons, ih, markCritical_data]

theorem reset_map_congr (es es' : List Edge) (h : es.map edgeData = es'.map edgeData) :
    es.map (fun edge => { edge with critical := false })
      = es'.map (fun edge => { edge with critical := false }) := by
  have key : ∀ l : List Edge, l.map (fun edge => { edge with critical := false })
      = (l.map edgeData).map (fun d => (⟨d.1, d.2.1, d.2.2, false⟩ : Edge)) := by
    intro l
    rw [List.map_map]
    rfl
  rw [key es, key es', h]

/-- The function `highlightCriticalPath` changes critical flags only. -/
theorem highlightCriticalPath_data (topology : Topology) (path : List String) :
    (highlightCriticalPath topology path).nodes = topology.nodes ∧
    (highlightCriticalPath topology path).edges.map edgeData = topology.edges.map edgeData := by
  refine ⟨rfl, ?_⟩
  simp only [highlightCriticalPath]
  rw [markCritical_foldl_data, List.map_map]
  rfl

/-- The outcome of `highlightCriticalPath` depends on the nodes, the path and on `from`, `to`
and `cost` of the edges only. -/
theorem highlightCriticalPath_congr (topology topology' : Topology) (path : List String)
    (hn : topology.nodes = topology'.nodes)
    (he : topology.edges.map edgeData = topology'.edges.map edgeData) :
    highlightCriticalPath topology path = highlightCriticalPath topology' path := by
  simp only [highlightCriticalPath, hn, reset_map_congr _ _ he]

theorem calculateEdgeCost_data_congr (nodes : List Node) {e e' : Edge}
    (h : edgeData e' = edgeData e) (hcur : calculateEdgeCost nodes e = e) :
    calculateEdgeCost nodes e' = e' := by
  obtain ⟨h1, h2, h3⟩ := edgeData_eq h
  have hc : (calculateEdgeCost nodes e).cost = e.cost := by rw [hcur]
  have hc' : (calculateEdgeCost nodes e').cost = (calculateEdgeCost nodes e).cost := by
    simp only [calculateEdgeCost, h1, h2]
    split <;> rfl
  have hf := calculateEdgeCost_from nodes e'
  have ht := calculateEdgeCost_to nodes e'
  have hcr : (calculateEdgeCost nodes e').critical = e'.critical := by
    simp only [calculateEdgeCost]
    split <;> rfl
  have hcost : (calculateEdgeCost nodes e').cost = e'.cost := by rw [hc', hc, h3]
  cases he : calculateEdgeCost nodes e' with
  | mk f t c cr =>
    rw [he] at hf ht hcr hcost
    cases e'
    simp only at hf ht hcr hcost
    simp [hf, ht, hcr, hcost]

theorem calculateEdgeCost_idem (nodes : List Node) (e : Edge) :
    calculateEdgeCost nodes (calculateEdgeCost nodes e) = calculateEdgeCost nodes e := by
  cases hf : nodes.find? (fun n => n.id = e.from_) <;>
    cases ht : nodes.find? (fun n => n.id = e.to_) <;>
    simp only [calculateEdgeCost, hf, ht]

/-- A topology with the nodes of `topology` whose edges agree with those of
`calculateEdgeCosts topology` in `from`, `to` and `cost` is not changed by
`calculateEdgeCosts`. -/
theorem calculateEdgeCosts_fixed (topology topology' : Topology)
    (hn : topology'.nodes = topology.nodes)
    (he : topology'.edges.map edgeData = (calculateEdgeCosts topology).edges.map edgeData) :
    calculateEdgeCosts topology' = topology' := by
  have hall : ∀ e' ∈ topology'.edges, calculateEdgeCost topology'.nodes e' = e' := by
    intro e' he'
    have hmem : edgeData e' ∈ (calculateEdgeCosts topology).edges.map edgeData := by
      rw [← he]
      exact List.mem_map_of_mem _ he'
    simp only [calculateEdgeCosts, List.map_map, List.mem_map, Function.comp] at hmem
    obtain ⟨e, _, hd⟩ := hmem
    rw [hn]
    exact calculateEdgeCost_data_congr topology.nodes hd.symm
      (calculateEdgeCost_idem topology.nodes e)
  have hmap : topology'.edges.map (calculateEdgeCost topology'.nodes) = topology'.edges := by
    conv_rhs => rw [← List.map_id topology'.edges]
    exact List.map_congr_left hall
  simp only [calculateEdgeCosts, hmap]

/-- The function `runAnalysis` reads its argument through `calculateEdgeCosts` only. -/
theorem runAnalysis_congr (algorithm : String) (topology topology' : Topology)
    (h : calculateEdgeCosts topology' = calculateEdgeCosts topology) :
    runAnalysis algorithm topology' = runAnalysis algorithm topology := by
  simp only [runAnalysis, h]

/-- The function `runAnalysis` returns for either strategy on every topology, and a second run
on the topology that the first run leaves behind has the same outcome. -/
theorem runAnalysis_fixed (algorithm : String) (topology : Topology) :
    ∃ o, runAnalysis algorithm topology = some o ∧
      runAnalysis algorithm o.topology = some o ∧
      ((∃ n ∈ topology.nodes, n.type = "internet") → o.result ≠ none) ∧
      o.topology.nodes = topology.nodes ∧
      o.topology.edges.map edgeData = (calculateEdgeCosts topology).edges.map edgeData := by
  have hCfix : calculateEdgeCosts (calculateEdgeCosts topology) = calculateEdgeCosts topology :=
    calculateEdgeCosts_fixed topology _ rfl rfl
  cases hfind : (calculateEdgeCosts topology).nodes.find? (fun n => n.type = "internet") with
  | none =>
    have hrun : runAnalysis algorithm topology
        = some ⟨calculateEdgeCosts topology, none, false⟩ := by
      simp only [runAnalysis, hfind]
    refine ⟨_, hrun, ?_, ?_, rfl, rfl⟩
    · rw [runAnalysis_congr algorithm topology _ hCfix]
      exact hrun
    · rintro ⟨n, hn, hty⟩
      rw [List.find?_eq_none] at hfind
      have := hfind n hn
      simp [hty] at this
  | some s =>
    obtain ⟨r, hr⟩ := runSearch_total algorithm (calculateEdgeCosts topology) s.id
    cases hdisp : displayAnalysisResults (calculateEdgeCosts topology) with
    | none =>
      have hrun : runAnalysis algorithm topology
          = some ⟨calculateEdgeCosts topology, some r, true⟩ := by
        simp only [runAnalysis, hfind, hr, hdisp]
      refine ⟨_, hrun, ?_, fun _ => by simp, rfl, rfl⟩
      rw [runAnalysis_congr algorithm topology _ hCfix]
      exact hrun
    | some u =>
      have hrun : runAnalysis algorithm topology
          = some ⟨highlightCriticalPath (calculateEdgeCosts topology) r.path, some r, false⟩ := by
        simp only [runAnalysis, hfind, hr, hdisp]
      obtain ⟨hHn, hHe⟩ := highlightCriticalPath_data (calculateEdgeCosts topology) r.path
      refine ⟨_, hrun, ?_, fun _ => by simp, hHn, hHe⟩
      have hfix : calculateEdgeCosts (highlightCriticalPath (calculateEdgeCosts topology) r.path)
          = highlightCriticalPath (calculateEdgeCosts topology) r.path :=
        calculateEdgeCosts_fixed topology _ hHn hHe
      have hfind' : (highlightCriticalPath (calculateEdgeCosts topology) r.path).nodes.find?
          (fun n => n.type = "internet") = some s := by rw [hHn]; exact hfind
      have hr' : runSearch algorithm
          (highlightCriticalPath (calculateEdgeCosts topology) r.path) s.id = some r := by
        rw [runSearch_congr algorithm _ (calculateEdgeCosts topology) s.id hHn hHe]
        exact hr
      have hdisp' : displayAnalysisResults
          (highlightCriticalPath (calculateEdgeCosts topology) r.path) = some u := by
        simp only [displayAnalysisResults, hHn] at hdisp ⊢
        exact hdisp
      have hhl : highlightCriticalPath
          (highlightCriticalPath (calculateEdgeCosts topology) r.path) r.path
          = highlightCriticalPath (calculateEdgeCosts topology) r.path :=
        highlightCriticalPath_congr _ _ r.path hHn hHe
      simp only [runAnalysis, hfix, hfind', hr', hdisp', hhl]


/-- C14. For every topology that contains a node of type `'internet'` and for either strategy,
`runAnalysis` returns with a result, and a second run on the topology that the first run
leaves behind returns the same result (the same path and cost) and leaves the topology,
connection costs and critical flags included, equal to its state after the first run. -/
theorem runAnalysis_idempotent (algorithm : String) (topology : Topology)
    (hsrc : ∃ n ∈ topology.nodes, n.type = "internet") :
    ∃ o₁ o₂ r, runAnalysis algorithm topology = some o₁ ∧
      runAnalysis algorithm o₁.topology = some o₂ ∧
      o₁.result = some r ∧ o₂.result = some r ∧ o₂.topology = o₁.topology := by
  obtain ⟨o, h1, h2, h3, _⟩ := runAnalysis_fixed algorithm topology
  cases hr : o.result with
  | none => exact absurd hr (h3 hsrc)
  | some r => exact ⟨o, o, r, h1, h2, hr, hr, rfl⟩

theorem runAnalysis_idempotent_witness :
    (∃ o₁ o₂ r, runAnalysis "dijkstra" defaultTopology = some o₁ ∧
      runAnalysis "dijkstra" o₁.topology = some o₂ ∧
      o₁.result = some r ∧ o₂.result = some r ∧ o₂.topology = o₁.topology) ∧
    (∃ o₁ o₂ r, runAnalysis "dfs" defaultTopology = some o₁ ∧
      runAnalysis "dfs" o₁.topology = some o₂ ∧
      o₁.result = some r ∧ o₂.result = some r ∧ o₂.topology = o₁.topology) :=
  ⟨runAnalysis_idempotent "dijkstra" defaultTopology
      ⟨⟨"internet", "internet", some []⟩, by decide!, rfl⟩,
    runAnalysis_idempotent "dfs" defaultTopology
      ⟨⟨"internet", "internet", some []⟩, by decide!, rfl⟩⟩

/-! ## Control-failure simulation -/

/-- Without a node of type `'firewall'`, `simulateFirewallOff` takes its second branch. -/
theorem simulateFirewallOff_eq_halve (topology : Topology)
    (h : ∀ n ∈ topology.nodes, n.type ≠ "firewall") :
    simulateFirewallOff topology
      = some { topology with
          edges := topology.edges.map
            (fun edge => { edge with cost := max (1 / 10) (edge.cost * (1 / 2)) }) } := by
  have hfind : topology.nodes.find? (fun n => n.type = "firewall") = none := by
    rw [List.find?_eq_none]
    intro n hn
    simpa using h n hn
  simp only [simulateFirewallOff, hfind]

/-- C15. For every topology with no node of type `'firewall'`, `simulateFirewallOff` returns a
topology with the same nodes (hence the same vulnerability lists) and the same number of
connections, in which every connection is the former one with its cost `c` replaced by
`max(0.1, c / 2)`: endpoints and flags are unchanged. -/
theorem simulateFirewallOff_no_firewall (topology : Topology)
    (h : ∀ n ∈ topology.nodes, n.type ≠ "firewall") :
    ∃ topology', simulateFirewallOff topology = some topology' ∧
      topology'.nodes = topology.nodes ∧
      topology'.edges.length = topology.edges.length ∧
      ∀ (i : Nat) (e : Edge), topology.edges[i]? = some e →
        topology'.edges[i]? = some { e with cost := max (1 / 10) (e.cost / 2) } := by
  refine ⟨_, simulateFirewallOff_eq_halve topology h, rfl, by simp, ?_⟩
  intro i e he
  simp only [List.getElem?_map, he, Option.map_some', mul_one_div]

theorem simulateFirewallOff_no_firewall_witness :
    ∃ topology', simulateFirewallOff loadDefaultTopology = some topology' ∧
      topology'.nodes = loadDefaultTopology.nodes ∧
      topology'.edges.length = loadDefaultTopology.edges.length ∧
      ∀ (i : Nat) (e : Edge), loadDefaultTopology.edges[i]? = some e →
        topology'.edges[i]? = some { e with cost := max (1 / 10) (e.cost / 2) } :=
  simulateFirewallOff_no_firewall loadDefaultTopology (by decide)

theorem calculateEdgeCost_cost_irrelevant (nodes : List Node) (e : Edge) (c : ℚ) :
    calculateEdgeCost nodes { e with cost := c } = calculateEdgeCost nodes e := by
  cases hf : nodes.find? (fun n => n.id = e.from_) <;>
    cases ht : nodes.find? (fun n => n.id = e.to_) <;>
    simp only [calculateEdgeCost, hf, ht]

/-- C18. For every topology with no node of type `'firewall'` whose connection costs are
current, `simulateFirewallOff` followed by `runAnalysis` has the same outcome as `runAnalysis`
alone, so the returned path and cost are those returned before the simulation, and every
connection cost is back at its value before the simulation. -/
theorem runAnalysis_after_firewallOff (algorithm : String) (topology : Topology)
    (hno : ∀ n ∈ topology.nodes, n.type ≠ "firewall")
    (hcur : calculateEdgeCosts topology = topology) :
    ∃ topology' o, simulateFirewallOff topology = some topology' ∧
      runAnalysis algorithm topology' = some o ∧
      runAnalysis algorithm topology = some o ∧
      o.topology.edges.map (fun e => e.cost) = topology.edges.map (fun e => e.cost) := by
  obtain ⟨o, h1, _, _, _, h5⟩ := runAnalysis_fixed algorithm topology
  refine ⟨_, o, simulateFirewallOff_eq_halve topology hno, ?_, h1, ?_⟩
  · rw [runAnalysis_congr algorithm topology _ ?_]
    · exact h1
    · simp only [calculateEdgeCosts, List.map_map]
      congr 1
  · rw [hcur] at h5
    have := congrArg (List.map (fun d : String × String × ℚ => d.2.2)) h5
    simpa [List.map_map, Function.comp, edgeData] using this

theorem runAnalysis_after_firewallOff_witness :
    ∃ topology' o, simulateFirewallOff loadDefaultTopology = some topology' ∧
      runAnalysis "dijkstra" topology' = some o ∧
      runAnalysis "dijkstra" loadDefaultTopology = some o ∧
      o.topology.edges.map (fun e => e.cost)
        = loadDefaultTopology.edges.map (fun e => e.cost) :=
  runAnalysis_after_firewallOff "dijkstra" loadDefaultTopology (by decide) (by decide!)


/-! ## Termination of the enumeration -/

theorem enumPaths_fuel_succ (edges : List Edge) :
    ∀ (fuel : Nat) (current target : String) (path : List String) (totalCost : ℚ)
      (visited : List String),
      freeTargets edges (setAdd visited current) < fuel →
      enumPaths edges (fuel + 1) current target path totalCost visited
        = enumPaths edges fuel current target path totalCost visited := by
  intro fuel
  induction fuel with
  | zero => intro _ _ _ _ _ h; exact absurd h (Nat.not_lt_zero _)
  | succ fuel ih =>
    intro current target path totalCost visited hfuel
    rw [enumPaths, enumPaths]
    by_cases ht : current = target
    · simp only [ht, if_true]
    · simp only [ht, if_false]
      apply List.flatMap_congr
      intro e he
      simp only [List.mem_filter, decide_eq_true_eq] at he
      apply ih
      have := freeTargets_setAdd_lt edges (setAdd visited current) e he.1 he.2.2
      omega

theorem enumPaths_fuel_le (edges : List Edge) (fuel fuel' : Nat) (hle : fuel ≤ fuel')
    (current target : String) (path : List String) (totalCost : ℚ) (visited : List String)
    (hfuel : freeTargets edges (setAdd visited current) < fuel) :
    enumPaths edges fuel' current target path totalCost visited
      = enumPaths edges fuel current target path totalCost visited := by
  induction fuel', hle using Nat.le_induction with
  | base => rfl
  | succ n hn ih =>
    rw [enumPaths_fuel_succ edges n current target path totalCost visited (by omega), ih]

/-- C17. The function `findAllPathsDFS` returns on every topology, cycles and self-loops
included.  A call of the inner function `dfs` on an id that is not yet visited returns as soon
as the fuel exceeds the number of edge destinations that are then unvisited, it leaves
`visited` as it found it, and more fuel does not change its result; a recursive call along
an edge to an unvisited id adds that id to `visited` and so lowers that number. -/
theorem findAllPathsDFS_terminates :
    (∀ (topology : Topology) (sourceId : String),
      ∃ r, findAllPathsDFS topology sourceId = some r) ∧
    (∀ (edges : List Edge) (fuel : Nat) (current target : String) (path : List String)
      (totalCost : ℚ) (st : DfsState),
      current ∉ st.visited → freeTargets edges (setAdd st.visited current) < fuel →
      ∃ st', dfs edges fuel current target path totalCost st = some st' ∧
        st'.visited = st.visited ∧
        ∀ fuel', fuel ≤ fuel' →
          dfs edges fuel' current target path totalCost st = some st') ∧
    (∀ (edges : List Edge) (visited : List String) (e : Edge), e ∈ edges →
      e.to_ ∉ visited →
      freeTargets edges (setAdd visited e.to_) < freeTargets edges visited) := by
  refine ⟨?_, ?_, ?_⟩
  · intro topology sourceId
    obtain ⟨r, hr, _⟩ := findAllPathsDFS_allPaths topology sourceId
    exact ⟨r, hr⟩
  · intro edges fuel current target path totalCost st hcur hfuel
    refine ⟨_, dfs_eq_enumPaths edges fuel current target path totalCost st hcur hfuel, rfl,
      ?_⟩
    intro fuel' hle
    rw [dfs_eq_enumPaths edges fuel' current target path totalCost st hcur (by omega),
      enumPaths_fuel_le edges fuel fuel' hle current target path totalCost st.visited hfuel]
  · intro edges visited e he hto
    exact freeTargets_setAdd_lt edges visited e he hto

theorem findAllPathsDFS_terminates_witness :
    findAllPathsDFS cyclicTopology "internet"
      = some { path := ["internet", "a"], cost := 1, score := none,
               allPaths := some [⟨["internet", "a"], 1⟩, ⟨["internet", "a", "b"], 3⟩] } ∧
    (∃ r, findAllPathsDFS cyclicTopology "internet" = some r) ∧
    (∃ st', dfs cyclicTopology.edges 6 "internet" "b" ["internet"] 0 ⟨[], []⟩ = some st' ∧
      st'.visited = [] ∧
      ∀ fuel', 6 ≤ fuel' →
        dfs cyclicTopology.edges fuel' "internet" "b" ["internet"] 0 ⟨[], []⟩ = some st') :=
  ⟨by decide!, findAllPathsDFS_terminates.1 cyclicTopology "internet",
    findAllPathsDFS_terminates.2.1 cyclicTopology.edges 6 "internet" "b" ["internet"] 0
      ⟨[], []⟩ (by simp) (by decide)⟩


/-! ## Remediation simulation -/

/-- The positions that the filter of `simulatePatchApplied` keeps are those of the nodes that
are not of type `'internet'` and have at least one record. -/
theorem vulnerableNodesFrom_spec :
    ∀ (l : List Node) (start : Nat) (vs : List Nat), vulnerableNodesFrom start l = some vs →
      ∀ i, i ∈ vs ↔ start ≤ i ∧ ∃ n cves, l[i - start]? = some n ∧ n.cves = some cves ∧
        0 < cves.length ∧ n.type ≠ "internet" := by
  intro l
  induction l with
  | nil =>
    intro start vs h i
    simp only [vulnerableNodesFrom, Option.some.injEq] at h
    subst h
    simp
  | cons n rest ih =>
    intro start vs h i
    unfold vulnerableNodesFrom at h
    cases hc : n.cves with
    | none => simp [hc] at h
    | some cves =>
      simp only [hc] at h
      cases hr : vulnerableNodesFrom (start + 1) rest with
      | none => simp [hr] at h
      | some is =>
        simp only [hr, Option.map_some', Option.some.injEq] at h
        have hrest := ih (start + 1) is hr i
        by_cases hi : i = start
        · subst hi
          have hnot : i ∉ is := by
            intro hmem
            have := (ih (i + 1) is hr i).mp hmem
            omega
          subst h
          by_cases hk : cves.length > 0 ∧ n.type ≠ "internet"
          · rw [if_pos hk]
            refine ⟨fun _ => ⟨le_refl _, n, cves, by simp, hc, hk.1, hk.2⟩, fun _ => ?_⟩
            exact List.mem_cons_self _ _
          · rw [if_neg hk]
            refine ⟨fun hmem => absurd hmem hnot, ?_⟩
            rintro ⟨_, n', cves', hget, hc', h1, h2⟩
            simp only [Nat.sub_self, List.getElem?_cons_zero, Option.some.injEq] at hget
            subst hget
            rw [hc] at hc'
            cases hc'
            exact absurd ⟨h1, h2⟩ hk
        · have hmem : i ∈ vs ↔ i ∈ is := by
            subst h
            split
            · simp [hi]
            · rfl
          rw [hmem, hrest]
          constructor
          · rintro ⟨hle, n', cves', hget, hrest'⟩
            refine ⟨by omega, n', cves', ?_, hrest'⟩
            have : i - start = (i - (start + 1)) + 1 := by omega
            rw [this, List.getElem?_cons_succ]
            exact hget
          · rintro ⟨hle, n', cves', hget, hrest'⟩
            have hlt : start < i := lt_of_le_of_ne hle (fun h => hi h.symm)
            refine ⟨by omega, n', cves', ?_, hrest'⟩
            have : i - start = (i - (start + 1)) + 1 := by omega
            rw [this, List.getElem?_cons_succ] at hget
            exact hget

theorem vulnerableNodesFrom_total :
    ∀ (l : List Node) (start : Nat), (∀ n ∈ l, n.cves ≠ none) →
      ∃ vs, vulnerableNodesFrom start l = some vs := by
  intro l
  induction l with
  | nil => intro _ _; exact ⟨[], rfl⟩
  | cons n rest ih =>
    intro start h
    obtain ⟨is, his⟩ := ih (start + 1) (fun m hm => h m (List.mem_cons_of_mem _ hm))
    cases hc : n.cves with
    | none => exact absurd hc (h n (List.mem_cons_self _ _))
    | some cves =>
      exact ⟨if cves.length > 0 ∧ n.type ≠ "internet" then start :: is else is,
        by simp only [vulnerableNodesFrom, hc, his, Option.map_some']⟩

theorem modifyNodeAt_length (f : Node → Node) :
    ∀ (i : Nat) (l : List Node), (modifyNodeAt f i l).length = l.length := by
  intro i l
  induction l generalizing i with
  | nil => cases i <;> rfl
  | cons n rest ih =>
    cases i with
    | zero => rfl
    | succ i => simp only [modifyNodeAt, List.length_cons, ih]

theorem modifyNodeAt_getElem?_eq (f : Node → Node) :
    ∀ (i : Nat) (l : List Node), (modifyNodeAt f i l)[i]? = (l[i]?).map f := by
  intro i l
  induction l generalizing i with
  | nil => cases i <;> rfl
  | cons n rest ih =>
    cases i with
    | zero => simp [modifyNodeAt]
    | succ i => simp only [modifyNodeAt, List.getElem?_cons_succ, ih]

theorem modifyNodeAt_getElem?_ne (f : Node → Node) :
    ∀ (i j : Nat) (l : List Node), j ≠ i → (modifyNodeAt f i l)[j]? = l[j]? := by
  intro i j l
  induction l generalizing i j with
  | nil => intro _; cases i <;> rfl
  | cons n rest ih =>
    intro hne
    cases i with
    | zero =>
      cases j with
      | zero => exact absurd rfl hne
      | succ j => rfl
    | succ i =>
      cases j with
      | zero => simp [modifyNodeAt]
      | succ j =>
        simp only [modifyNodeAt, List.getElem?_cons_succ]
        exact ih i j (fun h => hne (by rw [h]))


theorem vulnerableNodesFrom_cves :
    ∀ (l : List Node) (start : Nat) (vs : List Nat), vulnerableNodesFrom start l = some vs →
      ∀ n ∈ l, n.cves ≠ none := by
  intro l
  induction l with
  | nil => intro _ _ _ n hn; simp at hn
  | cons m rest ih =>
    intro start vs h n hn
    unfold vulnerableNodesFrom at h
    cases hc : m.cves with
    | none => simp [hc] at h
    | some cves =>
      simp only [hc] at h
      cases hr : vulnerableNodesFrom (start + 1) rest with
      | none => simp [hr] at h
      | some is =>
        rcases List.mem_cons.mp hn with rfl | hn
        · rw [hc]; simp
        · exact ih (start + 1) is hr n hn

/-- C16. Whenever `simulatePatchApplied` returns, the connections are unchanged and either
no node is not of type `'internet'` with at least one record and nothing changes, or exactly
one node is treated: it is not of type `'internet'`, it had at least one record, it now holds
its former records of severity below `7` in their former order, so none of severity `7` or
more, and every other node is unchanged.  The function returns for every value of
`Math.random()` in `[0, 1)` when every node has a `cves` array. -/
theorem simulatePatchApplied_spec (random : ℚ) (topology : Topology) :
    (∀ topology', simulatePatchApplied random topology = some topology' →
      topology'.edges = topology.edges ∧
      ((topology' = topology ∧
          ∀ n ∈ topology.nodes, n.type = "internet" ∨ n.cves = some []) ∨
        ∃ (i : Nat) (n : Node) (cves : List Cve), topology.nodes[i]? = some n ∧
          n.type ≠ "internet" ∧
          n.cves = some cves ∧ cves ≠ [] ∧
          topology'.nodes.length = topology.nodes.length ∧
          topology'.nodes[i]?
            = some { n with cves := some (cves.filter (fun cve => cve.cvssScore < 7)) } ∧
          (∀ cve ∈ cves.filter (fun cve => cve.cvssScore < 7), ¬ 7 ≤ cve.cvssScore) ∧
          ∀ j, j ≠ i → topology'.nodes[j]? = topology.nodes[j]?)) ∧
    (0 ≤ random → random < 1 → (∀ n ∈ topology.nodes, n.cves ≠ none) →
      ∃ topology', simulatePatchApplied random topology = some topology') := by
  constructor
  · intro topology' h
    unfold simulatePatchApplied at h
    cases hv : vulnerableNodesFrom 0 topology.nodes with
    | none => simp [hv] at h
    | some vs =>
      simp only [hv] at h
      have hspec := vulnerableNodesFrom_spec topology.nodes 0 vs hv
      by_cases hlen : vs.length > 0
      · rw [if_pos hlen] at h
        cases hk : vs[Nat.floor (random * (vs.length : ℚ))]? with
        | none => simp [hk] at h
        | some i =>
          simp only [hk, Option.some.injEq] at h
          subst h
          obtain ⟨_, n, cves, hget, hc, hpos, hty⟩ := (hspec i).mp (List.getElem?_mem hk)
          simp only [Nat.sub_zero] at hget
          refine ⟨rfl, Or.inr ⟨i, n, cves, hget, hty, hc, ?_, ?_, ?_, ?_, ?_⟩⟩
          · intro hnil
            rw [hnil] at hpos
            exact absurd hpos (by simp)
          · exact modifyNodeAt_length _ _ _
          · simp only [modifyNodeAt_getElem?_eq, hget, Option.map_some', patchNode, hc]
          · intro cve hcve
            have := (List.mem_filter.mp hcve).2
            simp only [decide_eq_true_eq] at this
            exact not_le.mpr this
          · intro j hj
            exact modifyNodeAt_getElem?_ne _ _ _ _ hj
      · rw [if_neg hlen] at h
        simp only [Option.some.injEq] at h
        subst h
        refine ⟨rfl, Or.inl ⟨rfl, ?_⟩⟩
        intro n hn
        have hnil : vs = [] := List.length_eq_zero.mp (by omega)
        obtain ⟨i, hi⟩ := List.mem_iff_getElem?.mp hn
        have hnone := vulnerableNodesFrom_cves topology.nodes 0 vs hv n hn
        cases hc : n.cves with
        | none => exact absurd hc hnone
        | some cves =>
          by_cases hty : n.type = "internet"
          · exact Or.inl hty
          · right
            cases cves with
            | nil => rfl
            | cons c cs =>
              have : i ∈ vs := (hspec i).mpr
                ⟨Nat.zero_le _, n, c :: cs, by simpa using hi, hc, by simp, hty⟩
              rw [hnil] at this
              exact absurd this (List.not_mem_nil _)
  · intro h0 h1 hcves
    obtain ⟨vs, hv⟩ := vulnerableNodesFrom_total topology.nodes 0 hcves
    unfold simulatePatchApplied
    simp only [hv]
    by_cases hlen : vs.length > 0
    · rw [if_pos hlen]
      have hpos : (0 : ℚ) < (vs.length : ℚ) := by exact_mod_cast hlen
      have hlt : Nat.floor (random * (vs.length : ℚ)) < vs.length := by
        rw [Nat.floor_lt (mul_nonneg h0 (le_of_lt hpos))]
        nlinarith
      rw [List.getElem?_eq_getElem hlt]
      exact ⟨_, rfl⟩
    · rw [if_neg hlen]
      exact ⟨_, rfl⟩

theorem simulatePatchApplied_spec_witness :
    (simulatePatchApplied (1 / 2) defaultTopology).map
        (fun t => t.nodes.map (fun n => (n.cves.getD []).map (fun cve => cve.cvssScore)))
      = some [[], [98 / 10, 75 / 10, 62 / 10], [], [78 / 10]] ∧
    ∃ topology', simulatePatchApplied (1 / 2) defaultTopology = some topology' ∧
      topology'.edges = defaultTopology.edges ∧
      ((topology' = defaultTopology ∧
          ∀ n ∈ defaultTopology.nodes, n.type = "internet" ∨ n.cves = some []) ∨
        ∃ (i : Nat) (n : Node) (cves : List Cve), defaultTopology.nodes[i]? = some n ∧
          n.type ≠ "internet" ∧
          n.cves = some cves ∧ cves ≠ [] ∧
          topology'.nodes.length = defaultTopology.nodes.length ∧
          topology'.nodes[i]?
            = some { n with cves := some (cves.filter (fun cve => cve.cvssScore < 7)) } ∧
          (∀ cve ∈ cves.filter (fun cve => cve.cvssScore < 7), ¬ 7 ≤ cve.cvssScore) ∧
          ∀ j, j ≠ i → topology'.nodes[j]? = defaultTopology.nodes[j]?) := by
  refine ⟨by decide!, ?_⟩
  obtain ⟨topology', h⟩ :=
    (simulatePatchApplied_spec (1 / 2) defaultTopology).2 (by norm_num) (by norm_num)
      (by
        intro n hn
        simp only [defaultTopology, List.mem_cons, List.mem_singleton, List.not_mem_nil,
          or_false] at hn
        rcases hn with rfl | rfl | rfl | rfl <;> simp)
  obtain ⟨h1, h2⟩ := (simulatePatchApplied_spec (1 / 2) defaultTopology).1 topology' h
  exact ⟨topology', h, h1, h2⟩


end AttackGraph
